/-
  Verification of the incremental tree-layout engine of the Clarity repository
  (src/Context_Trees.tsx).

  The engine keeps a module-level `lockedPositions` map from node id to an
  `{x, y}` coordinate and, on every snapshot change, runs `layoutNodes`:
  it sorts the conversation nodes by creation timestamp, assigns a candidate
  position to every node that has no locked position yet, resolves collisions
  by shifting existing branches right, and emits renderable nodes and edges.

  This file is a shallow embedding of that code: the mutable `Map` becomes an
  association list threaded through the functions (JS `Map` iteration order is
  insertion order, and `set` of an existing key updates the value in place,
  which the association-list operations below reproduce); `Date` timestamps
  become `Nat`; coordinates become `Int`.  Unbounded TS recursion over the
  parent/child graph is given explicit fuel (`allNodes.length` bounds the
  recursion depth for any acyclic snapshot, which is the only kind the data
  invariant of the spec allows).
-/
import Mathlib

namespace Clarity

/-- A conversation node as far as layout is concerned: `id`, nullable
`parentId`, and creation `timestamp` (`Date.getTime`, modelled as `Nat`).
The `prompt`/`response`/`branchLabel` fields of the TS interface do not
influence layout and are omitted. -/
structure CNode where
  id : String
  parentId : Option String
  timestamp : Nat
deriving Repr, DecidableEq

/-- `TreeData`: the flat node collection plus the active node id. -/
structure TreeData where
  nodes : List CNode
  activeNodeId : Option String
deriving Repr, DecidableEq

/-- A locked position: the `{x, y}` value stored in `lockedPositions`. -/
abbrev Pos := Int × Int

/-- The `lockedPositions` map, as an association list in insertion order
(mirroring JS `Map` iteration semantics). -/
abbrev PosMap := List (String × Pos)

def mapGet (m : PosMap) (k : String) : Option Pos :=
  (m.find? (fun e => e.1 = k)).map (·.2)

def mapHas (m : PosMap) (k : String) : Bool :=
  (mapGet m k).isSome

/-- JS `Map.set`: an existing key keeps its place in iteration order and only
its value is replaced; a fresh key is appended at the end. -/
def mapSet (m : PosMap) (k : String) (v : Pos) : PosMap :=
  if mapHas m k then m.map (fun e => if e.1 = k then (k, v) else e)
  else m ++ [(k, v)]

/-- JS `Map.delete`. -/
def mapDelete (m : PosMap) (k : String) : PosMap :=
  m.filter (fun e => e.1 ≠ k)

/-- `const pos = lockedPositions.get(id); if (pos) pos.x += s;` — the in-place
x-mutation used by the branch shifters; a missing key is left alone. -/
def mapAdjustX (m : PosMap) (k : String) (s : Int) : PosMap :=
  m.map (fun e => if e.1 = k then (e.1, (e.2.1 + s, e.2.2)) else e)

/-- The keys of the store in iteration (insertion) order. -/
def mapKeys (m : PosMap) : List String := m.map (·.1)

-- Layout constants from the source.
def nodeWidth : Int := 380
def nodeHeight : Int := 140
def verticalSpacing : Int := 180
def horizontalSpacing : Int := 450
def minHorizontalGap : Int := 50

/-- `Math.abs` on the integer coordinates. -/
def intAbs (a : Int) : Int := if a < 0 then -a else a

/-- `wouldOverlap`: rectangular overlap test — horizontal distance below
`nodeWidth + minHorizontalGap` AND vertical distance below `nodeHeight + 20`. -/
def wouldOverlap (p1 p2 : Pos) : Bool :=
  decide (intAbs (p1.1 - p2.1) < nodeWidth + minHorizontalGap) &&
  decide (intAbs (p1.2 - p2.2) < nodeHeight + 20)

/-- `getAllDescendants` with explicit recursion fuel: for each child of
`nodeId` (in list order) push the child's id followed by the child's own
descendants.  The TS function recurses without fuel; fuel `allNodes.length`
is enough for every acyclic snapshot. -/
def getAllDescendantsF : Nat → String → List CNode → List String
  | 0, _, _ => []
  | fuel + 1, nodeId, allNodes =>
    (allNodes.filter (fun n => n.parentId = some nodeId)).flatMap
      (fun child => child.id :: getAllDescendantsF fuel child.id allNodes)

/-- `getAllDescendants` at its natural fuel.  The second copy of this helper
inside the React component (used by `handleDeleteNode`) produces the same
list. -/
def getAllDescendants (nodeId : String) (allNodes : List CNode) : List String :=
  getAllDescendantsF allNodes.length nodeId allNodes

/-- Shift each id of a list by `s` on the x axis (skipping unplaced ids), in
list order. -/
def shiftIds (ids : List String) (s : Int) (m : PosMap) : PosMap :=
  ids.foldl (fun m id => mapAdjustX m id s) m

/-- `shiftBranchRight`: move `nodeId` and its entire descendant set right by
`shiftAmount`. -/
def shiftBranchRight (nodeId : String) (shiftAmount : Int)
    (allNodes : List CNode) (m : PosMap) : PosMap :=
  shiftIds (nodeId :: getAllDescendants nodeId allNodes) shiftAmount m

/-- `shiftBranchLeft`: the mirror helper (`pos.x -= shiftAmount`); it is
defined in the source but never called by the layout pass. -/
def shiftBranchLeft (nodeId : String) (shiftAmount : Int)
    (allNodes : List CNode) (m : PosMap) : PosMap :=
  shiftIds (nodeId :: getAllDescendants nodeId allNodes) (-shiftAmount) m

/-- One level of the `shiftAllAncestorSiblings` walk: given the current
node, look up its parent (`ancestor`), shift every sibling of that ancestor
whose current x exceeds the current x of `pid` (the id of the inserted
node's parent — the TS code holds a live reference `parentPos` to that
node's position object, so the comparison always sees its current value),
then continue from the ancestor.  `fallback` is the x the reference held
when the walk started; it is only consulted if the parent's entry were
removed mid-walk, which no caller does. -/
def ancestorWalk : Nat → CNode → String → Int → List CNode → PosMap → PosMap
  | 0, _, _, _, _, m => m
  | fuel + 1, currentNode, pid, fallback, allNodes, m =>
    match currentNode.parentId with
    | none => m
    | some aid =>
      match allNodes.find? (fun n => n.id = aid) with
      | none => m
      | some ancestor =>
        let siblings := allNodes.filter
          (fun n => n.parentId = ancestor.parentId && n.id ≠ ancestor.id)
        let m' := siblings.foldl (fun m sibling =>
          match mapGet m sibling.id with
          | none => m
          | some siblingPos =>
            let thr := match mapGet m pid with
              | some pp => pp.1
              | none => fallback
            if siblingPos.1 > thr then
              shiftBranchRight sibling.id horizontalSpacing allNodes m
            else m) m
        ancestorWalk fuel ancestor pid fallback allNodes m'

/-- `shiftAllAncestorSiblings`: starting from the freshly inserted node, walk
up through every ancestor and shift right (by one `horizontalSpacing`, as a
whole branch) each of that ancestor's siblings whose current x exceeds the
current x of the inserted node's parent.  Returns the store unchanged when
the node, its parent, or the parent's locked position is missing. -/
def shiftAllAncestorSiblings (nodeId : String) (allNodes : List CNode)
    (m : PosMap) : PosMap :=
  match allNodes.find? (fun n => n.id = nodeId) with
  | none => m
  | some node =>
    match node.parentId with
    | none => m
    | some pid =>
      match allNodes.find? (fun n => n.id = pid) with
      | none => m
      | some parent =>
        match mapGet m parent.id with
        | none => m
        | some parentPos =>
          ancestorWalk allNodes.length node parent.id parentPos.1 allNodes m

/-- `getRightmostDescendantX`: largest locked x among `nodeId` (defaulting to
0 when unplaced) and its placed descendants. -/
def getRightmostDescendantX (nodeId : String) (allNodes : List CNode)
    (m : PosMap) : Int :=
  (getAllDescendants nodeId allNodes).foldl
    (fun rightmostX descId =>
      match mapGet m descId with
      | some pos => if pos.1 > rightmostX then pos.1 else rightmostX
      | none => rightmostX)
    ((mapGet m nodeId).map (·.1) |>.getD 0)

/-- One scan of the collision-resolution loop body: iterate over the store's
keys (the key set does not change during a scan; positions may, and each
check reads the position current at that moment), shifting every placed node
other than the one being placed that overlaps the candidate.  Returns the
updated store and whether any overlap was found. -/
def collideScan (selfId : String) (desired : Pos) (allNodes : List CNode)
    (keys : List String) (m : PosMap) : PosMap × Bool :=
  keys.foldl (fun acc existingNodeId =>
    match mapGet acc.1 existingNodeId with
    | none => acc
    | some existingPos =>
      if existingNodeId ≠ selfId && wouldOverlap desired existingPos then
        (shiftBranchRight existingNodeId horizontalSpacing allNodes acc.1, true)
      else acc) (m, false)

/-- The `while (hasOverlap && iterations < maxIterations)` loop: run scans
until one finds no overlap, for at most `fuel` (= 50) scans. -/
def resolveCollisions : Nat → String → Pos → List CNode → PosMap → PosMap
  | 0, _, _, _, m => m
  | fuel + 1, selfId, desired, allNodes, m =>
    let (m', hit) := collideScan selfId desired allNodes (mapKeys m) m
    if hit then resolveCollisions fuel selfId desired allNodes m' else m'

/-- Whether the collision loop exits by a clean scan (no overlap found)
within `fuel` scans — i.e. without hitting the iteration ceiling. -/
def resolveExitsEarly : Nat → String → Pos → List CNode → PosMap → Bool
  | 0, _, _, _, _ => false
  | fuel + 1, selfId, desired, allNodes, m =>
    let (m', hit) := collideScan selfId desired allNodes (mapKeys m) m
    if hit then resolveExitsEarly fuel selfId desired allNodes m' else true

/-- Whether the collision-resolution loop run by the placement step for
`node` exits before its 50-iteration ceiling (mirrors the branch structure of
`placeOne`; steps that run no loop trivially exit early). -/
def placeOneExitsEarly (srt : List CNode) (m : PosMap) (node : CNode) : Bool :=
  if mapHas m node.id then true
  else
    match node.parentId with
    | none => true
    | some pid =>
      match mapGet m pid with
      | none => true
      | some parentPos =>
        let siblings := srt.filter (fun n => n.parentId = some pid)
        let siblingIndex := siblings.findIdx (fun n => n.id = node.id)
        if siblingIndex = 0 then
          resolveExitsEarly 50 node.id (parentPos.1, parentPos.2 + verticalSpacing) srt m
        else
          let rightmostDescendantX :=
            match srt.find? (fun n => n.id = pid) with
            | some parent => getRightmostDescendantX parent.id srt m
            | none => parentPos.1
          let minBranchX := max (parentPos.1 + (siblingIndex : Int) * horizontalSpacing)
            (rightmostDescendantX + horizontalSpacing)
          resolveExitsEarly 50 node.id (minBranchX, parentPos.2 + verticalSpacing) srt
            (shiftAllAncestorSiblings node.id srt m)

/-- The per-node body of the placement loop of `layoutNodes` (lines 175–245):
skip nodes that already hold a locked position; lock parentless nodes at the
origin; for a node whose parent is placed, compute the candidate (first child:
directly below the parent; branch: right of the parent and of the parent's
placed subtree), run ancestor-sibling displacement for branches, resolve
collisions, and lock the candidate.  A node whose parent has no locked
position is skipped. -/
def placeOne (srt : List CNode) (m : PosMap) (node : CNode) : PosMap :=
  if mapHas m node.id then m
  else
    match node.parentId with
    | none => mapSet m node.id (0, 0)
    | some pid =>
      match mapGet m pid with
      | none => m
      | some parentPos =>
        let siblings := srt.filter (fun n => n.parentId = some pid)
        let siblingIndex := siblings.findIdx (fun n => n.id = node.id)
        if siblingIndex = 0 then
          let desired : Pos := (parentPos.1, parentPos.2 + verticalSpacing)
          let m1 := resolveCollisions 50 node.id desired srt m
          mapSet m1 node.id desired
        else
          let rightmostDescendantX :=
            match srt.find? (fun n => n.id = pid) with
            | some parent => getRightmostDescendantX parent.id srt m
            | none => parentPos.1
          let minBranchX := max (parentPos.1 + (siblingIndex : Int) * horizontalSpacing)
            (rightmostDescendantX + horizontalSpacing)
          let desired : Pos := (minBranchX, parentPos.2 + verticalSpacing)
          let m1 := shiftAllAncestorSiblings node.id srt m
          let m2 := resolveCollisions 50 node.id desired srt m1
          mapSet m2 node.id desired

/-- The placement pass: fold `placeOne` over the timestamp-sorted node list. -/
def layoutPass (srt : List CNode) (m : PosMap) : PosMap :=
  srt.foldl (placeOne srt) m

/-- Stable ascending insertion into a timestamp-sorted list — the effect of
`[...nodes].sort((a, b) => ta - tb)` on one element. -/
def insertByTimestamp (x : CNode) : List CNode → List CNode
  | [] => [x]
  | y :: ys =>
    if y.timestamp < x.timestamp then y :: insertByTimestamp x ys
    else x :: y :: ys

/-- Stable sort by ascending creation timestamp. -/
def sortByTimestamp (l : List CNode) : List CNode :=
  l.foldr insertByTimestamp []

/-- `isNodeInActivePath`: walk parent links up from the active node; `false`
when no active node is set.  Fuel bounds the walk on acyclic snapshots. -/
def isNodeInActivePathF : Nat → String → Option String → List CNode → Bool
  | 0, _, _, _ => false
  | _, _, none, _ => false
  | fuel + 1, nodeId, some currentId, nodes =>
    if currentId = nodeId then true
    else
      isNodeInActivePathF fuel nodeId
        ((nodes.find? (fun n => n.id = currentId)).bind (·.parentId)) nodes

def isNodeInActivePath (nodeId : String) (td : TreeData) : Bool :=
  isNodeInActivePathF (td.nodes.length + 1) nodeId td.activeNodeId td.nodes

/-- A renderable node: the emitted position is the locked position (origin
fallback for unplaced nodes) with x offset by half the node width. -/
structure RNode where
  id : String
  x : Int
  y : Int
  isActive : Bool
  isInActivePath : Bool
deriving Repr, DecidableEq

/-- A renderable edge (one per node with a parent; `animated` iff the target
is the active node). -/
structure REdge where
  source : String
  target : String
  animated : Bool
deriving Repr, DecidableEq

/-- The edge list built at the top of `layoutNodes`. -/
def layoutEdges (srt : List CNode) (activeNodeId : Option String) : List REdge :=
  srt.filterMap (fun node =>
    match node.parentId with
    | some pid => some ⟨pid, node.id, activeNodeId = some node.id⟩
    | none => none)

/-- The node list emitted at the bottom of `layoutNodes`: every node of the
snapshot, at its locked position (or the `{x:0,y:0}` fallback), x shifted
left by `nodeWidth / 2`. -/
def emitNodes (srt : List CNode) (td : TreeData) (m : PosMap) : List RNode :=
  srt.map (fun node =>
    let position := (mapGet m node.id).getD (0, 0)
    ⟨node.id, position.1 - nodeWidth / 2, position.2,
      node.id = td.activeNodeId.getD "", isNodeInActivePath node.id td⟩)

/-- `layoutNodes`: sort, build edges, run the placement pass against the
store, and emit renderable nodes and edges together with the updated store. -/
def layoutNodes (td : TreeData) (m : PosMap) :
    List RNode × List REdge × PosMap :=
  let sortedNodes := sortByTimestamp td.nodes
  let edges := layoutEdges sortedNodes td.activeNodeId
  let m' := layoutPass sortedNodes m
  (emitNodes sortedNodes td m', edges, m')

/-- The store after a layout pass on snapshot `td` (the mutation `layoutNodes`
performs on the module-level `lockedPositions`). -/
def layoutStore (td : TreeData) (m : PosMap) : PosMap :=
  layoutPass (sortByTimestamp td.nodes) m

/-- `handleDeleteNode`: delete a node and its descendant set from the
snapshot and the store, then clear every locked position except the first
surviving root's, and repair the active node id (most recent survivor when
the active node was deleted). Deleting an unknown id is a no-op. -/
def handleDeleteNode (nodeId : String) (td : TreeData) (m : PosMap) :
    TreeData × PosMap :=
  match td.nodes.find? (fun n => n.id = nodeId) with
  | none => (td, m)
  | some _ =>
    let descendants := getAllDescendants nodeId td.nodes
    let idsToDelete := nodeId :: descendants
    let remainingNodes := td.nodes.filter (fun n => ¬ idsToDelete.contains n.id)
    let m1 := idsToDelete.foldl mapDelete m
    let m2 : PosMap :=
      match remainingNodes.find? (fun n => n.parentId = none) with
      | none => []
      | some rootNode =>
        match mapGet m1 rootNode.id with
        | none => []
        | some rootPosition => [(rootNode.id, rootPosition)]
    let newActiveNodeId :=
      if idsToDelete.contains (td.activeNodeId.getD "") then
        (remainingNodes.getLast?).map (·.id)
      else td.activeNodeId
    (⟨remainingNodes, newActiveNodeId⟩, m2)

/-! ### Association-list (JS `Map`) lemmas -/

theorem mapGet_nil (k : String) : mapGet [] k = none := rfl

theorem mapGet_cons (e : String × Pos) (m : PosMap) (k : String) :
    mapGet (e :: m) k = if e.1 = k then some e.2 else mapGet m k := by
  by_cases h : e.1 = k <;> simp [mapGet, List.find?, h]

theorem mapGet_mapAdjustX_self (m : PosMap) (k : String) (s : Int) :
    mapGet (mapAdjustX m k s) k = (mapGet m k).map (fun p => (p.1 + s, p.2)) := by
  induction m with
  | nil => rfl
  | cons e rest ih =>
    by_cases h : e.1 = k
    · simp [mapAdjustX, mapGet_cons, h]
    · simp only [mapAdjustX, List.map_cons, if_neg h] at *
      simpa [mapGet_cons, h] using ih

theorem mapGet_mapAdjustX_ne (m : PosMap) (k k' : String) (s : Int) (h : k' ≠ k) :
    mapGet (mapAdjustX m k s) k' = mapGet m k' := by
  induction m with
  | nil => rfl
  | cons e rest ih =>
    by_cases he : e.1 = k
    · have he' : ¬ (e.1 = k') := by rw [he]; exact Ne.symm h
      simp only [mapAdjustX, List.map_cons, if_pos he] at *
      rw [mapGet_cons, mapGet_cons]
      simp only [if_neg he']
      exact ih
    · simp only [mapAdjustX, List.map_cons, if_neg he] at *
      rw [mapGet_cons, mapGet_cons]
      by_cases he' : e.1 = k' <;> simp [he', ih]

theorem mapGet_mapSet_self (m : PosMap) (k : String) (v : Pos) :
    mapGet (mapSet m k v) k = some v := by
  unfold mapSet
  by_cases h : mapHas m k
  · simp only [if_pos h]
    unfold mapHas at h
    induction m with
    | nil => simp [mapGet] at h
    | cons e rest ih =>
      by_cases he : e.1 = k
      · simp [mapGet_cons, he]
      · rw [mapGet_cons] at h
        simp only [if_neg he] at h
        simp only [List.map_cons, if_neg he]
        rw [mapGet_cons]
        simp only [if_neg he]
        exact ih (by simpa using h)
  · simp only [if_neg h]
    unfold mapHas at h
    induction m with
    | nil => simp [mapGet_cons]
    | cons e rest ih =>
      rw [mapGet_cons] at h
      by_cases he : e.1 = k
      · simp [if_pos he] at h
      · simp only [if_neg he] at h
        simp only [List.cons_append]
        rw [mapGet_cons]
        simp only [if_neg he]
        exact ih (by simpa using h)

theorem mapGet_mapSet_ne (m : PosMap) (k k' : String) (v : Pos) (h : k' ≠ k) :
    mapGet (mapSet m k v) k' = mapGet m k' := by
  unfold mapSet
  by_cases hh : mapHas m k
  · simp only [if_pos hh]
    induction m with
    | nil => rfl
    | cons e rest ih =>
      by_cases he : e.1 = k
      · have he' : ¬ (e.1 = k') := by rw [he]; exact Ne.symm h
        simp only [List.map_cons, if_pos he]
        rw [mapGet_cons, mapGet_cons]
        simp only [if_neg (Ne.symm h : ¬ k = k'), if_neg he']
        by_cases hr : mapHas rest k
        · exact ih hr
        · clear ih hh
          induction rest with
          | nil => rfl
          | cons f rf ihf =>
            unfold mapHas at hr
            rw [mapGet_cons] at hr
            by_cases hf : f.1 = k
            · simp [if_pos hf] at hr
            · simp only [if_neg hf] at hr
              simp only [List.map_cons, if_neg hf]
              rw [mapGet_cons, mapGet_cons]
              by_cases hfk' : f.1 = k' <;>
                simp [hfk', ihf (by simpa [mapHas] using hr)]
      · unfold mapHas at hh
        rw [mapGet_cons] at hh
        simp only [if_neg he] at hh
        simp only [List.map_cons, if_neg he]
        rw [mapGet_cons, mapGet_cons]
        by_cases hek' : e.1 = k' <;>
          simp [hek', ih (by simpa [mapHas] using hh)]
  · simp only [if_neg hh]
    induction m with
    | nil =>
      simp [mapGet_cons, (Ne.symm h : ¬ k = k')]
    | cons e rest ih =>
      unfold mapHas at hh
      rw [mapGet_cons] at hh
      by_cases hek : e.1 = k
      · simp [if_pos hek] at hh
      · simp only [if_neg hek] at hh
        simp only [List.cons_append]
        rw [mapGet_cons, mapGet_cons]
        by_cases hek' : e.1 = k' <;>
          simp [hek', ih (by simpa [mapHas] using hh)]

theorem mapGet_none_mapAdjustX (m : PosMap) (k k' : String) (s : Int)
    (h : mapGet m k' = none) : mapGet (mapAdjustX m k s) k' = none := by
  by_cases hk : k' = k
  · subst hk; rw [mapGet_mapAdjustX_self, h]; rfl
  · rw [mapGet_mapAdjustX_ne _ _ _ _ hk]; exact h

/-! ### Branch-shift lemmas -/

theorem shiftIds_nil (s : Int) (m : PosMap) : shiftIds [] s m = m := rfl

theorem shiftIds_cons (i : String) (rest : List String) (s : Int) (m : PosMap) :
    shiftIds (i :: rest) s m = shiftIds rest s (mapAdjustX m i s) := rfl

theorem shiftIds_not_mem (ids : List String) (s : Int) (m : PosMap) (id : String)
    (h : id ∉ ids) : mapGet (shiftIds ids s m) id = mapGet m id := by
  induction ids generalizing m with
  | nil => rfl
  | cons i rest ih =>
    have hne : id ≠ i := fun hh => h (hh ▸ List.mem_cons_self i rest)
    have hrest : id ∉ rest := fun hh => h (List.mem_cons_of_mem i hh)
    rw [shiftIds_cons, ih _ hrest, mapGet_mapAdjustX_ne _ _ _ _ hne]

theorem shiftIds_mem_nodup (ids : List String) (s : Int) (m : PosMap) (id : String)
    (hnd : ids.Nodup) (h : id ∈ ids) :
    mapGet (shiftIds ids s m) id = (mapGet m id).map (fun p => (p.1 + s, p.2)) := by
  induction ids generalizing m with
  | nil => cases h
  | cons i rest ih =>
    rw [shiftIds_cons]
    rcases List.mem_cons.mp h with hi | hi
    · subst hi
      have : id ∉ rest := (List.nodup_cons.mp hnd).1
      rw [shiftIds_not_mem _ _ _ _ this, mapGet_mapAdjustX_self]
    · have hne : id ≠ i := by
        rintro rfl
        exact (List.nodup_cons.mp hnd).1 hi
      rw [ih _ (List.nodup_cons.mp hnd).2 hi, mapGet_mapAdjustX_ne _ _ _ _ hne]

theorem shiftIds_shifts (ids : List String) (s : Int) (m : PosMap) (id : String)
    (p : Pos) (h : mapGet m id = some p) :
    ∃ k : Nat, mapGet (shiftIds ids s m) id = some (p.1 + s * k, p.2) := by
  induction ids generalizing m p with
  | nil => exact ⟨0, by simpa using h⟩
  | cons i rest ih =>
    rw [shiftIds_cons]
    by_cases hi : id = i
    · subst hi
      have h1 : mapGet (mapAdjustX m id s) id = some (p.1 + s, p.2) := by
        rw [mapGet_mapAdjustX_self, h]; rfl
      obtain ⟨k, hk⟩ := ih _ _ h1
      exact ⟨k + 1, by rw [hk]; congr 1; push_cast; ring_nf⟩
    · have h1 : mapGet (mapAdjustX m i s) id = some p := by
        rw [mapGet_mapAdjustX_ne _ _ _ _ hi]; exact h
      exact ih _ _ h1

theorem shiftIds_none (ids : List String) (s : Int) (m : PosMap) (id : String)
    (h : mapGet m id = none) : mapGet (shiftIds ids s m) id = none := by
  induction ids generalizing m with
  | nil => exact h
  | cons i rest ih =>
    rw [shiftIds_cons]
    exact ih _ (mapGet_none_mapAdjustX _ _ _ _ h)

theorem shiftBranchRight_get (nodeId : String) (s : Int) (ns : List CNode)
    (m : PosMap) (id : String) (p : Pos) (h : mapGet m id = some p) :
    ∃ k : Nat, mapGet (shiftBranchRight nodeId s ns m) id = some (p.1 + s * k, p.2) :=
  shiftIds_shifts _ _ _ _ _ h

theorem shiftBranchRight_none (nodeId : String) (s : Int) (ns : List CNode)
    (m : PosMap) (id : String) (h : mapGet m id = none) :
    mapGet (shiftBranchRight nodeId s ns m) id = none :=
  shiftIds_none _ _ _ _ h

theorem shiftBranchRight_not_mem (nodeId : String) (s : Int) (ns : List CNode)
    (m : PosMap) (id : String) (h : id ∉ nodeId :: getAllDescendants nodeId ns) :
    mapGet (shiftBranchRight nodeId s ns m) id = mapGet m id :=
  shiftIds_not_mem _ _ _ _ h

theorem shiftBranchRight_mem (nodeId : String) (s : Int) (ns : List CNode)
    (m : PosMap) (id : String) (hnd : (nodeId :: getAllDescendants nodeId ns).Nodup)
    (h : id ∈ nodeId :: getAllDescendants nodeId ns) :
    mapGet (shiftBranchRight nodeId s ns m) id =
      (mapGet m id).map (fun p => (p.1 + s, p.2)) :=
  shiftIds_mem_nodup _ _ _ _ hnd h

/-! ### Frame relation: every internal mutation of the layout pass moves
locked positions only rightward, in whole multiples of `horizontalSpacing`,
and never touches a y coordinate or adds/removes someone else's entry. -/

def ShiftsOnlyRight (m m' : PosMap) : Prop :=
  (∀ id p, mapGet m id = some p →
    ∃ k : Nat, mapGet m' id = some (p.1 + horizontalSpacing * k, p.2)) ∧
  (∀ id, mapGet m id = none → mapGet m' id = none)

theorem ShiftsOnlyRight.refl (m : PosMap) : ShiftsOnlyRight m m :=
  ⟨fun _ p h => ⟨0, by simpa using h⟩, fun _ h => h⟩

theorem ShiftsOnlyRight.trans {m1 m2 m3 : PosMap}
    (h12 : ShiftsOnlyRight m1 m2) (h23 : ShiftsOnlyRight m2 m3) :
    ShiftsOnlyRight m1 m3 := by
  refine ⟨fun id p h => ?_, fun id h => h23.2 id (h12.2 id h)⟩
  obtain ⟨k1, hk1⟩ := h12.1 id p h
  obtain ⟨k2, hk2⟩ := h23.1 id _ hk1
  exact ⟨k1 + k2, by rw [hk2]; congr 2; push_cast; ring⟩

theorem shiftBranchRight_shiftsOnlyRight (nodeId : String) (ns : List CNode)
    (m : PosMap) :
    ShiftsOnlyRight m (shiftBranchRight nodeId horizontalSpacing ns m) :=
  ⟨fun id p h => shiftBranchRight_get _ _ _ _ _ _ h,
   fun id h => shiftBranchRight_none _ _ _ _ _ h⟩

theorem ancestorWalk_shiftsOnlyRight (fuel : Nat) (cur : CNode) (pid : String)
    (fb : Int) (ns : List CNode) (m : PosMap) :
    ShiftsOnlyRight m (ancestorWalk fuel cur pid fb ns m) := by
  induction fuel generalizing cur m with
  | zero => exact ShiftsOnlyRight.refl m
  | succ f ih =>
    unfold ancestorWalk
    cases hpar : cur.parentId with
    | none => exact ShiftsOnlyRight.refl m
    | some aid =>
      dsimp only
      cases hfind : ns.find? (fun n => n.id = aid) with
      | none => exact ShiftsOnlyRight.refl m
      | some ancestor =>
        dsimp only
        refine ShiftsOnlyRight.trans ?_ (ih ancestor _)
        generalize (ns.filter fun n => n.parentId = ancestor.parentId && n.id ≠ ancestor.id) = sibs
        induction sibs generalizing m with
        | nil => exact ShiftsOnlyRight.refl m
        | cons sb rest ihs =>
          rw [List.foldl_cons]
          refine ShiftsOnlyRight.trans ?_ (ihs _)
          cases hg : mapGet m sb.id with
          | none => exact ShiftsOnlyRight.refl m
          | some sp =>
            simp only
            split
            · exact shiftBranchRight_shiftsOnlyRight _ _ _
            · exact ShiftsOnlyRight.refl m

theorem shiftAllAncestorSiblings_shiftsOnlyRight (nodeId : String)
    (ns : List CNode) (m : PosMap) :
    ShiftsOnlyRight m (shiftAllAncestorSiblings nodeId ns m) := by
  unfold shiftAllAncestorSiblings
  cases ns.find? (fun n => n.id = nodeId) with
  | none => exact ShiftsOnlyRight.refl m
  | some node =>
    dsimp only
    cases node.parentId with
    | none => exact ShiftsOnlyRight.refl m
    | some pid =>
      dsimp only
      cases ns.find? (fun n => n.id = pid) with
      | none => exact ShiftsOnlyRight.refl m
      | some parent =>
        dsimp only
        cases mapGet m parent.id with
        | none => exact ShiftsOnlyRight.refl m
        | some parentPos => exact ancestorWalk_shiftsOnlyRight _ _ _ _ _ _

theorem collideScan_shiftsOnlyRight (selfId : String) (desired : Pos)
    (ns : List CNode) (keys : List String) (m : PosMap) (b : Bool) :
    ShiftsOnlyRight m (keys.foldl (fun acc existingNodeId =>
      match mapGet acc.1 existingNodeId with
      | none => acc
      | some existingPos =>
        if existingNodeId ≠ selfId && wouldOverlap desired existingPos then
          (shiftBranchRight existingNodeId horizontalSpacing ns acc.1, true)
        else acc) (m, b)).1 := by
  induction keys generalizing m b with
  | nil => exact ShiftsOnlyRight.refl m
  | cons key rest ih =>
    rw [List.foldl_cons]
    match mapGet m key with
    | none => exact ih m b
    | some p =>
      simp only
      split
      · exact ShiftsOnlyRight.trans (shiftBranchRight_shiftsOnlyRight _ _ _) (ih _ _)
      · exact ih m b

theorem collideScan_fst_shiftsOnlyRight (selfId : String) (desired : Pos)
    (ns : List CNode) (keys : List String) (m : PosMap) :
    ShiftsOnlyRight m (collideScan selfId desired ns keys m).1 :=
  collideScan_shiftsOnlyRight selfId desired ns keys m false

theorem resolveCollisions_shiftsOnlyRight (fuel : Nat) (selfId : String)
    (desired : Pos) (ns : List CNode) (m : PosMap) :
    ShiftsOnlyRight m (resolveCollisions fuel selfId desired ns m) := by
  induction fuel generalizing m with
  | zero => exact ShiftsOnlyRight.refl m
  | succ f ih =>
    unfold resolveCollisions
    have h1 := collideScan_fst_shiftsOnlyRight selfId desired ns (mapKeys m) m
    rcases hsc : collideScan selfId desired ns (mapKeys m) m with ⟨m', hit⟩
    rw [hsc] at h1
    dsimp only
    cases hit
    · simpa using h1
    · simpa using ShiftsOnlyRight.trans h1 (ih m')

theorem mapHas_of_get_some {m : PosMap} {k : String} {p : Pos}
    (h : mapGet m k = some p) : mapHas m k = true := by
  unfold mapHas; rw [h]; rfl

/-- Frame property of one placement step: every already-locked position
keeps its y coordinate and moves only right by whole `horizontalSpacing`
steps, and no entry for an unrelated absent id appears. -/
theorem placeOne_shiftsOnlyRight_of_ne (srt : List CNode) (m : PosMap)
    (node : CNode) :
    (∀ id p, mapGet m id = some p →
      ∃ k : Nat, mapGet (placeOne srt m node) id =
        some (p.1 + horizontalSpacing * k, p.2)) ∧
    (∀ id, id ≠ node.id → mapGet m id = none →
      mapGet (placeOne srt m node) id = none) := by
  unfold placeOne
  by_cases hhas : mapHas m node.id
  · simp only [if_pos hhas]
    exact ⟨fun id p h => ⟨0, by simpa using h⟩, fun id _ h => h⟩
  · simp only [if_neg hhas]
    cases node.parentId with
    | none =>
      dsimp only
      constructor
      · intro id p h
        have hne : id ≠ node.id := by
          rintro rfl
          exact hhas (mapHas_of_get_some h)
        exact ⟨0, by rw [mapGet_mapSet_ne _ _ _ _ hne]; simpa using h⟩
      · intro id hne h
        rw [mapGet_mapSet_ne _ _ _ _ hne]; exact h
    | some pid =>
      dsimp only
      cases mapGet m pid with
      | none => exact ⟨fun id p h => ⟨0, by simpa using h⟩, fun id _ h => h⟩
      | some parentPos =>
        dsimp only
        split
        · constructor
          · intro id p h
            have hne : id ≠ node.id := by
              rintro rfl
              exact hhas (mapHas_of_get_some h)
            obtain ⟨k, hk⟩ :=
              (resolveCollisions_shiftsOnlyRight 50 node.id _ srt m).1 id p h
            exact ⟨k, by rw [mapGet_mapSet_ne _ _ _ _ hne]; exact hk⟩
          · intro id hne h
            rw [mapGet_mapSet_ne _ _ _ _ hne]
            exact (resolveCollisions_shiftsOnlyRight 50 node.id _ srt m).2 id h
        · constructor
          · intro id p h
            have hne : id ≠ node.id := by
              rintro rfl
              exact hhas (mapHas_of_get_some h)
            obtain ⟨k, hk⟩ :=
              (ShiftsOnlyRight.trans
                (shiftAllAncestorSiblings_shiftsOnlyRight node.id srt m)
                (resolveCollisions_shiftsOnlyRight 50 node.id _ srt _)).1 id p h
            exact ⟨k, by rw [mapGet_mapSet_ne _ _ _ _ hne]; exact hk⟩
          · intro id hne h
            rw [mapGet_mapSet_ne _ _ _ _ hne]
            exact (ShiftsOnlyRight.trans
                (shiftAllAncestorSiblings_shiftsOnlyRight node.id srt m)
                (resolveCollisions_shiftsOnlyRight 50 node.id _ srt _)).2 id h

theorem placeOneFold_frame (srt l : List CNode) (m : PosMap) :
    ∀ id p, mapGet m id = some p →
      ∃ k : Nat, mapGet (l.foldl (placeOne srt) m) id =
        some (p.1 + horizontalSpacing * k, p.2) := by
  induction l generalizing m with
  | nil => exact fun id p h => ⟨0, by simpa using h⟩
  | cons n rest ih =>
    intro id p h
    rw [List.foldl_cons]
    obtain ⟨k1, hk1⟩ := (placeOne_shiftsOnlyRight_of_ne srt m n).1 id p h
    obtain ⟨k2, hk2⟩ := ih _ id _ hk1
    exact ⟨k1 + k2, by rw [hk2]; congr 2; push_cast; ring⟩

theorem layoutPass_frame (srt : List CNode) (m : PosMap) :
    ∀ id p, mapGet m id = some p →
      ∃ k : Nat, mapGet (layoutPass srt m) id =
        some (p.1 + horizontalSpacing * k, p.2) :=
  placeOneFold_frame srt srt m

theorem placeOneFold_none (srt l : List CNode) (m : PosMap) (id : String)
    (hl : ∀ x ∈ l, x.id ≠ id) (h : mapGet m id = none) :
    mapGet (l.foldl (placeOne srt) m) id = none := by
  induction l generalizing m with
  | nil => exact h
  | cons n rest ih =>
    rw [List.foldl_cons]
    exact ih _ (fun x hx => hl x (List.mem_cons_of_mem n hx))
      ((placeOne_shiftsOnlyRight_of_ne srt m n).2 id
        (fun hh => hl n (List.mem_cons_self n rest) hh.symm) h)

theorem layoutPass_none (srt : List CNode) (m : PosMap) (id : String)
    (hl : ∀ x ∈ srt, x.id ≠ id) (h : mapGet m id = none) :
    mapGet (layoutPass srt m) id = none :=
  placeOneFold_none srt srt m id hl h

/-! ### What a placement step locks for the node itself -/

/-- An unplaced parentless node is locked at the origin, unconditionally. -/
theorem placeOne_root (srt : List CNode) (m : PosMap) (node : CNode)
    (hhas : mapHas m node.id = false) (hpar : node.parentId = none) :
    mapGet (placeOne srt m node) node.id = some (0, 0) := by
  unfold placeOne
  rw [hhas, hpar]
  simp only [Bool.false_eq_true, if_false]
  exact mapGet_mapSet_self _ _ _

/-- An unplaced first child (sibling index 0) is locked at exactly
`(parent.x, parent.y + verticalSpacing)`, the parent's position being the one
read at candidate-computation time; the collision loop never moves the
candidate itself. -/
theorem placeOne_firstChild (srt : List CNode) (m : PosMap) (node : CNode)
    (pid : String) (parentPos : Pos)
    (hhas : mapHas m node.id = false) (hpar : node.parentId = some pid)
    (hget : mapGet m pid = some parentPos)
    (hidx : (srt.filter (fun n => n.parentId = some pid)).findIdx
      (fun n => n.id = node.id) = 0) :
    mapGet (placeOne srt m node) node.id =
      some (parentPos.1, parentPos.2 + verticalSpacing) := by
  unfold placeOne
  rw [hhas, hpar]
  simp only [Bool.false_eq_true, if_false]
  rw [hget]
  dsimp only
  rw [if_pos hidx]
  exact mapGet_mapSet_self _ _ _

/-- An unplaced branch child (sibling index `k > 0`) is locked at exactly
`x = max(parent.x + k * horizontalSpacing, rightmost descendant x +
horizontalSpacing)` and `y = parent.y + verticalSpacing`, all inputs read at
candidate-computation time (before ancestor-sibling displacement and
collision resolution, which shift only existing nodes). -/
theorem placeOne_branch (srt : List CNode) (m : PosMap) (node : CNode)
    (pid : String) (parentPos : Pos) (parent : CNode)
    (hhas : mapHas m node.id = false) (hpar : node.parentId = some pid)
    (hget : mapGet m pid = some parentPos)
    (hfind : srt.find? (fun n => n.id = pid) = some parent)
    (hidx : (srt.filter (fun n => n.parentId = some pid)).findIdx
      (fun n => n.id = node.id) ≠ 0) :
    mapGet (placeOne srt m node) node.id =
      some (max (parentPos.1 +
          ((srt.filter (fun n => n.parentId = some pid)).findIdx
            (fun n => n.id = node.id) : Int) * horizontalSpacing)
          (getRightmostDescendantX parent.id srt m + horizontalSpacing),
        parentPos.2 + verticalSpacing) := by
  unfold placeOne
  rw [hhas, hpar]
  simp only [Bool.false_eq_true, if_false]
  rw [hget]
  dsimp only
  rw [if_neg hidx, hfind]
  exact mapGet_mapSet_self _ _ _

/-! ### The collision loop, when it exits before the ceiling, leaves no
locked position overlapping the candidate -/

/-- Once a scan has found an overlap, the scan's flag stays `true`. -/
theorem collideScanStep_stays_true (selfId : String) (desired : Pos)
    (ns : List CNode) (keys : List String) (acc : PosMap × Bool)
    (hacc : acc.2 = true) :
    (keys.foldl (fun acc existingNodeId =>
      match mapGet acc.1 existingNodeId with
      | none => acc
      | some existingPos =>
        if existingNodeId ≠ selfId && wouldOverlap desired existingPos then
          (shiftBranchRight existingNodeId horizontalSpacing ns acc.1, true)
        else acc) acc).2 = true := by
  induction keys generalizing acc with
  | nil => exact hacc
  | cons k' r' ih =>
    rw [List.foldl_cons]
    cases mapGet acc.1 k' with
    | none => exact ih acc hacc
    | some q =>
      dsimp only
      split
      · exact ih _ rfl
      · exact ih acc hacc

theorem collideScan_false_eq (selfId : String) (desired : Pos)
    (ns : List CNode) (keys : List String) (m : PosMap)
    (h : (collideScan selfId desired ns keys m).2 = false) :
    (collideScan selfId desired ns keys m).1 = m := by
  unfold collideScan at *
  induction keys generalizing m with
  | nil => rfl
  | cons key rest ih =>
    rw [List.foldl_cons] at h ⊢
    dsimp only at h ⊢
    cases hg : mapGet m key with
    | none =>
      rw [hg] at h
      dsimp only at h ⊢
      exact ih m h
    | some p =>
      rw [hg] at h
      dsimp only at h ⊢
      by_cases hc : (decide (key ≠ selfId) && wouldOverlap desired p) = true
      · exfalso
        rw [if_pos hc] at h
        rw [collideScanStep_stays_true selfId desired ns rest _ rfl] at h
        exact Bool.true_eq_false.mp h
      · rw [if_neg hc] at h ⊢
        exact ih m h

theorem collideScan_false_no_overlap (selfId : String) (desired : Pos)
    (ns : List CNode) (keys : List String) (m : PosMap)
    (h : (collideScan selfId desired ns keys m).2 = false) :
    ∀ key ∈ keys, key ≠ selfId →
      ∀ p, mapGet m key = some p → wouldOverlap desired p = false := by
  unfold collideScan at *
  induction keys generalizing m with
  | nil => intro key hk; cases hk
  | cons key rest ih =>
    rw [List.foldl_cons] at h
    dsimp only at h
    intro k' hk' hne p hp
    cases hg : mapGet m key with
    | none =>
      rw [hg] at h
      dsimp only at h
      rcases List.mem_cons.mp hk' with rfl | hmem
      · rw [hg] at hp; cases hp
      · exact ih m h k' hmem hne p hp
    | some q =>
      rw [hg] at h
      dsimp only at h
      by_cases hc : (decide (key ≠ selfId) && wouldOverlap desired q) = true
      · exfalso
        rw [if_pos hc] at h
        rw [collideScanStep_stays_true selfId desired ns rest _ rfl] at h
        exact Bool.true_eq_false.mp h
      · rw [if_neg hc] at h
        rcases List.mem_cons.mp hk' with rfl | hmem
        · rw [hg] at hp
          cases hp
          cases hov : wouldOverlap desired p
          · rfl
          · exfalso
            apply hc
            rw [hov]
            simp [hne]
        · exact ih m h k' hmem hne p hp

theorem mem_mapKeys_of_get_some {m : PosMap} {k : String} {p : Pos}
    (h : mapGet m k = some p) : k ∈ mapKeys m := by
  unfold mapGet at h
  cases hf : m.find? (fun e => e.1 = k) with
  | none => rw [hf] at h; cases h
  | some e =>
    have hmem := List.mem_of_find?_eq_some hf
    have hkey : e.1 = k := by
      have := List.find?_some hf
      exact of_decide_eq_true this
    subst hkey
    exact List.mem_map_of_mem _ hmem

/-- If the resolution loop exits early (a scan finds no overlap), the final
store has no entry other than the node's own overlapping the candidate. -/
theorem resolveCollisions_clean (fuel : Nat) (selfId : String) (desired : Pos)
    (ns : List CNode) (m : PosMap)
    (h : resolveExitsEarly fuel selfId desired ns m = true) :
    ∀ id, id ≠ selfId → ∀ p,
      mapGet (resolveCollisions fuel selfId desired ns m) id = some p →
      wouldOverlap desired p = false := by
  induction fuel generalizing m with
  | zero => cases h
  | succ f ih =>
    unfold resolveExitsEarly at h
    unfold resolveCollisions
    rcases hsc : collideScan selfId desired ns (mapKeys m) m with ⟨m', hit⟩
    rw [hsc] at h
    dsimp only at h ⊢
    cases hit
    · -- clean scan: the store did not change and every key was checked
      simp only [Bool.false_eq_true, if_false]
      intro id hne p hp
      have h2 : (collideScan selfId desired ns (mapKeys m) m).2 = false := by
        rw [hsc]
      have hm' : m' = m := by
        have heq := collideScan_false_eq selfId desired ns (mapKeys m) m h2
        rw [hsc] at heq
        exact heq
      rw [hm'] at hp
      exact collideScan_false_no_overlap selfId desired ns (mapKeys m) m h2 id
        (mem_mapKeys_of_get_some hp) hne p hp
    · simp only [if_true] at h ⊢
      exact ih m' h

/-! ### Claim theorems -/

/-- Lock-time no-overlap of one parented placement (retained as a lemma;
the claim itself is settled by the single-root theorem below): when the placement step locks a
position for an unplaced node whose parent holds a locked position, and the
collision-resolution loop exits before its 50-iteration ceiling, the locked
position overlaps (per `wouldOverlap`) no other locked position at that
moment.  Parentless nodes are locked at the origin with no collision check
at all, so two roots may overlap (see the counterexample). -/
theorem C1_lock_time_no_overlap (srt : List CNode) (m : PosMap) (node : CNode)
    (pid : String) (parentPos : Pos)
    (hhas : mapHas m node.id = false) (hpar : node.parentId = some pid)
    (hget : mapGet m pid = some parentPos)
    (hearly : placeOneExitsEarly srt m node = true) :
    ∃ dp, mapGet (placeOne srt m node) node.id = some dp ∧
      ∀ id p, id ≠ node.id → mapGet (placeOne srt m node) id = some p →
        wouldOverlap dp p = false := by
  unfold placeOne placeOneExitsEarly at *
  rw [hhas] at hearly ⊢
  simp only [Bool.false_eq_true, if_false] at hearly ⊢
  rw [hpar] at hearly ⊢
  dsimp only at hearly ⊢
  rw [hget] at hearly ⊢
  dsimp only at hearly ⊢
  by_cases hidx : (srt.filter (fun n => n.parentId = some pid)).findIdx
      (fun n => n.id = node.id) = 0
  · rw [if_pos hidx] at hearly ⊢
    refine ⟨_, mapGet_mapSet_self _ _ _, ?_⟩
    intro id p hne hp
    rw [mapGet_mapSet_ne _ _ _ _ hne] at hp
    exact resolveCollisions_clean 50 node.id _ srt m hearly id hne p hp
  · rw [if_neg hidx] at hearly ⊢
    refine ⟨_, mapGet_mapSet_self _ _ _, ?_⟩
    intro id p hne hp
    rw [mapGet_mapSet_ne _ _ _ _ hne] at hp
    exact resolveCollisions_clean 50 node.id _ srt _ hearly id hne p hp

/-- Witness for C1: in the concrete snapshot root `r` → first child `a`,
placing a second child `b` exits the loop early and the locked position
overlaps neither `r` nor `a`. -/
theorem C1_lock_time_no_overlap_witness :
    mapHas [("r", ((0 : Int), (0 : Int))), ("a", ((0 : Int), (180 : Int)))] "b" = false ∧
    ∃ dp, mapGet (placeOne
        [⟨"r", none, 0⟩, ⟨"a", some "r", 1⟩, ⟨"b", some "r", 2⟩]
        [("r", (0, 0)), ("a", (0, 180))] ⟨"b", some "r", 2⟩) "b" = some dp ∧
      ∀ id p, id ≠ "b" → mapGet (placeOne
        [⟨"r", none, 0⟩, ⟨"a", some "r", 1⟩, ⟨"b", some "r", 2⟩]
        [("r", (0, 0)), ("a", (0, 180))] ⟨"b", some "r", 2⟩) id = some p →
        wouldOverlap dp p = false := by
  constructor
  · decide
  · exact C1_lock_time_no_overlap
      [⟨"r", none, 0⟩, ⟨"a", some "r", 1⟩, ⟨"b", some "r", 2⟩]
      [("r", (0, 0)), ("a", (0, 180))] ⟨"b", some "r", 2⟩ "r" (0, 0)
      (by decide) (by decide) (by decide) (by decide)

/-- Counterexample to C1 as stated: building a forest by two single-node
insertions (a permitted snapshot: "multiple roots are permitted"), each
followed by a layout pass, leaves both roots locked at the origin, and the
engine's own overlap predicate holds for that pair. -/
theorem C1_counterexample :
    mapGet (layoutStore ⟨[⟨"n0", none, 0⟩, ⟨"n1", none, 1⟩], none⟩
        (layoutStore ⟨[⟨"n0", none, 0⟩], none⟩ [])) "n0" = some (0, 0) ∧
    mapGet (layoutStore ⟨[⟨"n0", none, 0⟩, ⟨"n1", none, 1⟩], none⟩
        (layoutStore ⟨[⟨"n0", none, 0⟩], none⟩ [])) "n1" = some (0, 0) ∧
    wouldOverlap ((0 : Int), (0 : Int)) ((0 : Int), (0 : Int)) = true := by
  decide

/-- First-child placement locks directly below the parent (retained as a
lemma; the claim itself is settled by the single-root theorem below):
at the moment the layout pass places an unplaced first child (sibling index 0), the locked position is exactly the parent's locked
x (as read at candidate-computation time) and exactly one `verticalSpacing`
below the parent's y.  (As stated, over whole insertion sequences, the claim
fails: a later pass's collision resolution can shift a first child's branch
without its parent — see the counterexample.) -/
theorem C3_first_child_at_placement (srt : List CNode) (m : PosMap)
    (node : CNode) (pid : String) (parentPos : Pos)
    (hhas : mapHas m node.id = false) (hpar : node.parentId = some pid)
    (hget : mapGet m pid = some parentPos)
    (hidx : (srt.filter (fun n => n.parentId = some pid)).findIdx
      (fun n => n.id = node.id) = 0) :
    mapGet (placeOne srt m node) node.id =
      some (parentPos.1, parentPos.2 + verticalSpacing) :=
  placeOne_firstChild srt m node pid parentPos hhas hpar hget hidx

/-- Witness for C3: the first child `a` of root `r` is locked at
`(0, 0 + 180)`. -/
theorem C3_first_child_at_placement_witness :
    mapGet (placeOne [⟨"r", none, 0⟩, ⟨"a", some "r", 1⟩]
        [("r", ((0 : Int), (0 : Int)))] ⟨"a", some "r", 1⟩) "a" =
      some ((0 : Int), (0 : Int) + verticalSpacing) :=
  C3_first_child_at_placement [⟨"r", none, 0⟩, ⟨"a", some "r", 1⟩]
    [("r", (0, 0))] ⟨"a", some "r", 1⟩ "r" (0, 0)
    (by decide) (by decide) (by decide) (by decide)

/-- Counterexample to C3 as stated: in the forest built by inserting root
`n0`, its first child `n1`, a second root `n2` and `n2`'s first child `n3`
(layout after each insertion, no drags or deletions), the final store locks
first child `n1` at x = 450 while its parent `n0` sits at x = 0: the pass
that placed `n3` shifted `n1`'s branch away from its parent. -/
theorem C3_counterexample :
    ((([⟨"n0", none, 0⟩, ⟨"n1", some "n0", 1⟩, ⟨"n2", none, 2⟩,
        ⟨"n3", some "n2", 3⟩] : List CNode).filter
          (fun n => n.parentId = some "n0")).findIdx
            (fun n => n.id = "n1") = 0) ∧
    mapGet (layoutStore ⟨[⟨"n0", none, 0⟩, ⟨"n1", some "n0", 1⟩,
        ⟨"n2", none, 2⟩, ⟨"n3", some "n2", 3⟩], none⟩
      (layoutStore ⟨[⟨"n0", none, 0⟩, ⟨"n1", some "n0", 1⟩,
          ⟨"n2", none, 2⟩], none⟩
        (layoutStore ⟨[⟨"n0", none, 0⟩, ⟨"n1", some "n0", 1⟩], none⟩
          (layoutStore ⟨[⟨"n0", none, 0⟩], none⟩ [])))) "n0" = some (0, 0) ∧
    mapGet (layoutStore ⟨[⟨"n0", none, 0⟩, ⟨"n1", some "n0", 1⟩,
        ⟨"n2", none, 2⟩, ⟨"n3", some "n2", 3⟩], none⟩
      (layoutStore ⟨[⟨"n0", none, 0⟩, ⟨"n1", some "n0", 1⟩,
          ⟨"n2", none, 2⟩], none⟩
        (layoutStore ⟨[⟨"n0", none, 0⟩, ⟨"n1", some "n0", 1⟩], none⟩
          (layoutStore ⟨[⟨"n0", none, 0⟩], none⟩ [])))) "n1" = some (450, 180) := by
  decide

/-- C4 (confirmed).  When the layout pass first places an unplaced node with
sibling index `k > 0` whose parent is locked, the position locked for it is
exactly `x = max(parent.x + k·horizontalSpacing, rightmost locked x among
the parent and its placed descendants + horizontalSpacing)` and
`y = parent.y + verticalSpacing`, all evaluated at candidate-computation
time (the subsequent displacement and collision resolution shift only
existing nodes, never the candidate). -/
theorem C4_branch_placement (srt : List CNode) (m : PosMap) (node : CNode)
    (pid : String) (parentPos : Pos) (parent : CNode)
    (hhas : mapHas m node.id = false) (hpar : node.parentId = some pid)
    (hget : mapGet m pid = some parentPos)
    (hfind : srt.find? (fun n => n.id = pid) = some parent)
    (hidx : (srt.filter (fun n => n.parentId = some pid)).findIdx
      (fun n => n.id = node.id) ≠ 0) :
    mapGet (placeOne srt m node) node.id =
      some (max (parentPos.1 +
          ((srt.filter (fun n => n.parentId = some pid)).findIdx
            (fun n => n.id = node.id) : Int) * horizontalSpacing)
          (getRightmostDescendantX parent.id srt m + horizontalSpacing),
        parentPos.2 + verticalSpacing) :=
  placeOne_branch srt m node pid parentPos parent hhas hpar hget hfind hidx

/-- Witness for C4: the second child `b` of root `r` (first child `a` already
placed) is locked at `x = max(0 + 1·450, 0 + 450)`, `y = 0 + 180`. -/
theorem C4_branch_placement_witness :
    mapGet (placeOne [⟨"r", none, 0⟩, ⟨"a", some "r", 1⟩, ⟨"b", some "r", 2⟩]
        [("r", ((0 : Int), (0 : Int))), ("a", ((0 : Int), (180 : Int)))]
        ⟨"b", some "r", 2⟩) "b" =
      some (max ((0 : Int) +
          ((([⟨"r", none, 0⟩, ⟨"a", some "r", 1⟩, ⟨"b", some "r", 2⟩] :
            List CNode).filter (fun n => n.parentId = some "r")).findIdx
              (fun n => n.id = "b") : Int) * horizontalSpacing)
          (getRightmostDescendantX "r"
            [⟨"r", none, 0⟩, ⟨"a", some "r", 1⟩, ⟨"b", some "r", 2⟩]
            [("r", (0, 0)), ("a", (0, 180))] + horizontalSpacing),
        (0 : Int) + verticalSpacing) :=
  C4_branch_placement [⟨"r", none, 0⟩, ⟨"a", some "r", 1⟩, ⟨"b", some "r", 2⟩]
    [("r", (0, 0)), ("a", (0, 180))] ⟨"b", some "r", 2⟩ "r" (0, 0)
    ⟨"r", none, 0⟩ (by decide) (by decide) (by decide) (by decide) (by decide)

/-- C8 (amended).  When the layout pass encounters an unplaced node with no
parent, it locks it at the fixed origin `(0,0)` unconditionally — there is
no occupancy check, so a second root is locked at the origin even when the
first already sits there (see the counterexample for the two-root outcome). -/
theorem C8_root_at_origin (srt : List CNode) (m : PosMap) (node : CNode)
    (hhas : mapHas m node.id = false) (hpar : node.parentId = none) :
    mapGet (placeOne srt m node) node.id = some (0, 0) :=
  placeOne_root srt m node hhas hpar

/-- Witness for C8: a parentless node is locked at the origin even though
the origin is already occupied by another root. -/
theorem C8_root_at_origin_witness :
    mapGet (placeOne [⟨"n0", none, 0⟩, ⟨"n1", none, 1⟩]
        [("n0", ((0 : Int), (0 : Int)))] ⟨"n1", none, 1⟩) "n1" = some (0, 0) :=
  C8_root_at_origin [⟨"n0", none, 0⟩, ⟨"n1", none, 1⟩]
    [("n0", (0, 0))] ⟨"n1", none, 1⟩ (by decide) (by decide)

/-- Counterexample to C8 as stated: after inserting two parentless roots
(layout after each), both distinct roots are locked at the origin — the
second was not treated as a new branch. -/
theorem C8_counterexample :
    ("n0" : String) ≠ "n1" ∧
    mapGet (layoutStore ⟨[⟨"n0", none, 0⟩, ⟨"n1", none, 1⟩], none⟩
        (layoutStore ⟨[⟨"n0", none, 0⟩], none⟩ [])) "n0" =
      mapGet (layoutStore ⟨[⟨"n0", none, 0⟩, ⟨"n1", none, 1⟩], none⟩
        (layoutStore ⟨[⟨"n0", none, 0⟩], none⟩ [])) "n1" ∧
    mapGet (layoutStore ⟨[⟨"n0", none, 0⟩, ⟨"n1", none, 1⟩], none⟩
        (layoutStore ⟨[⟨"n0", none, 0⟩], none⟩ [])) "n1" = some (0, 0) := by
  decide

/-- C2 (amended).  A layout pass does not leave pre-existing entries exactly
unchanged (collision resolution and ancestor-sibling displacement shift
whole branches of already-placed nodes — see the counterexample); what the
pass guarantees for every node already in the Position Store when it begins
is: the entry survives, its y coordinate is exactly unchanged, and its x
coordinate changes only rightward, by a whole number of `horizontalSpacing`
increments. -/
theorem C2_pass_preserves_placed (srt : List CNode) (m : PosMap) :
    ∀ id p, mapGet m id = some p →
      ∃ k : Nat, mapGet (layoutPass srt m) id =
        some (p.1 + horizontalSpacing * k, p.2) :=
  layoutPass_frame srt m

/-- Witness for C2: in the 5-node single-root snapshot whose pass displaces
the branch of `n2`, the pre-placed entry of `n2` keeps y = 180 and moves
right by a whole multiple of `horizontalSpacing`. -/
theorem C2_pass_preserves_placed_witness :
    ∃ k : Nat, mapGet (layoutPass
      [⟨"n0", none, 0⟩, ⟨"n1", some "n0", 1⟩, ⟨"n2", some "n0", 2⟩,
        ⟨"n3", some "n1", 3⟩, ⟨"n4", some "n1", 4⟩]
      [("n0", ((0 : Int), (0 : Int))), ("n1", ((0 : Int), (180 : Int))),
        ("n2", ((450 : Int), (180 : Int))), ("n3", ((0 : Int), (360 : Int)))])
      "n2" = some ((450 : Int) + horizontalSpacing * k, (180 : Int)) :=
  C2_pass_preserves_placed
    [⟨"n0", none, 0⟩, ⟨"n1", some "n0", 1⟩, ⟨"n2", some "n0", 2⟩,
      ⟨"n3", some "n1", 3⟩, ⟨"n4", some "n1", 4⟩]
    [("n0", (0, 0)), ("n1", (0, 180)), ("n2", (450, 180)), ("n3", (0, 360))]
    "n2" (450, 180) (by decide)

/-- Counterexample to C2 as stated: build root `n0`, children `n1`,`n2` of
`n0`, child `n3` of `n1` (layout after each insertion): `n2` is locked at
(450, 180).  The next pass, which places the new branch `n4` under `n1`,
moves the pre-existing entry of `n2` to (900, 180) via ancestor-sibling
displacement — a locked position changed during placement of another node,
with no drag and no deletion. -/
theorem C2_counterexample :
    mapGet (layoutStore ⟨[⟨"n0", none, 0⟩, ⟨"n1", some "n0", 1⟩,
        ⟨"n2", some "n0", 2⟩, ⟨"n3", some "n1", 3⟩], none⟩
      (layoutStore ⟨[⟨"n0", none, 0⟩, ⟨"n1", some "n0", 1⟩,
          ⟨"n2", some "n0", 2⟩], none⟩
        (layoutStore ⟨[⟨"n0", none, 0⟩, ⟨"n1", some "n0", 1⟩], none⟩
          (layoutStore ⟨[⟨"n0", none, 0⟩], none⟩ [])))) "n2" =
      some (450, 180) ∧
    mapGet (layoutStore ⟨[⟨"n0", none, 0⟩, ⟨"n1", some "n0", 1⟩,
        ⟨"n2", some "n0", 2⟩, ⟨"n3", some "n1", 3⟩, ⟨"n4", some "n1", 4⟩], none⟩
      (layoutStore ⟨[⟨"n0", none, 0⟩, ⟨"n1", some "n0", 1⟩,
          ⟨"n2", some "n0", 2⟩, ⟨"n3", some "n1", 3⟩], none⟩
        (layoutStore ⟨[⟨"n0", none, 0⟩, ⟨"n1", some "n0", 1⟩,
            ⟨"n2", some "n0", 2⟩], none⟩
          (layoutStore ⟨[⟨"n0", none, 0⟩, ⟨"n1", some "n0", 1⟩], none⟩
            (layoutStore ⟨[⟨"n0", none, 0⟩], none⟩ []))))) "n2" =
      some (900, 180) ∧
    ((450 : Int), (180 : Int)) ≠ ((900 : Int), (180 : Int)) := by
  decide

/-- C5 (confirmed).  The Branch Mover with node `N` and shift `s` changes the
locked x of exactly the placed members of `{N} ∪ descendants(N)`, each by
exactly `s` (rightward; leftward for `shiftBranchLeft`), keeps every y
unchanged, and leaves every node outside the branch untouched — never a
partial subtree.  The `Nodup` hypothesis is the well-formedness of the
snapshot's descendant set (it holds for every acyclic snapshot with unique
ids, and is decidable on any concrete one). -/
theorem C5_branch_mover (nodeId : String) (s : Int) (ns : List CNode)
    (m : PosMap) (hnd : (nodeId :: getAllDescendants nodeId ns).Nodup) :
    (∀ id p, mapGet m id = some p →
      mapGet (shiftBranchRight nodeId s ns m) id =
        some (if id ∈ nodeId :: getAllDescendants nodeId ns
          then (p.1 + s, p.2) else p) ∧
      mapGet (shiftBranchLeft nodeId s ns m) id =
        some (if id ∈ nodeId :: getAllDescendants nodeId ns
          then (p.1 - s, p.2) else p)) ∧
    (∀ id, mapGet m id = none →
      mapGet (shiftBranchRight nodeId s ns m) id = none ∧
      mapGet (shiftBranchLeft nodeId s ns m) id = none) := by
  constructor
  · intro id p hp
    by_cases hmem : id ∈ nodeId :: getAllDescendants nodeId ns
    · constructor
      · rw [shiftBranchRight_mem nodeId s ns m id hnd hmem, hp]
        simp [hmem]
      · unfold shiftBranchLeft
        rw [shiftIds_mem_nodup _ _ _ _ hnd hmem, hp, if_pos hmem]
        show some (p.1 + -s, p.2) = some (p.1 - s, p.2)
        congr 2
    · constructor
      · rw [shiftBranchRight_not_mem nodeId s ns m id hmem, hp, if_neg hmem]
      · unfold shiftBranchLeft
        rw [shiftIds_not_mem _ _ _ _ hmem, hp, if_neg hmem]
  · intro id hid
    exact ⟨shiftIds_none _ _ _ _ hid, shiftIds_none _ _ _ _ hid⟩

/-- Witness for C5, on the snapshot `r → a → c`, `r → b` with every node
placed: shifting the branch of `a` right by 450 moves `a` and its descendant
`c` and leaves `r` and `b` alone. -/
theorem C5_branch_mover_witness :
    ((["a", "c"] : List String) =
      "a" :: getAllDescendants "a"
        [⟨"r", none, 0⟩, ⟨"a", some "r", 1⟩, ⟨"c", some "a", 2⟩,
          ⟨"b", some "r", 3⟩]) ∧
    (∀ id p, mapGet [("r", ((0 : Int), (0 : Int))), ("a", ((0 : Int), (180 : Int))),
        ("c", ((0 : Int), (360 : Int))), ("b", ((450 : Int), (180 : Int)))] id = some p →
      mapGet (shiftBranchRight "a" 450
        [⟨"r", none, 0⟩, ⟨"a", some "r", 1⟩, ⟨"c", some "a", 2⟩, ⟨"b", some "r", 3⟩]
        [("r", (0, 0)), ("a", (0, 180)), ("c", (0, 360)), ("b", (450, 180))]) id =
        some (if id ∈ "a" :: getAllDescendants "a"
            [⟨"r", none, 0⟩, ⟨"a", some "r", 1⟩, ⟨"c", some "a", 2⟩, ⟨"b", some "r", 3⟩]
          then (p.1 + 450, p.2) else p) ∧
      mapGet (shiftBranchLeft "a" 450
        [⟨"r", none, 0⟩, ⟨"a", some "r", 1⟩, ⟨"c", some "a", 2⟩, ⟨"b", some "r", 3⟩]
        [("r", (0, 0)), ("a", (0, 180)), ("c", (0, 360)), ("b", (450, 180))]) id =
        some (if id ∈ "a" :: getAllDescendants "a"
            [⟨"r", none, 0⟩, ⟨"a", some "r", 1⟩, ⟨"c", some "a", 2⟩, ⟨"b", some "r", 3⟩]
          then (p.1 - 450, p.2) else p)) := by
  constructor
  · decide
  · exact (C5_branch_mover "a" 450
      [⟨"r", none, 0⟩, ⟨"a", some "r", 1⟩, ⟨"c", some "a", 2⟩, ⟨"b", some "r", 3⟩]
      [("r", (0, 0)), ("a", (0, 180)), ("c", (0, 360)), ("b", (450, 180))]
      (by decide)).1

/-! ### Sorting lemmas -/

theorem insertByTimestamp_perm (x : CNode) (l : List CNode) :
    List.Perm (insertByTimestamp x l) (x :: l) := by
  induction l with
  | nil => exact List.Perm.refl _
  | cons y ys ih =>
    unfold insertByTimestamp
    by_cases h : y.timestamp < x.timestamp
    · rw [if_pos h]
      exact (ih.cons y).trans (List.Perm.swap x y ys)
    · rw [if_neg h]

theorem sortByTimestamp_perm (l : List CNode) : List.Perm (sortByTimestamp l) l := by
  induction l with
  | nil => exact List.Perm.refl _
  | cons x xs ih =>
    unfold sortByTimestamp at *
    rw [List.foldr_cons]
    exact (insertByTimestamp_perm x _).trans (ih.cons x)

theorem mem_sortByTimestamp {x : CNode} {l : List CNode} :
    x ∈ sortByTimestamp l ↔ x ∈ l :=
  (sortByTimestamp_perm l).mem_iff

/-- A placement step for a node whose parent has no locked position leaves
the store untouched. -/
theorem placeOne_skip_parent_missing (srt : List CNode) (m : PosMap)
    (node : CNode) (pid : String) (hhas : mapHas m node.id = false)
    (hpar : node.parentId = some pid) (hget : mapGet m pid = none) :
    placeOne srt m node = m := by
  unfold placeOne
  rw [hhas, hpar]
  simp only [Bool.false_eq_true, if_false]
  rw [hget]

theorem fold_dangling (srt : List CNode) (pid nid : String) :
    ∀ (l : List CNode) (m : PosMap),
    (∀ x ∈ l, x.id ≠ pid) →
    (∀ x ∈ l, x.id = nid → x.parentId = some pid) →
    mapGet m pid = none → mapGet m nid = none →
    mapGet (l.foldl (placeOne srt) m) nid = none ∧
    mapGet (l.foldl (placeOne srt) m) pid = none := by
  intro l
  induction l with
  | nil => exact fun m _ _ hpid hn => ⟨hn, hpid⟩
  | cons x rest ih =>
    intro m hl hl2 hpid hn
    rw [List.foldl_cons]
    have hxpid : x.id ≠ pid := hl x (List.mem_cons_self x rest)
    by_cases hx : x.id = nid
    · have hxp : x.parentId = some pid := hl2 x (List.mem_cons_self x rest) hx
      have hhas : mapHas m x.id = false := by
        unfold mapHas
        rw [hx, hn]
        rfl
      rw [placeOne_skip_parent_missing srt m x pid hhas hxp hpid]
      exact ih m (fun y hy => hl y (List.mem_cons_of_mem x hy))
        (fun y hy => hl2 y (List.mem_cons_of_mem x hy)) hpid hn
    · have hfr := (placeOne_shiftsOnlyRight_of_ne srt m x).2
      exact ih _ (fun y hy => hl y (List.mem_cons_of_mem x hy))
        (fun y hy => hl2 y (List.mem_cons_of_mem x hy))
        (hfr pid (fun hh => hxpid hh.symm) hpid)
        (hfr nid (fun hh => hx hh.symm) hn)

/-- C9 (amended).  The engine does not reject a snapshot containing a node
whose parent id matches no node: the layout pass simply never places such a
node (its Position Store entry stays absent across the pass), while the rest
of the snapshot is laid out normally, and the emitted renderable output still
contains the dangling node, rendered at the origin fallback offset by half a
node width. -/
theorem C9_dangling_parent (td : TreeData) (m : PosMap) (n : CNode)
    (pid : String) (hmem : n ∈ td.nodes) (hpar : n.parentId = some pid)
    (hdangling : ∀ x ∈ td.nodes, x.id ≠ pid)
    (hnodup : ∀ x ∈ td.nodes, x.id = n.id → x = n)
    (hm : mapGet m pid = none) (hn : mapGet m n.id = none) :
    mapGet (layoutNodes td m).2.2 n.id = none ∧
    ∃ rn ∈ (layoutNodes td m).1, rn.id = n.id ∧
      rn.x = 0 - nodeWidth / 2 ∧ rn.y = 0 := by
  have hsortmem : n ∈ sortByTimestamp td.nodes := mem_sortByTimestamp.mpr hmem
  have hstore : mapGet (layoutPass (sortByTimestamp td.nodes) m) n.id = none ∧
      mapGet (layoutPass (sortByTimestamp td.nodes) m) pid = none := by
    apply fold_dangling
    · exact fun x hx => hdangling x (mem_sortByTimestamp.mp hx)
    · intro x hx hxid
      have := hnodup x (mem_sortByTimestamp.mp hx) hxid
      rw [this, hpar]
    · exact hm
    · exact hn
  refine ⟨hstore.1, ?_⟩
  refine ⟨⟨n.id, 0 - nodeWidth / 2, 0, n.id = td.activeNodeId.getD "",
    isNodeInActivePath n.id td⟩, ?_, rfl, rfl, rfl⟩
  show _ ∈ emitNodes (sortByTimestamp td.nodes) td
    (layoutPass (sortByTimestamp td.nodes) m)
  unfold emitNodes
  refine List.mem_map.mpr ⟨n, hsortmem, ?_⟩
  rw [hstore.1]
  rfl

/-- Witness for C9: in the snapshot `{root r, node a with parent "ghost"}`
the dangling node `a` is never placed yet is still emitted at the fallback
offset. -/
theorem C9_dangling_parent_witness :
    mapGet (layoutNodes ⟨[⟨"r", none, 0⟩, ⟨"a", some "ghost", 1⟩], none⟩ []).2.2
      "a" = none ∧
    ∃ rn ∈ (layoutNodes ⟨[⟨"r", none, 0⟩, ⟨"a", some "ghost", 1⟩], none⟩ []).1,
      rn.id = "a" ∧ rn.x = 0 - nodeWidth / 2 ∧ rn.y = 0 := by
  have h := C9_dangling_parent ⟨[⟨"r", none, 0⟩, ⟨"a", some "ghost", 1⟩], none⟩
    [] ⟨"a", some "ghost", 1⟩ "ghost" (by decide) (by decide)
    (by decide) (by decide) (by decide) (by decide)
  exact ⟨h.1, h.2⟩

/-- Counterexample to C9 as stated: on the snapshot `{root r, node a whose
parent id "ghost" matches no node}` the engine does not reject and does not
refuse to lay out: it places `r` at the origin and emits renderable nodes for
both `r` and `a` — a partial layout of the inconsistent snapshot. -/
theorem C9_counterexample :
    mapGet (layoutNodes ⟨[⟨"r", none, 0⟩, ⟨"a", some "ghost", 1⟩], none⟩ []).2.2
      "r" = some (0, 0) ∧
    (layoutNodes ⟨[⟨"r", none, 0⟩, ⟨"a", some "ghost", 1⟩], none⟩ []).1 =
      [⟨"r", -190, 0, false, false⟩, ⟨"a", -190, 0, false, false⟩] := by
  decide

/-! ### Deletion lemmas -/

theorem mapGet_mapDelete_ne (m : PosMap) (k id : String) (h : id ≠ k) :
    mapGet (mapDelete m k) id = mapGet m id := by
  induction m with
  | nil => rfl
  | cons e rest ih =>
    unfold mapDelete at *
    by_cases he : e.1 = k
    · have hcond : (decide (e.1 ≠ k)) = false := by simp [he]
      rw [List.filter_cons, hcond]
      simp only [Bool.false_eq_true, if_false]
      rw [ih, mapGet_cons]
      have hne : ¬ (e.1 = id) := by rw [he]; exact Ne.symm h
      rw [if_neg hne]
    · have hcond : (decide (e.1 ≠ k)) = true := by simp [he]
      rw [List.filter_cons, hcond]
      simp only [if_true]
      rw [mapGet_cons, mapGet_cons, ih]

theorem foldl_mapDelete_not_mem (ids : List String) (m : PosMap) (id : String)
    (h : id ∉ ids) : mapGet (ids.foldl mapDelete m) id = mapGet m id := by
  induction ids generalizing m with
  | nil => rfl
  | cons i rest ih =>
    rw [List.foldl_cons]
    rw [ih _ (fun hh => h (List.mem_cons_of_mem i hh))]
    exact mapGet_mapDelete_ne m i id (fun hh => h (hh ▸ List.mem_cons_self i rest))

theorem pairwise_le_getLast (l : List CNode) (b : CNode)
    (h : l.Pairwise (fun a b => a.timestamp ≤ b.timestamp))
    (hb : l.getLast? = some b) : ∀ n ∈ l, n.timestamp ≤ b.timestamp := by
  induction l with
  | nil => cases hb
  | cons x xs ih =>
    intro n hn
    cases xs with
    | nil =>
      have : b = x := by
        simp only [List.getLast?_singleton] at hb
        exact (Option.some_inj.mp hb).symm
      rcases List.mem_singleton.mp hn with rfl
      rw [this]
    | cons y ys =>
      rw [List.getLast?_cons_cons] at hb
      rcases List.mem_cons.mp hn with rfl | hn'
      · have hbmem : b ∈ y :: ys := List.mem_of_mem_getLast? hb
        exact (List.pairwise_cons.mp h).1 b hbmem
      · exact ih (List.pairwise_cons.mp h).2 hb n hn'

/-- C7 (confirmed).  Deleting an existing node removes exactly it and its
descendant set from the snapshot; the resulting Position Store holds no entry
except the surviving root's, which keeps its pre-deletion coordinate; and if
the deleted set contained the active node, the new active node is the most
recently created surviving node (the last of the creation-ordered survivors),
or null when nothing survives. -/
theorem C7_delete (td : TreeData) (m : PosMap) (nodeId : String) (nd : CNode)
    (hfound : td.nodes.find? (fun n => n.id = nodeId) = some nd)
    (hsorted : td.nodes.Pairwise (fun a b => a.timestamp ≤ b.timestamp)) :
    (∀ n, n ∈ (handleDeleteNode nodeId td m).1.nodes ↔
      n ∈ td.nodes ∧ n.id ∉ nodeId :: getAllDescendants nodeId td.nodes) ∧
    (∀ r rp,
      (td.nodes.filter (fun n =>
        ¬ (nodeId :: getAllDescendants nodeId td.nodes).contains n.id)).find?
          (fun n => n.parentId = none) = some r →
      mapGet m r.id = some rp →
      mapGet (handleDeleteNode nodeId td m).2 r.id = some rp ∧
      ∀ id, id ≠ r.id → mapGet (handleDeleteNode nodeId td m).2 id = none) ∧
    (∀ a, td.activeNodeId = some a →
      a ∈ nodeId :: getAllDescendants nodeId td.nodes →
      ((td.nodes.filter (fun n =>
          ¬ (nodeId :: getAllDescendants nodeId td.nodes).contains n.id)) = [] →
        (handleDeleteNode nodeId td m).1.activeNodeId = none) ∧
      (∀ b, (td.nodes.filter (fun n =>
          ¬ (nodeId :: getAllDescendants nodeId td.nodes).contains n.id)).getLast?
            = some b →
        (handleDeleteNode nodeId td m).1.activeNodeId = some b.id ∧
        ∀ n ∈ td.nodes.filter (fun n =>
          ¬ (nodeId :: getAllDescendants nodeId td.nodes).contains n.id),
          n.timestamp ≤ b.timestamp)) := by
  unfold handleDeleteNode
  rw [hfound]
  dsimp only
  refine ⟨?_, ?_, ?_⟩
  · intro n
    rw [List.mem_filter]
    constructor
    · rintro ⟨h1, h2⟩
      refine ⟨h1, ?_⟩
      intro hmem
      rw [decide_eq_true_eq] at h2
      exact h2 (List.elem_iff.mpr hmem)
    · rintro ⟨h1, h2⟩
      refine ⟨h1, ?_⟩
      rw [decide_eq_true_eq]
      intro hc
      exact h2 (List.elem_iff.mp hc)
  · intro r rp hr hrp
    rw [hr]
    dsimp only
    have hrmem : r ∈ td.nodes.filter (fun n =>
        ¬ (nodeId :: getAllDescendants nodeId td.nodes).contains n.id) :=
      List.mem_of_find?_eq_some hr
    have hrnot : r.id ∉ nodeId :: getAllDescendants nodeId td.nodes := by
      have := (List.mem_filter.mp hrmem).2
      rw [decide_eq_true_eq] at this
      intro hmem
      exact this (List.elem_iff.mpr hmem)
    have hm1 : mapGet ((nodeId :: getAllDescendants nodeId td.nodes).foldl
        mapDelete m) r.id = some rp := by
      rw [foldl_mapDelete_not_mem _ _ _ hrnot]
      exact hrp
    rw [hm1]
    dsimp only
    constructor
    · rw [mapGet_cons, if_pos rfl]
    · intro id hne
      rw [mapGet_cons, if_neg (Ne.symm hne)]
      rfl
  · intro a ha hamem
    have hcond : (nodeId :: getAllDescendants nodeId td.nodes).contains
        (td.activeNodeId.getD "") = true := by
      rw [ha]
      exact List.elem_iff.mpr hamem
    rw [hcond]
    simp only [if_true]
    constructor
    · intro hempty
      rw [hempty]
      rfl
    · intro b hb
      constructor
      · rw [hb]
        rfl
      · intro n hn
        exact pairwise_le_getLast _ b
          ((hsorted.sublist (List.filter_sublist _))) hb n hn

/-- Witness for C7: deleting `n2` from the five-node tree
`n0 → {n1 → n3, n2 → n4}` with all nodes placed and `n4` active removes
exactly `{n2, n4}`, keeps only the root entry `n0 ↦ (0,0)`, and makes `n3`
(the most recent survivor) active. -/
theorem C7_delete_witness :
    ((⟨"n4", some "n2", 4⟩ : CNode) ∈ (handleDeleteNode "n2"
        ⟨[⟨"n0", none, 0⟩, ⟨"n1", some "n0", 1⟩, ⟨"n2", some "n0", 2⟩,
          ⟨"n3", some "n1", 3⟩, ⟨"n4", some "n2", 4⟩], some "n4"⟩
        [("n0", ((0 : Int), (0 : Int))), ("n1", ((0 : Int), (180 : Int))),
          ("n2", ((450 : Int), (180 : Int))), ("n3", ((0 : Int), (360 : Int))),
          ("n4", ((450 : Int), (360 : Int)))]).1.nodes ↔
      (⟨"n4", some "n2", 4⟩ : CNode) ∈
        ([⟨"n0", none, 0⟩, ⟨"n1", some "n0", 1⟩, ⟨"n2", some "n0", 2⟩,
          ⟨"n3", some "n1", 3⟩, ⟨"n4", some "n2", 4⟩] : List CNode) ∧
      ("n4" : String) ∉ "n2" :: getAllDescendants "n2"
        [⟨"n0", none, 0⟩, ⟨"n1", some "n0", 1⟩, ⟨"n2", some "n0", 2⟩,
          ⟨"n3", some "n1", 3⟩, ⟨"n4", some "n2", 4⟩]) ∧
    (mapGet (handleDeleteNode "n2"
        ⟨[⟨"n0", none, 0⟩, ⟨"n1", some "n0", 1⟩, ⟨"n2", some "n0", 2⟩,
          ⟨"n3", some "n1", 3⟩, ⟨"n4", some "n2", 4⟩], some "n4"⟩
        [("n0", (0, 0)), ("n1", (0, 180)), ("n2", (450, 180)),
          ("n3", (0, 360)), ("n4", (450, 360))]).2 "n0" = some (0, 0) ∧
      ∀ id, id ≠ "n0" → mapGet (handleDeleteNode "n2"
        ⟨[⟨"n0", none, 0⟩, ⟨"n1", some "n0", 1⟩, ⟨"n2", some "n0", 2⟩,
          ⟨"n3", some "n1", 3⟩, ⟨"n4", some "n2", 4⟩], some "n4"⟩
        [("n0", (0, 0)), ("n1", (0, 180)), ("n2", (450, 180)),
          ("n3", (0, 360)), ("n4", (450, 360))]).2 id = none) ∧
    (handleDeleteNode "n2"
        ⟨[⟨"n0", none, 0⟩, ⟨"n1", some "n0", 1⟩, ⟨"n2", some "n0", 2⟩,
          ⟨"n3", some "n1", 3⟩, ⟨"n4", some "n2", 4⟩], some "n4"⟩
        [("n0", (0, 0)), ("n1", (0, 180)), ("n2", (450, 180)),
          ("n3", (0, 360)), ("n4", (450, 360))]).1.activeNodeId = some "n3" := by
  have h := C7_delete
    ⟨[⟨"n0", none, 0⟩, ⟨"n1", some "n0", 1⟩, ⟨"n2", some "n0", 2⟩,
      ⟨"n3", some "n1", 3⟩, ⟨"n4", some "n2", 4⟩], some "n4"⟩
    [("n0", (0, 0)), ("n1", (0, 180)), ("n2", (450, 180)),
      ("n3", (0, 360)), ("n4", (450, 360))]
    "n2" ⟨"n2", some "n0", 2⟩ (by decide) (by decide)
  refine ⟨h.1 _, ?_, ?_⟩
  · exact h.2.1 ⟨"n0", none, 0⟩ (0, 0) (by decide) (by decide)
  · exact ((h.2.2 "n4" rfl (by decide)).2 ⟨"n3", some "n1", 3⟩ (by decide)).1

/-! ### Tree depth and insertion-built states -/

/-- Depth of a node: number of parent hops to a root, with recursion fuel
(`ns.length` suffices for every snapshot whose parent references point to
strictly older nodes). -/
def depthOfF : Nat → CNode → List CNode → Nat
  | 0, _, _ => 0
  | fuel + 1, n, ns =>
    match n.parentId with
    | none => 0
    | some pid =>
      match ns.find? (fun x => x.id = pid) with
      | none => 0
      | some p => depthOfF fuel p ns + 1

def depthOf (n : CNode) (ns : List CNode) : Nat :=
  depthOfF ns.length n ns

/-- The states reachable by repeated single-node insertion (fresh id,
strictly increasing timestamps, parent — when present — already in the
snapshot), each insertion followed by a layout pass; no drags, no
deletions. -/
inductive Reachable : List CNode → PosMap → Prop where
  | nil : Reachable [] []
  | insert {ns : List CNode} {m : PosMap} (n : CNode) :
      Reachable ns m →
      (∀ x ∈ ns, x.id ≠ n.id) →
      (∀ x ∈ ns, x.timestamp < n.timestamp) →
      (n.parentId = none ∨ ∃ p ∈ ns, n.parentId = some p.id) →
      Reachable (ns ++ [n]) (layoutStore ⟨ns ++ [n], none⟩ m)

theorem length_filter_mono (l : List CNode) (p q : CNode → Bool)
    (h : ∀ x ∈ l, p x = true → q x = true) :
    (l.filter p).length ≤ (l.filter q).length := by
  induction l with
  | nil => exact Nat.le_refl 0
  | cons a rest ih =>
    have ih' := ih (fun x hx => h x (List.mem_cons_of_mem a hx))
    rw [List.filter_cons, List.filter_cons]
    cases hp : p a with
    | true =>
      rw [h a (List.mem_cons_self a rest) hp]
      simpa using Nat.succ_le_succ ih'
    | false =>
      cases hq : q a with
      | true => simpa using Nat.le_succ_of_le ih'
      | false => simpa using ih'

theorem length_filter_strict (l : List CNode) (p q : CNode → Bool)
    (h : ∀ x ∈ l, p x = true → q x = true) (x0 : CNode) (hx0 : x0 ∈ l)
    (hq : q x0 = true) (hp : p x0 = false) :
    (l.filter p).length < (l.filter q).length := by
  induction l with
  | nil => cases hx0
  | cons a rest ih =>
    rw [List.filter_cons, List.filter_cons]
    rcases List.mem_cons.mp hx0 with rfl | hmem
    · rw [hp, hq]
      have := length_filter_mono rest p q
        (fun x hx => h x (List.mem_cons_of_mem _ hx))
      simpa using Nat.lt_succ_of_le this
    · have ih' := ih (fun x hx => h x (List.mem_cons_of_mem a hx)) hmem
      cases hpa : p a with
      | true =>
        rw [h a (List.mem_cons_self a rest) hpa]
        simpa using Nat.succ_lt_succ ih'
      | false =>
        cases hqa : q a with
        | true => simpa using Nat.lt_succ_of_lt ih'
        | false => simpa using ih'

/-- `ParentsOlder ns`: every resolved parent reference points to a strictly
older node. -/
def ParentsOlder (ns : List CNode) : Prop :=
  ∀ n ∈ ns, ∀ pid, n.parentId = some pid →
    ∀ p, ns.find? (fun x => x.id = pid) = some p → p.timestamp < n.timestamp

/-- With parents strictly older, any fuel at least the number of strictly
older nodes computes the same depth. -/
theorem depthOfF_fuel_stable (ns : List CNode) (hpo : ParentsOlder ns) :
    ∀ (c : Nat) (n : CNode), n ∈ ns →
      (ns.filter (fun x => x.timestamp < n.timestamp)).length ≤ c →
      ∀ f g, c ≤ f → c ≤ g → depthOfF f n ns = depthOfF g n ns := by
  intro c
  induction c using Nat.strong_induction_on with
  | _ c ih =>
    intro n hn hcount f g hf hg
    cases hpar : n.parentId with
    | none =>
      cases f with
      | zero => cases g with
        | zero => rfl
        | succ g' => simp only [depthOfF, hpar]
      | succ f' => cases g with
        | zero => simp only [depthOfF, hpar]
        | succ g' => simp only [depthOfF, hpar]
    | some pid =>
      cases hfind : ns.find? (fun x => x.id = pid) with
      | none =>
        cases f with
        | zero => cases g with
          | zero => rfl
          | succ g' => simp only [depthOfF, hpar, hfind]
        | succ f' => cases g with
          | zero => simp only [depthOfF, hpar, hfind]
          | succ g' => simp only [depthOfF, hpar, hfind]
      | some p =>
        have hpts : p.timestamp < n.timestamp := hpo n hn pid hpar p hfind
        have hpmem : p ∈ ns := List.mem_of_find?_eq_some hfind
        have hcnt : (ns.filter (fun x => x.timestamp < p.timestamp)).length <
            (ns.filter (fun x => x.timestamp < n.timestamp)).length := by
          apply length_filter_strict
          · intro x _ hx
            rw [decide_eq_true_eq] at hx
            rw [decide_eq_true_eq]
            exact hx.trans hpts
          · exact hpmem
          · rw [decide_eq_true_eq]; exact hpts
          · simp
        have hcpos : 1 ≤ c := by
          have hmemf : p ∈ ns.filter (fun x => x.timestamp < n.timestamp) := by
            rw [List.mem_filter]
            exact ⟨hpmem, by rw [decide_eq_true_eq]; exact hpts⟩
          have h1 : 0 < (ns.filter (fun x => x.timestamp < n.timestamp)).length :=
            List.length_pos_of_mem hmemf
          omega
        have hf1 : 1 ≤ f := hcpos.trans hf
        have hg1 : 1 ≤ g := hcpos.trans hg
        obtain ⟨f', rfl⟩ : ∃ f', f = f' + 1 := ⟨f - 1, by omega⟩
        obtain ⟨g', rfl⟩ : ∃ g', g = g' + 1 := ⟨g - 1, by omega⟩
        simp only [depthOfF, hpar, hfind]
        have hcp : (ns.filter (fun x => x.timestamp < p.timestamp)).length ≤ c - 1 := by
          omega
        rw [ih (c - 1) (by omega) p hpmem hcp f' g' (by omega) (by omega)]

/-- Appending a node with a fresh id does not change the depth of the nodes
already present, provided their parent references resolve inside `ns`. -/
theorem depthOfF_append (ns : List CNode) (nw : CNode)
    (hclosed : ∀ x ∈ ns, ∀ pid, x.parentId = some pid →
      ∃ p, ns.find? (fun y => y.id = pid) = some p) :
    ∀ f (x : CNode), x ∈ ns → depthOfF f x (ns ++ [nw]) = depthOfF f x ns := by
  intro f
  induction f with
  | zero => intro x _; rfl
  | succ f' ih =>
    intro x hx
    cases hpar : x.parentId with
    | none => simp only [depthOfF, hpar]
    | some pid =>
      obtain ⟨p, hp⟩ := hclosed x hx pid hpar
      have happ : (ns ++ [nw]).find? (fun y => y.id = pid) = some p := by
        rw [List.find?_append, hp]
        rfl
      simp only [depthOfF, hpar, hp, happ]
      rw [ih p (List.mem_of_find?_eq_some hp)]

/-! ### Structural facts about reachable snapshots -/

theorem reachable_timestamps (ns : List CNode) (m : PosMap)
    (h : Reachable ns m) :
    ns.Pairwise (fun a b => a.timestamp < b.timestamp) := by
  induction h with
  | nil => exact List.Pairwise.nil
  | insert n _ _ hts _ ih =>
    rw [List.pairwise_append]
    exact ⟨ih, List.pairwise_singleton _ _,
      fun x hx y hy => (List.mem_singleton.mp hy) ▸ hts x hx⟩

theorem reachable_closed (ns : List CNode) (m : PosMap) (h : Reachable ns m) :
    ∀ x ∈ ns, ∀ pid, x.parentId = some pid → ∃ p ∈ ns, p.id = pid := by
  induction h with
  | nil => intro x hx; cases hx
  | insert n _ hfresh _ hpar ih =>
    intro x hx pid hxp
    rcases List.mem_append.mp hx with hx' | hx'
    · obtain ⟨p, hp, hpid⟩ := ih x hx' pid hxp
      exact ⟨p, List.mem_append_left _ hp, hpid⟩
    · rcases List.mem_singleton.mp hx' with rfl
      rcases hpar with hnone | ⟨p, hp, hpid⟩
      · rw [hnone] at hxp; cases hxp
      · rw [hpid] at hxp
        exact ⟨p, List.mem_append_left _ hp, Option.some_inj.mp hxp⟩

theorem reachable_parents_older (ns : List CNode) (m : PosMap)
    (h : Reachable ns m) : ParentsOlder ns := by
  intro x hx pid hxp p hfind
  have hpmem : p ∈ ns := List.mem_of_find?_eq_some hfind
  have hpid : p.id = pid := by
    have := List.find?_some hfind
    exact of_decide_eq_true this
  have hts := reachable_timestamps ns m h
  -- walk the derivation to find which of p, x came first
  clear hfind
  induction h with
  | nil => cases hx
  | insert n hr hfresh htsn hpar ih =>
    rcases List.mem_append.mp hx with hx' | hx'
    · rcases List.mem_append.mp hpmem with hp' | hp'
      · exact ih hx' hp' (List.Pairwise.sublist (List.sublist_append_left _ _) hts)
      · -- p is the new node but an old node references it: impossible
        rcases List.mem_singleton.mp hp' with rfl
        obtain ⟨q, hq, hqid⟩ := reachable_closed _ _ hr x hx' pid hxp
        exact absurd (hqid.trans hpid.symm) (hfresh q hq)
    · rcases List.mem_singleton.mp hx' with rfl
      rcases List.mem_append.mp hpmem with hp' | hp'
      · exact htsn p hp'
      · -- the new node cannot be its own parent: its id is fresh
        rcases List.mem_singleton.mp hp' with rfl
        rcases hpar with hnone | ⟨q, hq, hqid⟩
        · rw [hnone] at hxp; cases hxp
        · rw [hqid] at hxp
          have : q.id = p.id := (Option.some_inj.mp hxp).trans hpid.symm
          exact absurd this (hfresh q hq)

theorem placeOne_has_eq (srt : List CNode) (m : PosMap) (node : CNode)
    (h : mapHas m node.id = true) : placeOne srt m node = m := by
  unfold placeOne
  rw [h]
  rfl

theorem fold_placed_id (srt l : List CNode) (m : PosMap)
    (h : ∀ x ∈ l, mapHas m x.id = true) : l.foldl (placeOne srt) m = m := by
  induction l with
  | nil => rfl
  | cons x rest ih =>
    rw [List.foldl_cons, placeOne_has_eq srt m x (h x (List.mem_cons_self x rest))]
    exact ih (fun y hy => h y (List.mem_cons_of_mem x hy))

theorem sortByTimestamp_eq_self (l : List CNode)
    (h : l.Pairwise (fun a b => a.timestamp ≤ b.timestamp)) :
    sortByTimestamp l = l := by
  induction l with
  | nil => rfl
  | cons x xs ih =>
    have hx := (List.pairwise_cons.mp h).1
    have htail := (List.pairwise_cons.mp h).2
    unfold sortByTimestamp at *
    rw [List.foldr_cons, ih htail]
    cases xs with
    | nil => rfl
    | cons y ys =>
      unfold insertByTimestamp
      rw [if_neg (Nat.not_lt.mpr (hx y (List.mem_cons_self y ys)))]

/-- Both placement branches of a parented node lock y exactly one
`verticalSpacing` below the parent's current y. -/
theorem placeOne_parent_y (srt : List CNode) (m : PosMap) (node : CNode)
    (pid : String) (parentPos : Pos) (parent : CNode)
    (hhas : mapHas m node.id = false) (hpar : node.parentId = some pid)
    (hget : mapGet m pid = some parentPos)
    (hfind : srt.find? (fun n => n.id = pid) = some parent) :
    ∃ x', mapGet (placeOne srt m node) node.id =
      some (x', parentPos.2 + verticalSpacing) := by
  by_cases hidx : (srt.filter (fun n => n.parentId = some pid)).findIdx
      (fun n => n.id = node.id) = 0
  · exact ⟨parentPos.1, placeOne_firstChild srt m node pid parentPos hhas hpar hget hidx⟩
  · exact ⟨_, placeOne_branch srt m node pid parentPos parent hhas hpar hget hfind hidx⟩

/-- The central invariant of insertion-built states: every node of the
snapshot is placed, and its y coordinate is its tree depth times
`verticalSpacing`; conversely the store holds only ids of the snapshot. -/
theorem reachable_invariant (ns : List CNode) (m : PosMap) (h : Reachable ns m) :
    (∀ n ∈ ns, ∃ p, mapGet m n.id = some p ∧
      p.2 = (depthOf n ns : Int) * verticalSpacing) ∧
    (∀ id p, mapGet m id = some p → ∃ x ∈ ns, x.id = id) := by
  induction h with
  | nil =>
    constructor
    · intro n hn; cases hn
    · intro id p hp; cases hp
  | insert n hr hfresh hts hpar ih =>
    rename_i ns m
    -- the pass over `ns ++ [n]` reduces to the single placement of `n`
    have hsorted : (ns ++ [n]).Pairwise (fun a b => a.timestamp ≤ b.timestamp) := by
      rw [List.pairwise_append]
      refine ⟨(reachable_timestamps ns m hr).imp (fun hab => Nat.le_of_lt hab),
        List.pairwise_singleton _ _, ?_⟩
      intro x hx y hy
      rcases List.mem_singleton.mp hy with rfl
      exact Nat.le_of_lt (hts x hx)
    have hnid : mapGet m n.id = none := by
      cases hg : mapGet m n.id with
      | none => rfl
      | some p =>
        obtain ⟨x, hx, hxid⟩ := ih.2 n.id p hg
        exact absurd hxid (hfresh x hx)
    have hstore : layoutStore ⟨ns ++ [n], none⟩ m =
        placeOne (ns ++ [n]) m n := by
      unfold layoutStore layoutPass
      dsimp only
      rw [sortByTimestamp_eq_self _ hsorted, List.foldl_append,
        fold_placed_id (ns ++ [n]) ns m (fun x hx => by
          obtain ⟨p, hp, _⟩ := ih.1 x hx
          exact mapHas_of_get_some hp)]
      rfl
    have hclosed : ∀ x ∈ ns, ∀ pid, x.parentId = some pid →
        ∃ p, ns.find? (fun y => y.id = pid) = some p := by
      intro x hx pid hxp
      obtain ⟨p0, hp0, hp0id⟩ := reachable_closed ns m hr x hx pid hxp
      have : (ns.find? (fun y => y.id = pid)).isSome := by
        rw [List.find?_isSome]
        exact ⟨p0, hp0, by rw [decide_eq_true_eq]; exact hp0id⟩
      exact Option.isSome_iff_exists.mp this
    have hpo : ParentsOlder ns := reachable_parents_older ns m hr
    have hdepth_old : ∀ x ∈ ns, depthOf x (ns ++ [n]) = depthOf x ns := by
      intro x hx
      unfold depthOf
      rw [depthOfF_append ns n hclosed _ x hx]
      have hcount : (ns.filter (fun y => y.timestamp < x.timestamp)).length ≤
          ns.length := List.length_filter_le _ _
      rw [List.length_append]
      exact depthOfF_fuel_stable ns hpo ns.length x hx hcount _ _
        (Nat.le_add_right _ _) (Nat.le_refl _)
    rw [hstore]
    constructor
    · intro y hy
      rcases List.mem_append.mp hy with hy' | hy'
      · -- an old node: only shifted horizontally, depth unchanged
        obtain ⟨p, hp, hpy⟩ := ih.1 y hy'
        obtain ⟨k, hk⟩ := (placeOne_shiftsOnlyRight_of_ne (ns ++ [n]) m n).1 y.id p hp
        refine ⟨_, hk, ?_⟩
        rw [hpy, hdepth_old y hy']
      · rcases List.mem_singleton.mp hy' with rfl
        cases hpn : y.parentId with
        | none =>
          refine ⟨(0, 0), placeOne_root _ _ _ (by unfold mapHas; rw [hnid]; rfl) hpn, ?_⟩
          have : depthOf y (ns ++ [y]) = 0 := by
            unfold depthOf
            rw [List.length_append]
            simp only [depthOfF, hpn]
          rw [this]
          simp
        | some pid =>
          rcases hpar with hnone | ⟨p0, hp0, hp0id⟩
          · rw [hnone] at hpn; cases hpn
          · obtain ⟨p1, hfind1⟩ := by
              have : (ns.find? (fun z => z.id = pid)).isSome := by
                rw [List.find?_isSome]
                refine ⟨p0, hp0, ?_⟩
                rw [decide_eq_true_eq]
                rw [hp0id] at hpn
                exact Option.some_inj.mp hpn
              exact Option.isSome_iff_exists.mp this
            have hp1mem : p1 ∈ ns := List.mem_of_find?_eq_some hfind1
            have hfindapp : (ns ++ [y]).find? (fun z => z.id = pid) = some p1 := by
              rw [List.find?_append, hfind1]
              rfl
            obtain ⟨pp, hpp, hppy⟩ := ih.1 p1 hp1mem
            have hp1id : p1.id = pid := by
              have := List.find?_some hfind1
              exact of_decide_eq_true this
            have hgetpid : mapGet m pid = some pp := by
              rw [← hp1id]
              exact hpp
            obtain ⟨x', hx'⟩ := placeOne_parent_y (ns ++ [y]) m y pid pp p1
              (by unfold mapHas; rw [hnid]; rfl) hpn hgetpid hfindapp
            refine ⟨_, hx', ?_⟩
            have hd : depthOf y (ns ++ [y]) = depthOf p1 ns + 1 := by
              unfold depthOf
              rw [List.length_append]
              simp only [depthOfF, hpn, hfindapp]
              rw [depthOfF_append ns y hclosed _ p1 hp1mem]
            rw [hd, hppy]
            push_cast
            ring
    · intro id p hp
      by_cases hex : ∃ x ∈ ns ++ [n], x.id = id
      · exact hex
      · exfalso
        push_neg at hex
        have hne : id ≠ n.id :=
          fun hh => hex n (List.mem_append_right _ (List.mem_singleton.mpr rfl)) hh.symm
        have hm : mapGet m id = none := by
          cases hg : mapGet m id with
          | none => rfl
          | some q =>
            obtain ⟨x, hx, hxid⟩ := ih.2 id q hg
            exact absurd hxid (hex x (List.mem_append_left _ hx))
        rw [(placeOne_shiftsOnlyRight_of_ne (ns ++ [n]) m n).2 id hne hm] at hp
        cases hp

/-- C10 (confirmed).  All internal adjustments of a layout pass are
horizontal: every entry present when a pass begins keeps its y coordinate
exactly (collision resolution, ancestor-sibling displacement and branch
shifts change only x); and over any drag-free, deletion-free insertion
sequence (`Reachable`), every node's locked y coordinate equals its tree
depth times `verticalSpacing` — 0 for a parentless node, parent's y plus
`verticalSpacing` otherwise, written once at first placement. -/
theorem C10_adjustments_horizontal :
    (∀ (srt : List CNode) (m : PosMap) (id : String) (p : Pos),
      mapGet m id = some p →
      ∃ x', mapGet (layoutPass srt m) id = some (x', p.2)) ∧
    (∀ (ns : List CNode) (m : PosMap), Reachable ns m →
      ∀ n ∈ ns, ∃ p, mapGet m n.id = some p ∧
        p.2 = (depthOf n ns : Int) * verticalSpacing) := by
  constructor
  · intro srt m id p hp
    obtain ⟨k, hk⟩ := layoutPass_frame srt m id p hp
    exact ⟨_, hk⟩
  · intro ns m h n hn
    exact (reachable_invariant ns m h).1 n hn

/-- Witness for C10: a pass preserves the y of a pre-placed entry, and in
the insertion-built two-node chain `r → a` the locked y coordinates are
exactly 0·180 and 1·180. -/
theorem C10_adjustments_horizontal_witness :
    (∃ x', mapGet (layoutPass [⟨"r", none, 0⟩]
      [("q", ((7 : Int), (13 : Int)))]) "q" = some (x', 13)) ∧
    (∃ p, mapGet (layoutStore ⟨[⟨"r", none, 0⟩, ⟨"a", some "r", 1⟩], none⟩
        (layoutStore ⟨[⟨"r", none, 0⟩], none⟩ [])) "a" = some p ∧
      p.2 = (depthOf ⟨"a", some "r", 1⟩ [⟨"r", none, 0⟩, ⟨"a", some "r", 1⟩] : Int)
        * verticalSpacing) := by
  constructor
  · exact C10_adjustments_horizontal.1 [⟨"r", none, 0⟩]
      [("q", (7, 13))] "q" (7, 13) (by decide)
  · refine C10_adjustments_horizontal.2 [⟨"r", none, 0⟩, ⟨"a", some "r", 1⟩]
      (layoutStore ⟨[⟨"r", none, 0⟩, ⟨"a", some "r", 1⟩], none⟩
        (layoutStore ⟨[⟨"r", none, 0⟩], none⟩ [])) ?_ ⟨"a", some "r", 1⟩ (by decide)
    have h1 : Reachable [⟨"r", none, 0⟩] (layoutStore ⟨[⟨"r", none, 0⟩], none⟩ []) :=
      Reachable.insert ⟨"r", none, 0⟩ Reachable.nil
        (by intro x hx; cases hx) (by intro x hx; cases hx) (Or.inl rfl)
    exact Reachable.insert ⟨"a", some "r", 1⟩ h1
      (by decide) (by decide)
      (Or.inr ⟨⟨"r", none, 0⟩, by decide, rfl⟩)

/-! ### Characterizing the ancestor-sibling displacement walk -/

/-- The ancestors visited by the `shiftAllAncestorSiblings` walk, in order:
the node's parent, grandparent, …, up to a root (or until a lookup fails or
fuel runs out), mirroring `ancestorWalk`'s traversal exactly. -/
def walkLevels : Nat → CNode → List CNode → List CNode
  | 0, _, _ => []
  | fuel + 1, cur, ns =>
    match cur.parentId with
    | none => []
    | some aid =>
      match ns.find? (fun x => x.id = aid) with
      | none => []
      | some anc => anc :: walkLevels fuel anc ns

/-- The siblings of an ancestor: nodes sharing its parent, excluding it. -/
def sibsOf (anc : CNode) (ns : List CNode) : List CNode :=
  ns.filter (fun x => x.parentId = anc.parentId && x.id ≠ anc.id)

/-- The walk's per-sibling test, evaluated against a fixed store and
threshold: the sibling holds a locked position with x greater than `px`. -/
def qualPred (m0 : PosMap) (px : Int) (s : CNode) : Bool :=
  match mapGet m0 s.id with
  | some sp => decide (sp.1 > px)
  | none => false

/-- A branch: a node id together with its full descendant set. -/
def branchIds (sid : String) (ns : List CNode) : List String :=
  sid :: getAllDescendants sid ns

/-- The ids the displacement step is specified to shift: for each ancestor
on the walk, the full branches of those of its siblings whose locked x (in
the pre-walk store) exceeds `px`, the pre-walk x of the inserted node's
parent. -/
def shiftedIdsSpec (m0 : PosMap) (px : Int) (fuel : Nat) (cur : CNode)
    (ns : List CNode) : List String :=
  (walkLevels fuel cur ns).flatMap (fun anc =>
    ((sibsOf anc ns).filter (qualPred m0 px)).flatMap
      (fun s => branchIds s.id ns))

/-- `m` is `m0` with exactly the ids of `shifted` moved right one
`horizontalSpacing`. -/
def AgreesShifted (m0 : PosMap) (shifted : List String) (m : PosMap) : Prop :=
  ∀ id, mapGet m id = (mapGet m0 id).map
    (fun p => if id ∈ shifted then (p.1 + horizontalSpacing, p.2) else p)

theorem AgreesShifted.nil (m0 : PosMap) : AgreesShifted m0 [] m0 := by
  intro id
  cases hg : mapGet m0 id with
  | none => rfl
  | some p => simp

theorem AgreesShifted.shift_branch {m0 : PosMap} {D : List String} {m : PosMap}
    (h : AgreesShifted m0 D m) (sid : String) (ns : List CNode)
    (hnd : (branchIds sid ns).Nodup)
    (hdisj : ∀ b ∈ branchIds sid ns, b ∉ D) :
    AgreesShifted m0 (D ++ branchIds sid ns)
      (shiftBranchRight sid horizontalSpacing ns m) := by
  intro id
  by_cases hb : id ∈ branchIds sid ns
  · rw [show shiftBranchRight sid horizontalSpacing ns m =
      shiftIds (branchIds sid ns) horizontalSpacing m from rfl]
    rw [shiftIds_mem_nodup _ _ _ _ hnd hb, h id]
    have hnotD : id ∉ D := hdisj id hb
    cases hg : mapGet m0 id with
    | none => rfl
    | some p =>
      simp only [Option.map_map, Option.map]
      rw [if_neg hnotD, if_pos (List.mem_append_right D hb)]
  · rw [show shiftBranchRight sid horizontalSpacing ns m =
      shiftIds (branchIds sid ns) horizontalSpacing m from rfl]
    rw [shiftIds_not_mem _ _ _ _ hb, h id]
    cases hg : mapGet m0 id with
    | none => rfl
    | some p =>
      simp only [Option.map]
      by_cases hD : id ∈ D
      · rw [if_pos hD, if_pos (List.mem_append_left _ hD)]
      · rw [if_neg hD, if_neg (by
          intro hmem
          rcases List.mem_append.mp hmem with h1 | h1
          · exact hD h1
          · exact hb h1)]

theorem not_mem_append_left {a : String} {l1 l2 : List String}
    (h : a ∉ l1 ++ l2) : a ∉ l1 := fun hh => h (List.mem_append_left _ hh)

theorem not_mem_append_of_not_mem_assoc {a : String} {D A B : List String}
    (h : a ∉ D ++ (A ++ B)) : a ∉ D ++ A := by
  intro hh
  rcases List.mem_append.mp hh with h1 | h1
  · exact h (List.mem_append_left _ h1)
  · exact h (List.mem_append_right _ (List.mem_append_left _ h1))

/-- One level of the walk, characterized: folding the sibling check over a
sibling list shifts exactly the branches of the qualifying siblings
(qualification judged against the pre-walk store and the pre-walk x of the
inserted node's parent). -/
theorem level_fold_spec (ns : List CNode) (pid : String) (fb : Int)
    (m0 : PosMap) (ppos : Pos) (hppos : mapGet m0 pid = some ppos) :
    ∀ (S : List CNode) (D : List String) (m : PosMap),
    AgreesShifted m0 D m →
    (D ++ (S.filter (qualPred m0 ppos.1)).flatMap
      (fun s => branchIds s.id ns)).Nodup →
    pid ∉ D ++ (S.filter (qualPred m0 ppos.1)).flatMap
      (fun s => branchIds s.id ns) →
    (∀ s ∈ S, qualPred m0 ppos.1 s = false →
      s.id ∉ D ++ (S.filter (qualPred m0 ppos.1)).flatMap
        (fun s => branchIds s.id ns)) →
    AgreesShifted m0
      (D ++ (S.filter (qualPred m0 ppos.1)).flatMap
        (fun s => branchIds s.id ns))
      (S.foldl (fun m sibling =>
        match mapGet m sibling.id with
        | none => m
        | some siblingPos =>
          let thr := match mapGet m pid with
            | some pp => pp.1
            | none => fb
          if siblingPos.1 > thr then
            shiftBranchRight sibling.id horizontalSpacing ns m
          else m) m) := by
  intro S
  induction S with
  | nil =>
    intro D m hA _ _ _
    simpa using hA
  | cons s S' ih =>
    intro D m hA hnd hpid hnonq
    rw [List.foldl_cons]
    cases hq : qualPred m0 ppos.1 s with
    | true =>
      have hfilter : (s :: S').filter (qualPred m0 ppos.1) =
          s :: S'.filter (qualPred m0 ppos.1) := by
        rw [List.filter_cons, hq]
        rfl
      rw [hfilter] at hnd hpid hnonq ⊢
      rw [List.flatMap_cons] at hnd hpid hnonq ⊢
      -- the qualifying sibling reads its unshifted position
      have hg0 : ∃ sp0, mapGet m0 s.id = some sp0 ∧ sp0.1 > ppos.1 := by
        unfold qualPred at hq
        cases hg : mapGet m0 s.id with
        | none => rw [hg] at hq; cases hq
        | some sp0 =>
          rw [hg] at hq
          exact ⟨sp0, rfl, of_decide_eq_true hq⟩
      obtain ⟨sp0, hg0, hgt⟩ := hg0
      have hsD : s.id ∉ D := by
        have hdisj := List.disjoint_of_nodup_append hnd
        intro hmem
        exact hdisj hmem (List.mem_append_left _
          (List.mem_cons_self s.id (getAllDescendants s.id ns)))
      have hreads : mapGet m s.id = some sp0 := by
        rw [hA s.id, hg0]
        simp [hsD]
      have hpidD : pid ∉ D := not_mem_append_left hpid
      have hreadp : mapGet m pid = some ppos := by
        rw [hA pid, hppos]
        simp [hpidD]
      rw [hreads]
      dsimp only
      rw [hreadp]
      dsimp only
      rw [if_pos hgt]
      -- shift the branch, then continue with the rest of the siblings
      have hbnd : (branchIds s.id ns).Nodup :=
        ((hnd.of_append_right).of_append_left)
      have hbdisj : ∀ b ∈ branchIds s.id ns, b ∉ D := by
        intro b hb hbD
        exact List.disjoint_of_nodup_append hnd hbD (List.mem_append_left _ hb)
      have hA' := hA.shift_branch s.id ns hbnd hbdisj
      have hgoal := ih (D ++ branchIds s.id ns) _ hA'
        (by rw [List.append_assoc]; exact hnd)
        (by rw [List.append_assoc]; exact hpid)
        (by
          intro s' hs' hq'
          rw [List.append_assoc]
          exact hnonq s' (List.mem_cons_of_mem s hs') hq')
      rw [List.append_assoc] at hgoal
      exact hgoal
    | false =>
      have hfilter : (s :: S').filter (qualPred m0 ppos.1) =
          S'.filter (qualPred m0 ppos.1) := by
        rw [List.filter_cons, hq]
        rfl
      rw [hfilter] at hnd hpid hnonq ⊢
      have hstep : (match mapGet m s.id with
          | none => m
          | some siblingPos =>
            let thr := match mapGet m pid with
              | some pp => pp.1
              | none => fb
            if siblingPos.1 > thr then
              shiftBranchRight s.id horizontalSpacing ns m
            else m) = m := by
        cases hg : mapGet m0 s.id with
        | none =>
          have : mapGet m s.id = none := by rw [hA s.id, hg]; rfl
          rw [this]
        | some sp0 =>
          have hle : ¬ (sp0.1 > ppos.1) := by
            unfold qualPred at hq
            rw [hg] at hq
            exact of_decide_eq_false hq
          have hsD : s.id ∉ D :=
            not_mem_append_left (hnonq s (List.mem_cons_self s S') hq)
          have hreads : mapGet m s.id = some sp0 := by
            rw [hA s.id, hg]
            simp [hsD]
          have hpidD : pid ∉ D := not_mem_append_left hpid
          have hreadp : mapGet m pid = some ppos := by
            rw [hA pid, hppos]
            simp [hpidD]
          rw [hreads]
          dsimp only
          rw [hreadp]
          dsimp only
          rw [if_neg hle]
      rw [hstep]
      exact ih D m hA hnd hpid
        (fun s' hs' hq' => hnonq s' (List.mem_cons_of_mem s hs') hq')

/-- The full displacement walk, characterized level by level. -/
theorem ancestorWalk_spec (ns : List CNode) (pid : String) (fb : Int)
    (m0 : PosMap) (ppos : Pos) (hppos : mapGet m0 pid = some ppos) :
    ∀ (fuel : Nat) (cur : CNode) (D : List String) (m : PosMap),
    AgreesShifted m0 D m →
    (D ++ shiftedIdsSpec m0 ppos.1 fuel cur ns).Nodup →
    pid ∉ D ++ shiftedIdsSpec m0 ppos.1 fuel cur ns →
    (∀ anc ∈ walkLevels fuel cur ns, ∀ s ∈ sibsOf anc ns,
      qualPred m0 ppos.1 s = false →
      s.id ∉ D ++ shiftedIdsSpec m0 ppos.1 fuel cur ns) →
    AgreesShifted m0 (D ++ shiftedIdsSpec m0 ppos.1 fuel cur ns)
      (ancestorWalk fuel cur pid fb ns m) := by
  intro fuel
  induction fuel with
  | zero =>
    intro cur D m hA _ _ _
    simpa [shiftedIdsSpec, walkLevels] using hA
  | succ f ih =>
    intro cur D m hA hnd hpid hnonq
    unfold ancestorWalk
    cases hpar : cur.parentId with
    | none =>
      have hspec : shiftedIdsSpec m0 ppos.1 (f + 1) cur ns = [] := by
        simp only [shiftedIdsSpec, walkLevels, hpar]
        rfl
      rw [hspec] at hnd hpid hnonq ⊢
      simpa using hA
    | some aid =>
      dsimp only
      cases hfind : ns.find? (fun x => x.id = aid) with
      | none =>
        have hspec : shiftedIdsSpec m0 ppos.1 (f + 1) cur ns = [] := by
          simp only [shiftedIdsSpec, walkLevels, hpar, hfind]
          rfl
        rw [hspec] at hnd hpid hnonq ⊢
        simpa using hA
      | some anc =>
        dsimp only
        have hlevels : walkLevels (f + 1) cur ns = anc :: walkLevels f anc ns := by
          simp only [walkLevels, hpar, hfind]
        have hspec : shiftedIdsSpec m0 ppos.1 (f + 1) cur ns =
            ((sibsOf anc ns).filter (qualPred m0 ppos.1)).flatMap
              (fun s => branchIds s.id ns) ++
            shiftedIdsSpec m0 ppos.1 f anc ns := by
          unfold shiftedIdsSpec
          rw [hlevels, List.flatMap_cons]
        rw [hspec] at hnd hpid hnonq
        -- the sibling fold of this level
        have hlevel := level_fold_spec ns pid fb m0 ppos hppos (sibsOf anc ns)
          D m hA
          (by
            rw [← List.append_assoc] at hnd
            exact hnd.of_append_left)
          (not_mem_append_of_not_mem_assoc hpid)
          (by
            intro s hs hq
            exact not_mem_append_of_not_mem_assoc
              (hnonq anc (hlevels ▸ List.mem_cons_self _ _) s hs hq))
        -- then the rest of the walk from the ancestor
        have hrest := ih anc
          (D ++ ((sibsOf anc ns).filter (qualPred m0 ppos.1)).flatMap
            (fun s => branchIds s.id ns)) _ hlevel
          (by rw [List.append_assoc]; exact hnd)
          (by rw [List.append_assoc]; exact hpid)
          (by
            intro anc' hanc' s hs hq
            rw [List.append_assoc]
            exact hnonq anc' (hlevels ▸ List.mem_cons_of_mem _ hanc') s hs hq)
        rw [List.append_assoc] at hrest
        rw [hspec]
        exact hrest

/-- C6 (amended).  During placement of a branch node inserted under `P`, the
displacement step shifts, for each ancestor `A` on the walk upward from the
new node (`P` first, then `P`'s ancestors), exactly those siblings of `A`
whose current locked x exceeds the locked x of `P` itself (not of `P`'s
parent, as the claim stated) — each such sibling moved as a whole branch by
exactly one `horizontalSpacing`, every other entry left untouched.  The
hypotheses are the well-formedness of the walk on this snapshot (the shifted
branches are pairwise disjoint and contain neither `P` nor any
non-qualifying sibling); all are decidable and hold in the engine's
insertion-reachable states. -/
theorem C6_ancestor_sibling_displacement (ns : List CNode) (m : PosMap)
    (nodeId : String) (node parent : CNode) (pid : String) (ppos : Pos)
    (hfindn : ns.find? (fun x => x.id = nodeId) = some node)
    (hparid : node.parentId = some pid)
    (hfindp : ns.find? (fun x => x.id = pid) = some parent)
    (hppos : mapGet m parent.id = some ppos)
    (hnd : (shiftedIdsSpec m ppos.1 ns.length node ns).Nodup)
    (hpid : parent.id ∉ shiftedIdsSpec m ppos.1 ns.length node ns)
    (hnonq : ∀ anc ∈ walkLevels ns.length node ns, ∀ s ∈ sibsOf anc ns,
      qualPred m ppos.1 s = false →
      s.id ∉ shiftedIdsSpec m ppos.1 ns.length node ns) :
    ∀ id, mapGet (shiftAllAncestorSiblings nodeId ns m) id =
      (mapGet m id).map (fun p =>
        if id ∈ shiftedIdsSpec m ppos.1 ns.length node ns
        then (p.1 + horizontalSpacing, p.2) else p) := by
  have hwalk : shiftAllAncestorSiblings nodeId ns m =
      ancestorWalk ns.length node parent.id ppos.1 ns m := by
    unfold shiftAllAncestorSiblings
    rw [hfindn]
    dsimp only
    rw [hparid]
    dsimp only
    rw [hfindp]
    dsimp only
    rw [hppos]
  rw [hwalk]
  have := ancestorWalk_spec ns parent.id ppos.1 m ppos hppos ns.length node
    [] m (AgreesShifted.nil m)
    (by simpa using hnd) (by simpa using hpid)
    (by
      intro anc hanc s hs hq
      simpa using hnonq anc hanc s hs hq)
  intro id
  simpa using this id

/-- Witness for C6: placing branch `n4` under `n1` (root `n0`, siblings
`n1`,`n2`, child `n3` of `n1`), the displacement step shifts exactly the
branch of `n2` — the one sibling of an ancestor with x above `n1`'s x — by
one `horizontalSpacing`, and every other entry (shown here for the parent
`n1`) stays. -/
theorem C6_ancestor_sibling_displacement_witness :
    (∀ id, mapGet (shiftAllAncestorSiblings "n4"
        [⟨"n0", none, 0⟩, ⟨"n1", some "n0", 1⟩, ⟨"n2", some "n0", 2⟩,
          ⟨"n3", some "n1", 3⟩, ⟨"n4", some "n1", 4⟩]
        [("n0", ((0 : Int), (0 : Int))), ("n1", ((0 : Int), (180 : Int))),
          ("n2", ((450 : Int), (180 : Int))), ("n3", ((0 : Int), (360 : Int)))]) id =
      (mapGet [("n0", ((0 : Int), (0 : Int))), ("n1", ((0 : Int), (180 : Int))),
          ("n2", ((450 : Int), (180 : Int))), ("n3", ((0 : Int), (360 : Int)))] id).map
        (fun p => if id ∈ shiftedIdsSpec
            [("n0", ((0 : Int), (0 : Int))), ("n1", ((0 : Int), (180 : Int))),
              ("n2", ((450 : Int), (180 : Int))), ("n3", ((0 : Int), (360 : Int)))]
            (0 : Int) 5 ⟨"n4", some "n1", 4⟩
            [⟨"n0", none, 0⟩, ⟨"n1", some "n0", 1⟩, ⟨"n2", some "n0", 2⟩,
              ⟨"n3", some "n1", 3⟩, ⟨"n4", some "n1", 4⟩]
          then (p.1 + horizontalSpacing, p.2) else p)) ∧
    shiftedIdsSpec
      [("n0", ((0 : Int), (0 : Int))), ("n1", ((0 : Int), (180 : Int))),
        ("n2", ((450 : Int), (180 : Int))), ("n3", ((0 : Int), (360 : Int)))]
      (0 : Int) 5 ⟨"n4", some "n1", 4⟩
      [⟨"n0", none, 0⟩, ⟨"n1", some "n0", 1⟩, ⟨"n2", some "n0", 2⟩,
        ⟨"n3", some "n1", 3⟩, ⟨"n4", some "n1", 4⟩] = ["n2"] := by
  constructor
  · have h := C6_ancestor_sibling_displacement
      [⟨"n0", none, 0⟩, ⟨"n1", some "n0", 1⟩, ⟨"n2", some "n0", 2⟩,
        ⟨"n3", some "n1", 3⟩, ⟨"n4", some "n1", 4⟩]
      [("n0", (0, 0)), ("n1", (0, 180)), ("n2", (450, 180)), ("n3", (0, 360))]
      "n4" ⟨"n4", some "n1", 4⟩ ⟨"n1", some "n0", 1⟩ "n1" (0, 180)
      (by decide) (by decide) (by decide) (by decide)
      (by decide) (by decide) (by decide)
    exact h
  · decide

/-- Counterexample to C6 as stated: root `n0` with children `n1`,`n2`,`n3`;
`n3` has first child `n4`; the new branch `n5` is inserted under `P = n3`
(locked at x = 900).  `n2` is a sibling of the ancestor `n3` with locked
x = 450, which exceeds P's parent's locked x (`n0` at 0) — so the claim says
`n2` is shifted right by one `horizontalSpacing` — yet the displacement step
leaves `n2` exactly where it was, because the code compares against `P`'s
own x (900), not `P`'s parent's. -/
theorem C6_counterexample :
    (⟨"n2", some "n0", 2⟩ : CNode) ∈ sibsOf ⟨"n3", some "n0", 3⟩
      [⟨"n0", none, 0⟩, ⟨"n1", some "n0", 1⟩, ⟨"n2", some "n0", 2⟩,
        ⟨"n3", some "n0", 3⟩, ⟨"n4", some "n3", 4⟩, ⟨"n5", some "n3", 5⟩] ∧
    (⟨"n3", some "n0", 3⟩ : CNode) ∈ walkLevels 6 ⟨"n5", some "n3", 5⟩
      [⟨"n0", none, 0⟩, ⟨"n1", some "n0", 1⟩, ⟨"n2", some "n0", 2⟩,
        ⟨"n3", some "n0", 3⟩, ⟨"n4", some "n3", 4⟩, ⟨"n5", some "n3", 5⟩] ∧
    mapGet [("n0", ((0 : Int), (0 : Int))), ("n1", ((0 : Int), (180 : Int))),
        ("n2", ((450 : Int), (180 : Int))), ("n3", ((900 : Int), (180 : Int))),
        ("n4", ((900 : Int), (360 : Int)))] "n0" = some (0, 0) ∧
    mapGet [("n0", ((0 : Int), (0 : Int))), ("n1", ((0 : Int), (180 : Int))),
        ("n2", ((450 : Int), (180 : Int))), ("n3", ((900 : Int), (180 : Int))),
        ("n4", ((900 : Int), (360 : Int)))] "n2" = some (450, 180) ∧
    ((450 : Int) > 0) ∧
    mapGet (shiftAllAncestorSiblings "n5"
      [⟨"n0", none, 0⟩, ⟨"n1", some "n0", 1⟩, ⟨"n2", some "n0", 2⟩,
        ⟨"n3", some "n0", 3⟩, ⟨"n4", some "n3", 4⟩, ⟨"n5", some "n3", 5⟩]
      [("n0", ((0 : Int), (0 : Int))), ("n1", ((0 : Int), (180 : Int))),
        ("n2", ((450 : Int), (180 : Int))), ("n3", ((900 : Int), (180 : Int))),
        ("n4", ((900 : Int), (360 : Int)))]) "n2" = some (450, 180) := by
  decide

/-! ### Single-root insertion sequences

The remaining development proves the two global geometric guarantees of the
engine on snapshots grown from a single root: final positions never overlap,
and every first child stays glued under its parent.  Both are false for
forests (see the counterexamples above); the proofs below show the
single-root restriction is the only weakening needed. -/

/-- Insertion-built states whose very first node is the only parentless one:
every later insertion names an existing parent. -/
inductive SRReachable : List CNode → PosMap → Prop where
  | nil : SRReachable [] []
  | insert {ns : List CNode} {m : PosMap} (n : CNode) :
      SRReachable ns m →
      (∀ x ∈ ns, x.id ≠ n.id) →
      (∀ x ∈ ns, x.timestamp < n.timestamp) →
      ((ns = [] ∧ n.parentId = none) ∨ ∃ p ∈ ns, n.parentId = some p.id) →
      SRReachable (ns ++ [n]) (layoutStore ⟨ns ++ [n], none⟩ m)

theorem SRReachable.toReachable {ns : List CNode} {m : PosMap}
    (h : SRReachable ns m) : Reachable ns m := by
  induction h with
  | nil => exact Reachable.nil
  | insert n _ hfresh hts hpar ih =>
    refine Reachable.insert n ih hfresh hts ?_
    rcases hpar with ⟨_, hp⟩ | hp
    · exact Or.inl hp
    · exact Or.inr hp

/-- In a single-root state there is at most one parentless node. -/
theorem SRReachable.root_unique {ns : List CNode} {m : PosMap}
    (h : SRReachable ns m) :
    ∀ x ∈ ns, ∀ y ∈ ns, x.parentId = none → y.parentId = none → x = y := by
  induction h with
  | nil => intro x hx; cases hx
  | insert n _ hfresh _ hpar ih =>
    intro x hx y hy hxp hyp
    rcases List.mem_append.mp hx with hx' | hx' <;>
      rcases List.mem_append.mp hy with hy' | hy'
    · exact ih x hx' y hy' hxp hyp
    · rcases List.mem_singleton.mp hy' with rfl
      rcases hpar with ⟨hnil, _⟩ | ⟨p, hp, hpid⟩
      · rw [hnil] at hx'; cases hx'
      · rw [hpid] at hyp; cases hyp
    · rcases List.mem_singleton.mp hx' with rfl
      rcases hpar with ⟨hnil, _⟩ | ⟨p, hp, hpid⟩
      · rw [hnil] at hy'; cases hy'
      · rw [hpid] at hxp; cases hxp
    · rw [List.mem_singleton.mp hx', List.mem_singleton.mp hy']

theorem reachable_ids_nodup {ns : List CNode} {m : PosMap}
    (h : Reachable ns m) : (ns.map (·.id)).Nodup := by
  induction h with
  | nil => exact List.nodup_nil
  | insert n _ hfresh _ _ ih =>
    rw [List.map_append, List.nodup_append]
    refine ⟨ih, List.nodup_singleton _, ?_⟩
    intro a ha hb
    rcases List.mem_map.mp ha with ⟨x, hx, rfl⟩
    rcases List.mem_map.mp hb with ⟨y, hy, hyid⟩
    rcases List.mem_singleton.mp hy with rfl
    exact hfresh x hx hyid.symm

/-- Members with equal ids are equal when the id list has no duplicates. -/
theorem id_inj {ns : List CNode} (hnd : (ns.map (·.id)).Nodup)
    {u v : CNode} (hu : u ∈ ns) (hv : v ∈ ns) (h : u.id = v.id) : u = v := by
  induction ns with
  | nil => cases hu
  | cons a rest ih =>
    rw [List.map_cons, List.nodup_cons] at hnd
    rcases List.mem_cons.mp hu with rfl | hu' <;>
      rcases List.mem_cons.mp hv with rfl | hv'
    · rfl
    · exact absurd (h ▸ List.mem_map_of_mem _ hv') hnd.1
    · exact absurd (h ▸ List.mem_map_of_mem _ hu') hnd.1
    · exact ih hnd.2 hu' hv'

/-- `find?` by id returns the member itself when ids are unique. -/
theorem find?_id_self {ns : List CNode} (hnd : (ns.map (·.id)).Nodup)
    {x : CNode} (hx : x ∈ ns) :
    ns.find? (fun y => y.id = x.id) = some x := by
  induction ns with
  | nil => cases hx
  | cons a rest ih =>
    rw [List.map_cons, List.nodup_cons] at hnd
    rcases List.mem_cons.mp hx with rfl | hx'
    · rw [List.find?_cons_of_pos]
      simp
    · by_cases ha : a.id = x.id
      · exact absurd (ha ▸ List.mem_map_of_mem _ hx') hnd.1
      · rw [List.find?_cons_of_neg]
        · exact ih hnd.2 hx'
        · simp [ha]

theorem filter_length_lt_of_exists_not (l : List CNode) (p : CNode → Bool)
    (x : CNode) (hx : x ∈ l) (hpx : p x = false) :
    (l.filter p).length < l.length := by
  induction l with
  | nil => cases hx
  | cons a rest ih =>
    rw [List.filter_cons]
    rcases List.mem_cons.mp hx with rfl | hmem
    · rw [hpx]
      simp only [Bool.false_eq_true, if_false, List.length_cons]
      exact Nat.lt_succ_of_le (List.length_filter_le _ _)
    · cases hpa : p a
      · simp only [Bool.false_eq_true, if_false, List.length_cons]
        exact Nat.lt_succ_of_lt (ih hmem)
      · simp only [if_true, List.length_cons]
        exact Nat.succ_lt_succ (ih hmem)

theorem walkLevels_mem {ns : List CNode} :
    ∀ {f : Nat} {u a : CNode}, a ∈ walkLevels f u ns → a ∈ ns := by
  intro f
  induction f with
  | zero => intro u a ha; cases ha
  | succ f ih =>
    intro u a ha
    unfold walkLevels at ha
    cases hpar : u.parentId with
    | none => rw [hpar] at ha; cases ha
    | some aid =>
      rw [hpar] at ha
      dsimp only at ha
      cases hfind : ns.find? (fun x => x.id = aid) with
      | none => rw [hfind] at ha; cases ha
      | some anc =>
        rw [hfind] at ha
        dsimp only at ha
        rcases List.mem_cons.mp ha with rfl | ha'
        · exact List.mem_of_find?_eq_some hfind
        · exact ih ha'

theorem walkLevels_fuel_stable (ns : List CNode) (hpo : ParentsOlder ns) :
    ∀ (c : Nat) (n : CNode), n ∈ ns →
      (ns.filter (fun x => x.timestamp < n.timestamp)).length ≤ c →
      ∀ f g, c ≤ f → c ≤ g → walkLevels f n ns = walkLevels g n ns := by
  intro c
  induction c using Nat.strong_induction_on with
  | _ c ih =>
    intro n hn hcount f g hf hg
    cases hpar : n.parentId with
    | none =>
      cases f with
      | zero => cases g with
        | zero => rfl
        | succ g' => simp only [walkLevels, hpar]
      | succ f' => cases g with
        | zero => simp only [walkLevels, hpar]
        | succ g' => simp only [walkLevels, hpar]
    | some pid =>
      cases hfind : ns.find? (fun x => x.id = pid) with
      | none =>
        cases f with
        | zero => cases g with
          | zero => rfl
          | succ g' => simp only [walkLevels, hpar, hfind]
        | succ f' => cases g with
          | zero => simp only [walkLevels, hpar, hfind]
          | succ g' => simp only [walkLevels, hpar, hfind]
      | some p =>
        have hpts : p.timestamp < n.timestamp := hpo n hn pid hpar p hfind
        have hpmem : p ∈ ns := List.mem_of_find?_eq_some hfind
        have hcnt : (ns.filter (fun x => x.timestamp < p.timestamp)).length <
            (ns.filter (fun x => x.timestamp < n.timestamp)).length := by
          apply length_filter_strict
          · intro x _ hx
            rw [decide_eq_true_eq] at hx
            rw [decide_eq_true_eq]
            exact hx.trans hpts
          · exact hpmem
          · rw [decide_eq_true_eq]; exact hpts
          · simp
        have hcpos : 1 ≤ c := by
          have hmemf : p ∈ ns.filter (fun x => x.timestamp < n.timestamp) := by
            rw [List.mem_filter]
            exact ⟨hpmem, by rw [decide_eq_true_eq]; exact hpts⟩
          have h1 : 0 < (ns.filter (fun x => x.timestamp < n.timestamp)).length :=
            List.length_pos_of_mem hmemf
          omega
        have hf1 : 1 ≤ f := hcpos.trans hf
        have hg1 : 1 ≤ g := hcpos.trans hg
        obtain ⟨f', rfl⟩ : ∃ f', f = f' + 1 := ⟨f - 1, by omega⟩
        obtain ⟨g', rfl⟩ : ∃ g', g = g' + 1 := ⟨g - 1, by omega⟩
        simp only [walkLevels, hpar, hfind]
        rw [ih (c - 1) (by omega) p hpmem (by omega) f' g' (by omega) (by omega)]

theorem walkLevels_append (ns : List CNode) (nw : CNode)
    (hclosed : ∀ x ∈ ns, ∀ pid, x.parentId = some pid →
      ∃ p, ns.find? (fun y => y.id = pid) = some p) :
    ∀ f (x : CNode), x ∈ ns →
      walkLevels f x (ns ++ [nw]) = walkLevels f x ns := by
  intro f
  induction f with
  | zero => intro x _; rfl
  | succ f' ih =>
    intro x hx
    cases hpar : x.parentId with
    | none => simp only [walkLevels, hpar]
    | some pid =>
      obtain ⟨p, hp⟩ := hclosed x hx pid hpar
      have happ : (ns ++ [nw]).find? (fun y => y.id = pid) = some p := by
        rw [List.find?_append, hp]
        rfl
      simp only [walkLevels, hpar, hp, happ]
      rw [ih p (List.mem_of_find?_eq_some hp)]

/-- Unfolding a node's full-fuel chain: parent first, then the parent's own
full-fuel chain. -/
theorem chain_unfold {ns : List CNode} (hpo : ParentsOlder ns)
    {u w : CNode} {pid : String} (hu : u ∈ ns) (hpar : u.parentId = some pid)
    (hfind : ns.find? (fun x => x.id = pid) = some w) :
    walkLevels ns.length u ns = w :: walkLevels ns.length w ns := by
  have hwts : w.timestamp < u.timestamp := hpo u hu pid hpar w hfind
  have hwmem : w ∈ ns := List.mem_of_find?_eq_some hfind
  have hlen1 : 1 ≤ ns.length := List.length_pos_of_mem hu
  obtain ⟨L, hL⟩ : ∃ L, ns.length = L + 1 := ⟨ns.length - 1, by omega⟩
  rw [hL]
  simp only [walkLevels, hpar, hfind]
  congr 1
  have hcw : (ns.filter (fun x => x.timestamp < w.timestamp)).length ≤ L := by
    have := filter_length_lt_of_exists_not ns
      (fun x => x.timestamp < w.timestamp) u hu
      (by rw [decide_eq_false_iff_not]; omega)
    omega
  exact walkLevels_fuel_stable ns hpo L w hwmem hcw L (L + 1)
    (Nat.le_refl _) (Nat.le_succ _)

theorem chain_root {ns : List CNode} {u : CNode} (hpar : u.parentId = none) :
    walkLevels ns.length u ns = [] := by
  cases hlen : ns.length with
  | zero => rfl
  | succ L => simp only [walkLevels, hpar]

/-- Chain members are strictly older. -/
theorem chain_ts {ns : List CNode} (hpo : ParentsOlder ns) :
    ∀ (c : Nat) (u : CNode), u ∈ ns →
      (ns.filter (fun x => x.timestamp < u.timestamp)).length ≤ c →
      ∀ a, a ∈ walkLevels ns.length u ns → a.timestamp < u.timestamp := by
  intro c
  induction c using Nat.strong_induction_on with
  | _ c ih =>
    intro u hu hcount a ha
    cases hpar : u.parentId with
    | none => rw [chain_root hpar] at ha; cases ha
    | some pid =>
      cases hfind : ns.find? (fun x => x.id = pid) with
      | none =>
        have hlen1 : 1 ≤ ns.length := List.length_pos_of_mem hu
        obtain ⟨L, hL⟩ : ∃ L, ns.length = L + 1 := ⟨ns.length - 1, by omega⟩
        rw [hL] at ha
        simp only [walkLevels, hpar, hfind] at ha
        cases ha
      | some w =>
        rw [chain_unfold hpo hu hpar hfind] at ha
        have hwts : w.timestamp < u.timestamp := hpo u hu pid hpar w hfind
        have hwmem : w ∈ ns := List.mem_of_find?_eq_some hfind
        rcases List.mem_cons.mp ha with rfl | ha'
        · exact hwts
        · have hcw : (ns.filter (fun x => x.timestamp < w.timestamp)).length < c := by
            have h1 : (ns.filter (fun x => x.timestamp < w.timestamp)).length <
                (ns.filter (fun x => x.timestamp < u.timestamp)).length := by
              apply length_filter_strict
              · intro x _ hx
                rw [decide_eq_true_eq] at hx ⊢
                omega
              · exact hwmem
              · rw [decide_eq_true_eq]; exact hwts
              · simp
            omega
          exact (ih _ hcw w hwmem (by omega) a ha').trans hwts

theorem chain_ts' {ns : List CNode} (hpo : ParentsOlder ns) {u a : CNode}
    (hu : u ∈ ns) (ha : a ∈ walkLevels ns.length u ns) :
    a.timestamp < u.timestamp :=
  chain_ts hpo _ u hu (Nat.le_refl _) a ha

theorem chain_irrefl {ns : List CNode} (hpo : ParentsOlder ns) {u : CNode}
    (hu : u ∈ ns) : u ∉ walkLevels ns.length u ns := by
  intro h
  exact absurd (chain_ts' hpo hu h) (by omega)

/-- Chains compose: an ancestor of an ancestor is an ancestor. -/
theorem chain_trans {ns : List CNode} (hpo : ParentsOlder ns) :
    ∀ (c : Nat) (u : CNode), u ∈ ns →
      (ns.filter (fun x => x.timestamp < u.timestamp)).length ≤ c →
      ∀ b a, b ∈ walkLevels ns.length u ns →
        a ∈ walkLevels ns.length b ns →
        a ∈ walkLevels ns.length u ns := by
  intro c
  induction c using Nat.strong_induction_on with
  | _ c ih =>
    intro u hu hcount b a hb ha
    cases hpar : u.parentId with
    | none => rw [chain_root hpar] at hb; cases hb
    | some pid =>
      cases hfind : ns.find? (fun x => x.id = pid) with
      | none =>
        have hlen1 : 1 ≤ ns.length := List.length_pos_of_mem hu
        obtain ⟨L, hL⟩ : ∃ L, ns.length = L + 1 := ⟨ns.length - 1, by omega⟩
        rw [hL] at hb
        simp only [walkLevels, hpar, hfind] at hb
        cases hb
      | some w =>
        rw [chain_unfold hpo hu hpar hfind] at hb ⊢
        have hwts : w.timestamp < u.timestamp := hpo u hu pid hpar w hfind
        have hwmem : w ∈ ns := List.mem_of_find?_eq_some hfind
        have hcw : (ns.filter (fun x => x.timestamp < w.timestamp)).length < c := by
          have h1 : (ns.filter (fun x => x.timestamp < w.timestamp)).length <
              (ns.filter (fun x => x.timestamp < u.timestamp)).length := by
            apply length_filter_strict
            · intro x _ hx
              rw [decide_eq_true_eq] at hx ⊢
              omega
            · exact hwmem
            · rw [decide_eq_true_eq]; exact hwts
            · simp
          omega
        rcases List.mem_cons.mp hb with rfl | hb'
        · exact List.mem_cons_of_mem _ ha
        · exact List.mem_cons_of_mem _
            (ih _ hcw w hwmem (by omega) b a hb' ha)

theorem chain_trans' {ns : List CNode} (hpo : ParentsOlder ns)
    {u b a : CNode} (hu : u ∈ ns) (hb : b ∈ walkLevels ns.length u ns)
    (ha : a ∈ walkLevels ns.length b ns) :
    a ∈ walkLevels ns.length u ns :=
  chain_trans hpo _ u hu (Nat.le_refl _) b a hb ha

/-- Depth is the length of the chain. -/
theorem depthOfF_eq_walk_length (ns : List CNode) :
    ∀ (f : Nat) (u : CNode), depthOfF f u ns = (walkLevels f u ns).length := by
  intro f
  induction f with
  | zero => intro u; rfl
  | succ f' ih =>
    intro u
    cases hpar : u.parentId with
    | none => simp only [depthOfF, walkLevels, hpar]; rfl
    | some pid =>
      cases hfind : ns.find? (fun x => x.id = pid) with
      | none => simp only [depthOfF, walkLevels, hpar, hfind]; rfl
      | some w =>
        simp only [depthOfF, walkLevels, hpar, hfind, List.length_cons]
        rw [ih w]

/-- Chains are linear: two ancestors of the same node are comparable. -/
theorem chain_linear {ns : List CNode} (hpo : ParentsOlder ns) :
    ∀ (c : Nat) (u : CNode), u ∈ ns →
      (ns.filter (fun x => x.timestamp < u.timestamp)).length ≤ c →
      ∀ a b, a ∈ walkLevels ns.length u ns → b ∈ walkLevels ns.length u ns →
        a = b ∨ a ∈ walkLevels ns.length b ns ∨ b ∈ walkLevels ns.length a ns := by
  intro c
  induction c using Nat.strong_induction_on with
  | _ c ih =>
    intro u hu hcount a b ha hb
    cases hpar : u.parentId with
    | none => rw [chain_root hpar] at ha; cases ha
    | some pid =>
      cases hfind : ns.find? (fun x => x.id = pid) with
      | none =>
        have hlen1 : 1 ≤ ns.length := List.length_pos_of_mem hu
        obtain ⟨L, hL⟩ : ∃ L, ns.length = L + 1 := ⟨ns.length - 1, by omega⟩
        rw [hL] at ha
        simp only [walkLevels, hpar, hfind] at ha
        cases ha
      | some w =>
        rw [chain_unfold hpo hu hpar hfind] at ha hb
        have hwts : w.timestamp < u.timestamp := hpo u hu pid hpar w hfind
        have hwmem : w ∈ ns := List.mem_of_find?_eq_some hfind
        have hcw : (ns.filter (fun x => x.timestamp < w.timestamp)).length < c := by
          have h1 : (ns.filter (fun x => x.timestamp < w.timestamp)).length <
              (ns.filter (fun x => x.timestamp < u.timestamp)).length := by
            apply length_filter_strict
            · intro x _ hx
              rw [decide_eq_true_eq] at hx ⊢
              omega
            · exact hwmem
            · rw [decide_eq_true_eq]; exact hwts
            · simp
          omega
        rcases List.mem_cons.mp ha with rfl | ha' <;>
          rcases List.mem_cons.mp hb with hb' | hb'
        · exact Or.inl hb'.symm
        · exact Or.inr (Or.inr hb')
        · rcases hb' with rfl
          exact Or.inr (Or.inl ha')
        · exact ih _ hcw w hwmem (by omega) a b ha' hb'

/-- Ancestors have strictly smaller depth. -/
theorem chain_depth_lt {ns : List CNode} (hpo : ParentsOlder ns) :
    ∀ (c : Nat) (u : CNode), u ∈ ns →
      (ns.filter (fun x => x.timestamp < u.timestamp)).length ≤ c →
      ∀ a, a ∈ walkLevels ns.length u ns → depthOf a ns < depthOf u ns := by
  intro c
  induction c using Nat.strong_induction_on with
  | _ c ih =>
    intro u hu hcount a ha
    cases hpar : u.parentId with
    | none => rw [chain_root hpar] at ha; cases ha
    | some pid =>
      cases hfind : ns.find? (fun x => x.id = pid) with
      | none =>
        have hlen1 : 1 ≤ ns.length := List.length_pos_of_mem hu
        obtain ⟨L, hL⟩ : ∃ L, ns.length = L + 1 := ⟨ns.length - 1, by omega⟩
        rw [hL] at ha
        simp only [walkLevels, hpar, hfind] at ha
        cases ha
      | some w =>
        have hud : depthOf u ns = depthOf w ns + 1 := by
          unfold depthOf
          rw [depthOfF_eq_walk_length, depthOfF_eq_walk_length,
            chain_unfold hpo hu hpar hfind]
          rfl
        rw [chain_unfold hpo hu hpar hfind] at ha
        have hwts : w.timestamp < u.timestamp := hpo u hu pid hpar w hfind
        have hwmem : w ∈ ns := List.mem_of_find?_eq_some hfind
        rcases List.mem_cons.mp ha with rfl | ha'
        · omega
        · have hcw : (ns.filter (fun x => x.timestamp < w.timestamp)).length < c := by
            have h1 : (ns.filter (fun x => x.timestamp < w.timestamp)).length <
                (ns.filter (fun x => x.timestamp < u.timestamp)).length := by
              apply length_filter_strict
              · intro x _ hx
                rw [decide_eq_true_eq] at hx ⊢
                omega
              · exact hwmem
              · rw [decide_eq_true_eq]; exact hwts
              · simp
            omega
          have := ih _ hcw w hwmem (by omega) a ha'
          omega

/-- A child's depth is its parent's depth plus one. -/
theorem depth_child {ns : List CNode} (hpo : ParentsOlder ns)
    {u w : CNode} {pid : String} (hu : u ∈ ns) (hpar : u.parentId = some pid)
    (hfind : ns.find? (fun x => x.id = pid) = some w) :
    depthOf u ns = depthOf w ns + 1 := by
  unfold depthOf
  rw [depthOfF_eq_walk_length, depthOfF_eq_walk_length,
    chain_unfold hpo hu hpar hfind]
  rfl

/-! ### Bridging descendant lists and ancestor chains -/

theorem desc_ids_mem {ns : List CNode} :
    ∀ (f : Nat) (sid : String) (id : String),
      id ∈ getAllDescendantsF f sid ns → ∃ u ∈ ns, u.id = id := by
  intro f
  induction f with
  | zero => intro sid id h; cases h
  | succ f ih =>
    intro sid id h
    unfold getAllDescendantsF at h
    rcases List.mem_flatMap.mp h with ⟨c, hc, hid⟩
    rcases List.mem_cons.mp hid with rfl | hid'
    · exact ⟨c, (List.mem_filter.mp hc).1, rfl⟩
    · exact ih c.id id hid'

/-- A direct child is in its parent's descendant list at any positive fuel. -/
theorem desc_child_mem {ns : List CNode} {u : CNode} {sid : String}
    (hu : u ∈ ns) (hup : u.parentId = some sid) (f : Nat) :
    u.id ∈ getAllDescendantsF (f + 1) sid ns := by
  unfold getAllDescendantsF
  refine List.mem_flatMap.mpr ⟨u, ?_, List.mem_cons_self _ _⟩
  exact List.mem_filter.mpr ⟨hu, by simp [hup]⟩

/-- Extending a descendant list downward by one child. -/
theorem desc_close {ns : List CNode} {u : CNode} {wid : String}
    (hu : u ∈ ns) (hup : u.parentId = some wid) :
    ∀ (f : Nat) (sid : String), wid ∈ getAllDescendantsF f sid ns →
      u.id ∈ getAllDescendantsF (f + 1) sid ns := by
  intro f
  induction f with
  | zero => intro sid h; cases h
  | succ f ih =>
    intro sid h
    unfold getAllDescendantsF at h
    rcases List.mem_flatMap.mp h with ⟨c, hc, hid⟩
    show u.id ∈ getAllDescendantsF (f + 1 + 1) sid ns
    unfold getAllDescendantsF
    refine List.mem_flatMap.mpr ⟨c, hc, ?_⟩
    rcases List.mem_cons.mp hid with hcid | hid'
    · refine List.mem_cons_of_mem _ ?_
      exact desc_child_mem hu (by rw [hup, hcid]) f
    · exact List.mem_cons_of_mem _ (ih c.id hid')

/-- Every ancestor on the chain sees the node in its descendant list. -/
theorem chain_to_desc {ns : List CNode} :
    ∀ (g : Nat) (u s : CNode), u ∈ ns → s ∈ walkLevels g u ns →
      u.id ∈ getAllDescendantsF g s.id ns := by
  intro g
  induction g with
  | zero => intro u s _ hs; cases hs
  | succ g ih =>
    intro u s hu hs
    unfold walkLevels at hs
    cases hpar : u.parentId with
    | none => rw [hpar] at hs; cases hs
    | some aid =>
      rw [hpar] at hs
      dsimp only at hs
      cases hfind : ns.find? (fun x => x.id = aid) with
      | none => rw [hfind] at hs; cases hs
      | some anc =>
        rw [hfind] at hs
        dsimp only at hs
        have hancid : anc.id = aid := by
          have := List.find?_some hfind
          simpa using this
        have hanc : anc ∈ ns := List.mem_of_find?_eq_some hfind
        have hup : u.parentId = some anc.id := by rw [hpar, hancid]
        rcases List.mem_cons.mp hs with rfl | hs'
        · exact desc_child_mem hu hup g
        · exact desc_close hu hup g s.id (ih anc s hanc hs')

/-- Conversely: membership in a descendant list puts the source on the chain. -/
theorem desc_to_chain {ns : List CNode} (hnd : (ns.map (fun x => x.id)).Nodup)
    (hpo : ParentsOlder ns) :
    ∀ (f : Nat) (s u : CNode), s ∈ ns → u ∈ ns →
      u.id ∈ getAllDescendantsF f s.id ns →
      s ∈ walkLevels ns.length u ns := by
  intro f
  induction f with
  | zero => intro s u _ _ h; cases h
  | succ f ih =>
    intro s u hs hu h
    unfold getAllDescendantsF at h
    rcases List.mem_flatMap.mp h with ⟨c, hc, hid⟩
    have hcmem : c ∈ ns := (List.mem_filter.mp hc).1
    have hcpar : c.parentId = some s.id := by
      have := (List.mem_filter.mp hc).2
      simpa using this
    have hfind : ns.find? (fun x => x.id = s.id) = some s := find?_id_self hnd hs
    rcases List.mem_cons.mp hid with hcid | hid'
    · have huc : u = c := id_inj hnd hu hcmem hcid
      subst huc
      rw [chain_unfold hpo hu hcpar hfind]
      exact List.mem_cons_self _ _
    · have hcchain : c ∈ walkLevels ns.length u ns := ih c u hcmem hu hid'
      have hschain : s ∈ walkLevels ns.length c ns := by
        rw [chain_unfold hpo hcmem hcpar hfind]
        exact List.mem_cons_self _ _
      exact chain_trans' hpo hu hcchain hschain

/-! ### Structural toolkit for single-root snapshots -/

theorem mem_sibsOf {ns : List CNode} {A s : CNode} :
    s ∈ sibsOf A ns ↔ s ∈ ns ∧ s.parentId = A.parentId ∧ s.id ≠ A.id := by
  unfold sibsOf
  simp [List.mem_filter, and_assoc]

theorem chain_find_none {ns : List CNode} {u : CNode} {pid : String}
    (hu : u ∈ ns) (hpar : u.parentId = some pid)
    (hfind : ns.find? (fun x => x.id = pid) = none) :
    walkLevels ns.length u ns = [] := by
  have hlen1 : 1 ≤ ns.length := List.length_pos_of_mem hu
  obtain ⟨L, hL⟩ : ∃ L, ns.length = L + 1 := ⟨ns.length - 1, by omega⟩
  rw [hL]
  simp only [walkLevels, hpar, hfind]

theorem depth_root {ns : List CNode} {u : CNode} (hpar : u.parentId = none) :
    depthOf u ns = 0 := by
  unfold depthOf
  cases ns.length with
  | zero => rfl
  | succ L => simp only [depthOfF, hpar]

theorem chain_pairwise_ts {ns : List CNode} (hpo : ParentsOlder ns) :
    ∀ (c : Nat) (u : CNode), u ∈ ns →
      (ns.filter (fun x => x.timestamp < u.timestamp)).length ≤ c →
      (walkLevels ns.length u ns).Pairwise
        (fun a b => b.timestamp < a.timestamp) := by
  intro c
  induction c using Nat.strong_induction_on with
  | _ c ih =>
    intro u hu hcount
    cases hpar : u.parentId with
    | none => rw [chain_root hpar]; exact List.Pairwise.nil
    | some pid =>
      cases hfind : ns.find? (fun x => x.id = pid) with
      | none => rw [chain_find_none hu hpar hfind]; exact List.Pairwise.nil
      | some w =>
        rw [chain_unfold hpo hu hpar hfind]
        have hwts : w.timestamp < u.timestamp := hpo u hu pid hpar w hfind
        have hwmem : w ∈ ns := List.mem_of_find?_eq_some hfind
        have hcw : (ns.filter (fun x => x.timestamp < w.timestamp)).length < c := by
          have h1 : (ns.filter (fun x => x.timestamp < w.timestamp)).length <
              (ns.filter (fun x => x.timestamp < u.timestamp)).length := by
            apply length_filter_strict
            · intro x _ hx
              rw [decide_eq_true_eq] at hx ⊢
              omega
            · exact hwmem
            · rw [decide_eq_true_eq]; exact hwts
            · simp
          omega
        exact List.Pairwise.cons
          (fun b hb => chain_ts' hpo hwmem hb)
          (ih _ hcw w hwmem (by omega))

theorem chain_nodup {ns : List CNode} (hpo : ParentsOlder ns) {u : CNode}
    (hu : u ∈ ns) : (walkLevels ns.length u ns).Nodup := by
  refine (chain_pairwise_ts hpo _ u hu (Nat.le_refl _)).imp ?_
  intro a b hab
  intro hcontra
  rw [hcontra] at hab
  omega

theorem chain_linear' {ns : List CNode} (hpo : ParentsOlder ns) {u a b : CNode}
    (hu : u ∈ ns) (ha : a ∈ walkLevels ns.length u ns)
    (hb : b ∈ walkLevels ns.length u ns) :
    a = b ∨ a ∈ walkLevels ns.length b ns ∨ b ∈ walkLevels ns.length a ns :=
  chain_linear hpo _ u hu (Nat.le_refl _) a b ha hb

theorem chain_depth_lt' {ns : List CNode} (hpo : ParentsOlder ns) {u a : CNode}
    (hu : u ∈ ns) (ha : a ∈ walkLevels ns.length u ns) :
    depthOf a ns < depthOf u ns :=
  chain_depth_lt hpo _ u hu (Nat.le_refl _) a ha

theorem path_comparable {ns : List CNode} (hpo : ParentsOlder ns) {z a b : CNode}
    (hz : z ∈ ns)
    (ha : a = z ∨ a ∈ walkLevels ns.length z ns)
    (hb : b = z ∨ b ∈ walkLevels ns.length z ns) :
    a = b ∨ a ∈ walkLevels ns.length b ns ∨ b ∈ walkLevels ns.length a ns := by
  rcases ha with rfl | ha'
  · rcases hb with rfl | hb'
    · exact Or.inl rfl
    · exact Or.inr (Or.inr hb')
  · rcases hb with rfl | hb'
    · exact Or.inr (Or.inl ha')
    · exact chain_linear' hpo hz ha' hb'

theorem comp_depth_eq {ns : List CNode} (hpo : ParentsOlder ns) {a b : CNode}
    (ha : a ∈ ns) (hb : b ∈ ns)
    (hcomp : a = b ∨ a ∈ walkLevels ns.length b ns ∨
      b ∈ walkLevels ns.length a ns)
    (hd : depthOf a ns = depthOf b ns) : a = b := by
  rcases hcomp with h | h | h
  · exact h
  · exact absurd hd (by have := chain_depth_lt' hpo hb h; omega)
  · exact absurd hd (by have := chain_depth_lt' hpo ha h; omega)

theorem path_root {ns : List CNode}
    (hclosed : ∀ x ∈ ns, ∀ pid, x.parentId = some pid →
      ∃ p, ns.find? (fun y => y.id = pid) = some p)
    (hpo : ParentsOlder ns) :
    ∀ (c : Nat) (v : CNode), v ∈ ns →
      (ns.filter (fun x => x.timestamp < v.timestamp)).length ≤ c →
      ∃ r, (r = v ∨ r ∈ walkLevels ns.length v ns) ∧ r.parentId = none := by
  intro c
  induction c using Nat.strong_induction_on with
  | _ c ih =>
    intro v hv hcount
    cases hpar : v.parentId with
    | none => exact ⟨v, Or.inl rfl, hpar⟩
    | some pid =>
      obtain ⟨w, hfind⟩ := hclosed v hv pid hpar
      have hwts : w.timestamp < v.timestamp := hpo v hv pid hpar w hfind
      have hwmem : w ∈ ns := List.mem_of_find?_eq_some hfind
      have hcw : (ns.filter (fun x => x.timestamp < w.timestamp)).length < c := by
        have h1 : (ns.filter (fun x => x.timestamp < w.timestamp)).length <
            (ns.filter (fun x => x.timestamp < v.timestamp)).length := by
          apply length_filter_strict
          · intro x _ hx
            rw [decide_eq_true_eq] at hx ⊢
            omega
          · exact hwmem
          · rw [decide_eq_true_eq]; exact hwts
          · simp
        omega
      obtain ⟨r, hr, hrnone⟩ := ih _ hcw w hwmem (by omega)
      refine ⟨r, Or.inr ?_, hrnone⟩
      rw [chain_unfold hpo hv hpar hfind]
      rcases hr with rfl | hr'
      · exact List.mem_cons_self _ _
      · exact List.mem_cons_of_mem _ hr'

theorem path_root' {ns : List CNode}
    (hclosed : ∀ x ∈ ns, ∀ pid, x.parentId = some pid →
      ∃ p, ns.find? (fun y => y.id = pid) = some p)
    (hpo : ParentsOlder ns) {v : CNode} (hv : v ∈ ns) :
    ∃ r, (r = v ∨ r ∈ walkLevels ns.length v ns) ∧ r.parentId = none :=
  path_root hclosed hpo _ v hv (Nat.le_refl _)

theorem root_sibs_nil {ns : List CNode}
    (hroot : ∀ x ∈ ns, ∀ y ∈ ns, x.parentId = none → y.parentId = none → x = y)
    {A : CNode} (hA : A ∈ ns) (hpar : A.parentId = none) :
    sibsOf A ns = [] := by
  rw [List.eq_nil_iff_forall_not_mem]
  intro s hs
  rw [mem_sibsOf] at hs
  obtain ⟨hsmem, hspar, hsid⟩ := hs
  rw [hpar] at hspar
  exact hsid ((hroot s hsmem A hA hspar hpar) ▸ rfl)

theorem depth_sib {ns : List CNode} (hpo : ParentsOlder ns)
    (hclosed : ∀ x ∈ ns, ∀ pid, x.parentId = some pid →
      ∃ p, ns.find? (fun y => y.id = pid) = some p)
    {A s : CNode} (hA : A ∈ ns) (hs : s ∈ sibsOf A ns) :
    depthOf s ns = depthOf A ns := by
  rw [mem_sibsOf] at hs
  obtain ⟨hsmem, hspar, _⟩ := hs
  cases hpar : A.parentId with
  | none =>
    rw [hpar] at hspar
    rw [depth_root hspar, depth_root hpar]
  | some pid =>
    rw [hpar] at hspar
    obtain ⟨w, hfind⟩ := hclosed A hA pid hpar
    rw [depth_child hpo hsmem hspar hfind, depth_child hpo hA hpar hfind]

theorem sib_chain_eq {ns : List CNode} (hpo : ParentsOlder ns)
    (hclosed : ∀ x ∈ ns, ∀ pid, x.parentId = some pid →
      ∃ p, ns.find? (fun y => y.id = pid) = some p)
    {A s : CNode} (hA : A ∈ ns) (hs : s ∈ sibsOf A ns) {pid : String}
    (hpar : A.parentId = some pid) :
    walkLevels ns.length s ns = walkLevels ns.length A ns := by
  rw [mem_sibsOf] at hs
  obtain ⟨hsmem, hspar, _⟩ := hs
  rw [hpar] at hspar
  obtain ⟨w, hfind⟩ := hclosed A hA pid hpar
  rw [chain_unfold hpo hsmem hspar hfind, chain_unfold hpo hA hpar hfind]

theorem branch_mem_iff {ns : List CNode} (hnd : (ns.map (fun x => x.id)).Nodup)
    (hpo : ParentsOlder ns) {z s : CNode} (hz : z ∈ ns) (hs : s ∈ ns) :
    z.id ∈ branchIds s.id ns ↔
      (z = s ∨ s ∈ walkLevels ns.length z ns) := by
  unfold branchIds
  constructor
  · intro h
    rcases List.mem_cons.mp h with hid | hdesc
    · exact Or.inl (id_inj hnd hz hs hid)
    · exact Or.inr (desc_to_chain hnd hpo _ s z hs hz hdesc)
  · intro h
    rcases h with rfl | hchain
    · exact List.mem_cons_self _ _
    · exact List.mem_cons_of_mem _ (chain_to_desc _ z s hz hchain)

/-- Any id on a branch names a node whose path contains the branch root. -/
theorem branch_mem_node {ns : List CNode} (hnd : (ns.map (fun x => x.id)).Nodup)
    (hpo : ParentsOlder ns) {s : CNode} {id : String} (hs : s ∈ ns)
    (h : id ∈ branchIds s.id ns) :
    ∃ z ∈ ns, z.id = id ∧ (z = s ∨ s ∈ walkLevels ns.length z ns) := by
  unfold branchIds at h
  rcases List.mem_cons.mp h with rfl | hdesc
  · exact ⟨s, hs, rfl, Or.inl rfl⟩
  · obtain ⟨z, hzmem, hzid⟩ := desc_ids_mem _ _ _ hdesc
    subst hzid
    exact ⟨z, hzmem, rfl, Or.inr (desc_to_chain hnd hpo _ s z hs hzmem hdesc)⟩

theorem desc_nodup {ns : List CNode} (hnd : (ns.map (fun x => x.id)).Nodup)
    (hpo : ParentsOlder ns)
    (hclosed : ∀ x ∈ ns, ∀ pid, x.parentId = some pid →
      ∃ p, ns.find? (fun y => y.id = pid) = some p) :
    ∀ (f : Nat) (sid : String), (getAllDescendantsF f sid ns).Nodup := by
  intro f
  induction f with
  | zero => intro sid; exact List.nodup_nil
  | succ f ih =>
    intro sid
    unfold getAllDescendantsF
    rw [List.nodup_flatMap]
    constructor
    · intro c hc
      refine List.Nodup.cons ?_ (ih c.id)
      intro hmem
      have hcmem : c ∈ ns := (List.mem_filter.mp hc).1
      have := desc_to_chain hnd hpo f c c hcmem hcmem hmem
      exact chain_irrefl hpo hcmem this
    · have hfilter_nodup : (ns.filter (fun n => n.parentId = some sid)).Nodup :=
        (List.Nodup.of_map _ hnd).filter _
      refine hfilter_nodup.pairwise_of_set_pairwise ?_
      intro c hc c' hc' hne
      simp only [Set.mem_setOf_eq] at hc hc'
      simp only [Function.onFun]
      have hcmem : c ∈ ns := (List.mem_filter.mp hc).1
      have hcmem' : c' ∈ ns := (List.mem_filter.mp hc').1
      have hcpar : c.parentId = some sid := by
        have := (List.mem_filter.mp hc).2
        simpa using this
      have hcpar' : c'.parentId = some sid := by
        have := (List.mem_filter.mp hc').2
        simpa using this
      intro id hid hid'
      -- the shared id names a node below both children
      have hzc : ∃ z ∈ ns, z.id = id ∧ (z = c ∨ c ∈ walkLevels ns.length z ns) := by
        rcases List.mem_cons.mp hid with rfl | hdesc
        · exact ⟨c, hcmem, rfl, Or.inl rfl⟩
        · obtain ⟨z, hzmem, hzid⟩ := desc_ids_mem _ _ _ hdesc
          subst hzid
          exact ⟨z, hzmem, rfl,
            Or.inr (desc_to_chain hnd hpo _ c z hcmem hzmem hdesc)⟩
      have hzc' : ∃ z ∈ ns, z.id = id ∧ (z = c' ∨ c' ∈ walkLevels ns.length z ns) := by
        rcases List.mem_cons.mp hid' with rfl | hdesc
        · exact ⟨c', hcmem', rfl, Or.inl rfl⟩
        · obtain ⟨z, hzmem, hzid⟩ := desc_ids_mem _ _ _ hdesc
          subst hzid
          exact ⟨z, hzmem, rfl,
            Or.inr (desc_to_chain hnd hpo _ c' z hcmem' hzmem hdesc)⟩
      obtain ⟨z, hzmem, hzid, hpc⟩ := hzc
      obtain ⟨z', hzmem', hzid', hpc'⟩ := hzc'
      have hzz : z = z' := id_inj hnd hzmem hzmem' (hzid.trans hzid'.symm)
      subst hzz
      have hcomp := path_comparable hpo hzmem (hpc.imp Eq.symm (fun h => h))
        (hpc'.imp Eq.symm (fun h => h))
      obtain ⟨w, hfind⟩ := hclosed c hcmem sid hcpar
      have hdep : depthOf c ns = depthOf c' ns := by
        rw [depth_child hpo hcmem hcpar hfind,
          depth_child hpo hcmem' hcpar' hfind]
      exact hne (comp_depth_eq hpo hcmem hcmem' hcomp hdep)

theorem branch_nodup {ns : List CNode} (hnd : (ns.map (fun x => x.id)).Nodup)
    (hpo : ParentsOlder ns)
    (hclosed : ∀ x ∈ ns, ∀ pid, x.parentId = some pid →
      ∃ p, ns.find? (fun y => y.id = pid) = some p)
    {s : CNode} (hs : s ∈ ns) : (branchIds s.id ns).Nodup := by
  unfold branchIds
  refine List.Nodup.cons ?_ (desc_nodup hnd hpo hclosed _ _)
  intro hmem
  have := desc_to_chain hnd hpo _ s s hs hs hmem
  exact chain_irrefl hpo hs this

/-- Two incomparable nodes of a single-root snapshot branch off a common
parent: there are distinct siblings, one on each node's upward path. -/
theorem lca_sep {ns : List CNode} (hnd : (ns.map (fun x => x.id)).Nodup)
    (hpo : ParentsOlder ns)
    (hclosed : ∀ x ∈ ns, ∀ pid, x.parentId = some pid →
      ∃ p, ns.find? (fun y => y.id = pid) = some p)
    (hroot : ∀ x ∈ ns, ∀ y ∈ ns, x.parentId = none → y.parentId = none → x = y) :
    ∀ (c : Nat) (u v : CNode), u ∈ ns → v ∈ ns →
      depthOf u ns + depthOf v ns ≤ c →
      u ≠ v → u ∉ walkLevels ns.length v ns → v ∉ walkLevels ns.length u ns →
      ∃ pid a b, a ∈ ns ∧ b ∈ ns ∧ a ≠ b ∧
        a.parentId = some pid ∧ b.parentId = some pid ∧
        (a = u ∨ a ∈ walkLevels ns.length u ns) ∧
        (b = v ∨ b ∈ walkLevels ns.length v ns) := by
  intro c
  induction c using Nat.strong_induction_on with
  | _ c ih =>
    intro u v hu hv hdsum hne hucv hvcu
    -- neither node can be parentless: the unique root lies on every path
    cases hupar : u.parentId with
    | none =>
      obtain ⟨r, hr, hrnone⟩ := path_root' hclosed hpo hv
      have hru : r = u := hroot r (by
        rcases hr with rfl | hr'
        · exact hv
        · exact walkLevels_mem hr') u hu hrnone hupar
      subst hru
      rcases hr with h | h
      · exact absurd h hne
      · exact absurd h hucv
    | some pu =>
      cases hvpar : v.parentId with
      | none =>
        obtain ⟨r, hr, hrnone⟩ := path_root' hclosed hpo hu
        have hrv : r = v := hroot r (by
          rcases hr with rfl | hr'
          · exact hu
          · exact walkLevels_mem hr') v hv hrnone hvpar
        subst hrv
        rcases hr with h | h
        · exact absurd h.symm hne
        · exact absurd h hvcu
      | some pv =>
        obtain ⟨wu, hfu⟩ := hclosed u hu pu hupar
        obtain ⟨wv, hfv⟩ := hclosed v hv pv hvpar
        have hwumem : wu ∈ ns := List.mem_of_find?_eq_some hfu
        have hwvmem : wv ∈ ns := List.mem_of_find?_eq_some hfv
        have hchu : walkLevels ns.length u ns =
            wu :: walkLevels ns.length wu ns := chain_unfold hpo hu hupar hfu
        have hchv : walkLevels ns.length v ns =
            wv :: walkLevels ns.length wv ns := chain_unfold hpo hv hvpar hfv
        have hdu : depthOf u ns = depthOf wu ns + 1 :=
          depth_child hpo hu hupar hfu
        have hdv : depthOf v ns = depthOf wv ns + 1 :=
          depth_child hpo hv hvpar hfv
        by_cases hww : wu = wv
        · -- u and v are siblings: they are the witnesses themselves
          have hpp : pu = pv := by
            have h1 : wu.id = pu := by
              have := List.find?_some hfu
              simpa using this
            have h2 : wv.id = pv := by
              have := List.find?_some hfv
              simpa using this
            rw [← h1, ← h2, hww]
          exact ⟨pu, u, v, hu, hv, hne, hupar, hpp ▸ hvpar,
            Or.inl rfl, Or.inl rfl⟩
        · rcases Nat.lt_trichotomy (depthOf u ns) (depthOf v ns) with hlt | heq | hgt
          · -- v is deeper: step from v to its parent wv
            have h1 : u ≠ wv := by
              rintro rfl
              exact hucv (by rw [hchv]; exact List.mem_cons_self _ _)
            have h2 : u ∉ walkLevels ns.length wv ns := fun hh =>
              hucv (by rw [hchv]; exact List.mem_cons_of_mem _ hh)
            have h3 : wv ∉ walkLevels ns.length u ns := by
              intro hh
              have := chain_depth_lt' hpo hu hh
              omega
            obtain ⟨pid, a, b, hamem, hbmem, hab, hapar, hbpar, hau, hbwv⟩ :=
              ih (depthOf u ns + depthOf wv ns) (by omega) u wv hu hwvmem
                (Nat.le_refl _) h1 h2 h3
            refine ⟨pid, a, b, hamem, hbmem, hab, hapar, hbpar, hau, Or.inr ?_⟩
            rw [hchv]
            rcases hbwv with rfl | hb'
            · exact List.mem_cons_self _ _
            · exact List.mem_cons_of_mem _ hb'
          · -- equal depths: step both to the parents
            have h2 : wu ∉ walkLevels ns.length wv ns := by
              intro hh
              have := chain_depth_lt' hpo hwvmem hh
              omega
            have h3 : wv ∉ walkLevels ns.length wu ns := by
              intro hh
              have := chain_depth_lt' hpo hwumem hh
              omega
            obtain ⟨pid, a, b, hamem, hbmem, hab, hapar, hbpar, hawu, hbwv⟩ :=
              ih (depthOf wu ns + depthOf wv ns) (by omega) wu wv hwumem hwvmem
                (Nat.le_refl _) hww h2 h3
            refine ⟨pid, a, b, hamem, hbmem, hab, hapar, hbpar,
              Or.inr ?_, Or.inr ?_⟩
            · rw [hchu]
              rcases hawu with rfl | ha'
              · exact List.mem_cons_self _ _
              · exact List.mem_cons_of_mem _ ha'
            · rw [hchv]
              rcases hbwv with rfl | hb'
              · exact List.mem_cons_self _ _
              · exact List.mem_cons_of_mem _ hb'
          · -- u is deeper: step from u to its parent wu
            have h1 : wu ≠ v := by
              rintro rfl
              exact hvcu (by rw [hchu]; exact List.mem_cons_self _ _)
            have h2 : wu ∉ walkLevels ns.length v ns := by
              intro hh
              have := chain_depth_lt' hpo hv hh
              omega
            have h3 : v ∉ walkLevels ns.length wu ns := fun hh =>
              hvcu (by rw [hchu]; exact List.mem_cons_of_mem _ hh)
            obtain ⟨pid, a, b, hamem, hbmem, hab, hapar, hbpar, hawu, hbv⟩ :=
              ih (depthOf wu ns + depthOf v ns) (by omega) wu v hwumem hv
                (Nat.le_refl _) h1 h2 h3
            refine ⟨pid, a, b, hamem, hbmem, hab, hapar, hbpar, Or.inr ?_, hbv⟩
            rw [hchu]
            rcases hawu with rfl | ha'
            · exact List.mem_cons_self _ _
            · exact List.mem_cons_of_mem _ ha'

/-! ### Bounds on the rightmost-descendant scan -/

theorem rmx_ge_init (m : PosMap) (ids : List String) :
    ∀ (init : Int),
      init ≤ ids.foldl (fun rightmostX descId =>
        match mapGet m descId with
        | some pos => if pos.1 > rightmostX then pos.1 else rightmostX
        | none => rightmostX) init := by
  induction ids with
  | nil => intro init; exact Int.le_refl init
  | cons a rest ih =>
    intro init
    rw [List.foldl_cons]
    refine Int.le_trans ?_ (ih _)
    cases hg : mapGet m a with
    | none => exact Int.le_refl init
    | some pos =>
      dsimp only
      by_cases hlt : pos.1 > init
      · rw [if_pos hlt]; omega
      · rw [if_neg hlt]

theorem rmx_ge_mem (m : PosMap) (ids : List String) :
    ∀ (init : Int) (id : String) (p : Pos), id ∈ ids → mapGet m id = some p →
      p.1 ≤ ids.foldl (fun rightmostX descId =>
        match mapGet m descId with
        | some pos => if pos.1 > rightmostX then pos.1 else rightmostX
        | none => rightmostX) init := by
  induction ids with
  | nil => intro init id p hmem; cases hmem
  | cons a rest ih =>
    intro init id p hmem hg
    rw [List.foldl_cons]
    rcases List.mem_cons.mp hmem with rfl | hmem'
    · refine Int.le_trans ?_ (rmx_ge_init m rest _)
      rw [hg]
      dsimp only
      by_cases hlt : p.1 > init
      · rw [if_pos hlt]
      · rw [if_neg hlt]; omega
    · exact ih _ id p hmem' hg

theorem rmx_achieved_fold (m : PosMap) (ids : List String) :
    ∀ (init : Int),
      ids.foldl (fun rightmostX descId =>
        match mapGet m descId with
        | some pos => if pos.1 > rightmostX then pos.1 else rightmostX
        | none => rightmostX) init = init ∨
      ∃ id ∈ ids, ∃ p, mapGet m id = some p ∧
        ids.foldl (fun rightmostX descId =>
          match mapGet m descId with
          | some pos => if pos.1 > rightmostX then pos.1 else rightmostX
          | none => rightmostX) init = p.1 := by
  induction ids with
  | nil => intro init; exact Or.inl rfl
  | cons a rest ih =>
    intro init
    rw [List.foldl_cons]
    cases hg : mapGet m a with
    | none =>
      dsimp only
      rcases ih init with h | ⟨id, hmem, p, hp, hfold⟩
      · exact Or.inl h
      · exact Or.inr ⟨id, List.mem_cons_of_mem _ hmem, p, hp, hfold⟩
    | some pos =>
      dsimp only
      by_cases hlt : pos.1 > init
      · rw [if_pos hlt]
        rcases ih pos.1 with h | ⟨id, hmem, p, hp, hfold⟩
        · exact Or.inr ⟨a, List.mem_cons_self _ _, pos, hg, h⟩
        · exact Or.inr ⟨id, List.mem_cons_of_mem _ hmem, p, hp, hfold⟩
      · rw [if_neg hlt]
        rcases ih init with h | ⟨id, hmem, p, hp, hfold⟩
        · exact Or.inl h
        · exact Or.inr ⟨id, List.mem_cons_of_mem _ hmem, p, hp, hfold⟩

theorem rmx_ge_self {nodeId : String} {ns : List CNode} {m : PosMap} {p : Pos}
    (h : mapGet m nodeId = some p) :
    p.1 ≤ getRightmostDescendantX nodeId ns m := by
  unfold getRightmostDescendantX
  rw [h]
  exact rmx_ge_init m _ _

theorem rmx_ge_desc {nodeId : String} {ns : List CNode} {m : PosMap}
    {id : String} {p : Pos} (hmem : id ∈ getAllDescendants nodeId ns)
    (h : mapGet m id = some p) :
    p.1 ≤ getRightmostDescendantX nodeId ns m :=
  rmx_ge_mem m _ _ id p hmem h

theorem rmx_achieved {nodeId : String} {ns : List CNode} {m : PosMap} {p : Pos}
    (hself : mapGet m nodeId = some p) :
    getRightmostDescendantX nodeId ns m = p.1 ∨
    ∃ id ∈ getAllDescendants nodeId ns, ∃ q, mapGet m id = some q ∧
      getRightmostDescendantX nodeId ns m = q.1 := by
  unfold getRightmostDescendantX
  rw [hself]
  exact rmx_achieved_fold m _ _

/-! ### A scan over a store with no overlapping entry is a clean no-op -/

theorem collideScan_clean (selfId : String) (desired : Pos) (ns : List CNode)
    (m : PosMap)
    (h : ∀ id, id ≠ selfId → ∀ p, mapGet m id = some p →
      wouldOverlap desired p = false) :
    ∀ (keys : List String), collideScan selfId desired ns keys m = (m, false) := by
  intro keys
  unfold collideScan
  induction keys with
  | nil => rfl
  | cons k rest ih =>
    rw [List.foldl_cons]
    have hstep : (match mapGet ((m, false) : PosMap × Bool).1 k with
      | none => ((m, false) : PosMap × Bool)
      | some existingPos =>
        if k ≠ selfId && wouldOverlap desired existingPos then
          (shiftBranchRight k horizontalSpacing ns (m, false).1, true)
        else (m, false)) = (m, false) := by
      dsimp only
      cases hg : mapGet m k with
      | none => rfl
      | some p =>
        dsimp only
        rw [if_neg]
        intro hcond
        rw [Bool.and_eq_true] at hcond
        by_cases hk : k = selfId
        · rw [hk] at hcond
          simp at hcond
        · have hov := h k hk p hg
          rw [hov] at hcond
          exact absurd hcond.2 (by simp)
    rw [hstep]
    exact ih

theorem resolveCollisions_noop (fuel : Nat) (selfId : String) (desired : Pos)
    (ns : List CNode) (m : PosMap)
    (h : ∀ id, id ≠ selfId → ∀ p, mapGet m id = some p →
      wouldOverlap desired p = false) :
    resolveCollisions (fuel + 1) selfId desired ns m = m := by
  unfold resolveCollisions
  rw [collideScan_clean selfId desired ns m h (mapKeys m)]
  rfl

/-! ### findIdx over appended lists -/

theorem findIdx_append_not (p : CNode → Bool) :
    ∀ (l1 l2 : List CNode), (∀ x ∈ l1, p x = false) →
      (l1 ++ l2).findIdx p = l1.length + l2.findIdx p := by
  intro l1
  induction l1 with
  | nil => intro l2 _; simp
  | cons a rest ih =>
    intro l2 h
    rw [List.cons_append, List.findIdx_cons, h a (List.mem_cons_self _ _)]
    dsimp only [cond]
    rw [ih l2 (fun x hx => h x (List.mem_cons_of_mem _ hx)), List.length_cons]
    omega

theorem findIdx_append_found (p : CNode → Bool) :
    ∀ (l1 l2 : List CNode) (x : CNode), x ∈ l1 → p x = true →
      (l1 ++ l2).findIdx p = l1.findIdx p := by
  intro l1
  induction l1 with
  | nil => intro l2 x hx; cases hx
  | cons a rest ih =>
    intro l2 x hx hpx
    rw [List.cons_append, List.findIdx_cons, List.findIdx_cons]
    cases hpa : p a with
    | true => rfl
    | false =>
      dsimp only [cond]
      rcases List.mem_cons.mp hx with rfl | hx'
      · rw [hpx] at hpa; cases hpa
      · rw [ih l2 x hx' hpx]

theorem findIdx_zero_head {p : CNode → Bool} {a : CNode} {l : List CNode}
    (h : (a :: l).findIdx p = 0) : p a = true := by
  rw [List.findIdx_cons] at h
  cases hp : p a with
  | true => rfl
  | false => rw [hp] at h; dsimp only [cond] at h; cases h

theorem findIdx_head_zero {p : CNode → Bool} {a : CNode} {l : List CNode}
    (h : p a = true) : (a :: l).findIdx p = 0 := by
  rw [List.findIdx_cons, h]
  rfl

theorem filter_children_append (ns : List CNode) (n : CNode) (pid : String) :
    (ns ++ [n]).filter (fun x => x.parentId = some pid) =
      ns.filter (fun x => x.parentId = some pid) ++
      (if n.parentId = some pid then [n] else []) := by
  rw [List.filter_append]
  congr 1
  by_cases hp : n.parentId = some pid
  · simp [hp]
  · simp [hp]

/-! ### Overlap arithmetic over the layout grid -/

theorem wouldOverlap_false_y (p1 p2 : Pos) (h : 160 ≤ intAbs (p1.2 - p2.2)) :
    wouldOverlap p1 p2 = false := by
  unfold wouldOverlap
  have hd : decide (intAbs (p1.2 - p2.2) < nodeHeight + 20) = false := by
    rw [decide_eq_false_iff_not]
    unfold nodeHeight
    omega
  rw [hd, Bool.and_false]

theorem wouldOverlap_false_x (p1 p2 : Pos) (h : 430 ≤ intAbs (p1.1 - p2.1)) :
    wouldOverlap p1 p2 = false := by
  unfold wouldOverlap
  have hd : decide (intAbs (p1.1 - p2.1) < nodeWidth + minHorizontalGap) = false := by
    rw [decide_eq_false_iff_not]
    unfold nodeWidth minHorizontalGap
    omega
  rw [hd, Bool.false_and]

theorem y_sep_depth (d1 d2 : Nat) (h : d1 ≠ d2) (y1 y2 : Int)
    (h1 : y1 = (d1 : Int) * verticalSpacing) (h2 : y2 = (d2 : Int) * verticalSpacing) :
    160 ≤ intAbs (y1 - y2) := by
  subst h1 h2
  unfold intAbs verticalSpacing
  split <;> omega

theorem x_sep_mul (k1 k2 : Nat) (h : k1 ≠ k2) (x1 x2 : Int)
    (h1 : x1 = (k1 : Int) * horizontalSpacing) (h2 : x2 = (k2 : Int) * horizontalSpacing) :
    430 ≤ intAbs (x1 - x2) := by
  subst h1 h2
  unfold intAbs horizontalSpacing
  split <;> omega

/-! ### Reading a store through an `AgreesShifted` relation -/

theorem agrees_get_some {m0 m : PosMap} {S : List String}
    (hA : AgreesShifted m0 S m) {id : String} {p : Pos}
    (hg : mapGet m0 id = some p) :
    mapGet m id = some (if id ∈ S then (p.1 + horizontalSpacing, p.2) else p) := by
  have := hA id
  rw [hg] at this
  simpa using this

theorem agrees_get_none {m0 m : PosMap} {S : List String}
    (hA : AgreesShifted m0 S m) {id : String}
    (hg : mapGet m0 id = none) : mapGet m id = none := by
  have := hA id
  rw [hg] at this
  simpa using this

theorem agrees_get_rev {m0 m : PosMap} {S : List String}
    (hA : AgreesShifted m0 S m) {id : String} {p : Pos}
    (hg : mapGet m id = some p) :
    ∃ q, mapGet m0 id = some q ∧
      p = (if id ∈ S then (q.1 + horizontalSpacing, q.2) else q) := by
  have := hA id
  cases hg0 : mapGet m0 id with
  | none =>
    rw [hg0] at this
    simp only [Option.map_none'] at this
    rw [this] at hg
    cases hg
  | some q =>
    rw [hg0] at this
    simp only [Option.map_some'] at this
    rw [this] at hg
    exact ⟨q, rfl, (Option.some_inj.mp hg).symm⟩

/-! ### The single-root layout invariant

`GoodState ns m` bundles the geometric facts that a snapshot built by
single-root insertion maintains: every node placed; the store holds only
snapshot ids; y is depth times `verticalSpacing`; x is a natural multiple of
`horizontalSpacing`; a child never sits left of its parent; a first child
shares its parent's column; the whole subtree of an earlier sibling stays
strictly left of a later sibling's column; and the rightmost-descendant
scan of a node with `c` children reaches at least `c - 1` columns past the
node itself. -/

structure GoodState (ns : List CNode) (m : PosMap) : Prop where
  placed : ∀ u ∈ ns, ∃ p, mapGet m u.id = some p
  dom : ∀ id p, mapGet m id = some p → ∃ u ∈ ns, u.id = id
  ydepth : ∀ u ∈ ns, ∀ p, mapGet m u.id = some p →
    p.2 = (depthOf u ns : Int) * verticalSpacing
  xmul : ∀ u ∈ ns, ∀ p, mapGet m u.id = some p →
    ∃ k : Nat, p.1 = (k : Int) * horizontalSpacing
  xmono : ∀ u ∈ ns, ∀ pid, u.parentId = some pid →
    ∀ w, ns.find? (fun x => x.id = pid) = some w →
    ∀ p q, mapGet m u.id = some p → mapGet m w.id = some q → q.1 ≤ p.1
  firstchild : ∀ u ∈ ns, ∀ pid, u.parentId = some pid →
    (ns.filter (fun x => x.parentId = some pid)).findIdx
      (fun x => x.id = u.id) = 0 →
    ∀ w, ns.find? (fun x => x.id = pid) = some w →
    ∀ p q, mapGet m u.id = some p → mapGet m w.id = some q → p.1 = q.1
  sibsep : ∀ u ∈ ns, ∀ v ∈ ns, ∀ pid, u.parentId = some pid →
    v.parentId = some pid → u.timestamp < v.timestamp →
    ∀ z ∈ ns, (z = u ∨ u ∈ walkLevels ns.length z ns) →
    ∀ p q, mapGet m z.id = some p → mapGet m v.id = some q → p.1 < q.1
  rmspread : ∀ w ∈ ns, ∀ q, mapGet m w.id = some q →
    0 < (ns.filter (fun x => x.parentId = some w.id)).length →
    q.1 + (((ns.filter (fun x => x.parentId = some w.id)).length - 1 : Nat) : Int) *
      horizontalSpacing ≤ getRightmostDescendantX w.id ns m

/-- Distinct timestamps identify nodes in a creation-ordered snapshot. -/
theorem ts_inj {ns : List CNode}
    (hts : ns.Pairwise (fun x y => x.timestamp < y.timestamp)) :
    ∀ {a b : CNode}, a ∈ ns → b ∈ ns → a.timestamp = b.timestamp → a = b := by
  induction ns with
  | nil => intro a b ha _ _; cases ha
  | cons c rest ih =>
    intro a b ha hb heq
    have hc := List.pairwise_cons.mp hts
    rcases List.mem_cons.mp ha with rfl | ha' <;>
      rcases List.mem_cons.mp hb with hb' | hb'
    · rw [hb']
    · exact absurd heq (by have := hc.1 b hb'; omega)
    · rcases hb' with rfl
      exact absurd heq (by have := hc.1 a ha'; omega)
    · exact ih hc.2 ha' hb' heq

/-- Along any upward path the x coordinate never increases: a node sits at
or right of each of its ancestors. -/
theorem xmono_path {ns : List CNode} {m : PosMap} (hG : GoodState ns m)
    (hpo : ParentsOlder ns) :
    ∀ (c : Nat) (z : CNode), z ∈ ns →
      (ns.filter (fun x => x.timestamp < z.timestamp)).length ≤ c →
      ∀ a, (a = z ∨ a ∈ walkLevels ns.length z ns) →
      ∀ p q, mapGet m z.id = some p → mapGet m a.id = some q → q.1 ≤ p.1 := by
  intro c
  induction c using Nat.strong_induction_on with
  | _ c ih =>
    intro z hz hcount a ha p q hp hq
    rcases ha with rfl | ha'
    · rw [hp] at hq
      rw [Option.some_inj.mp hq]
    · cases hpar : z.parentId with
      | none => rw [chain_root hpar] at ha'; cases ha'
      | some pid =>
        cases hfind : ns.find? (fun x => x.id = pid) with
        | none => rw [chain_find_none hz hpar hfind] at ha'; cases ha'
        | some w =>
          rw [chain_unfold hpo hz hpar hfind] at ha'
          have hwmem : w ∈ ns := List.mem_of_find?_eq_some hfind
          have hwts : w.timestamp < z.timestamp := hpo z hz pid hpar w hfind
          obtain ⟨pw, hpw⟩ := hG.placed w hwmem
          have hwlez : pw.1 ≤ p.1 := hG.xmono z hz pid hpar w hfind p pw hp hpw
          rcases List.mem_cons.mp ha' with rfl | ha''
          · rw [hpw] at hq
            rw [Option.some_inj.mp hq] at hwlez
            exact hwlez
          · have hcw : (ns.filter (fun x => x.timestamp < w.timestamp)).length < c := by
              have h1 : (ns.filter (fun x => x.timestamp < w.timestamp)).length <
                  (ns.filter (fun x => x.timestamp < z.timestamp)).length := by
                apply length_filter_strict
                · intro x _ hx
                  rw [decide_eq_true_eq] at hx ⊢
                  omega
                · exact hwmem
                · rw [decide_eq_true_eq]; exact hwts
                · simp
              omega
            have := ih _ hcw w hwmem (by omega) a (Or.inr ha'') pw q hpw hq
            omega

/-- Incomparable nodes of a single-root snapshot occupy distinct columns,
ordered by the creation order of the siblings where their paths diverge. -/
theorem sep_x {ns : List CNode} {m : PosMap} (hG : GoodState ns m)
    (hnd : (ns.map (fun x => x.id)).Nodup) (hpo : ParentsOlder ns)
    (hclosed : ∀ x ∈ ns, ∀ pid, x.parentId = some pid →
      ∃ p, ns.find? (fun y => y.id = pid) = some p)
    (hroot : ∀ x ∈ ns, ∀ y ∈ ns, x.parentId = none → y.parentId = none → x = y)
    (hts : ns.Pairwise (fun x y => x.timestamp < y.timestamp))
    {u v : CNode} (hu : u ∈ ns) (hv : v ∈ ns) (hne : u ≠ v)
    (hucv : u ∉ walkLevels ns.length v ns)
    (hvcu : v ∉ walkLevels ns.length u ns)
    {p q : Pos} (hp : mapGet m u.id = some p) (hq : mapGet m v.id = some q) :
    p.1 ≠ q.1 := by
  obtain ⟨pid, a, b, hamem, hbmem, hab, hapar, hbpar, hau, hbv⟩ :=
    lca_sep hnd hpo hclosed hroot _ u v hu hv (Nat.le_refl _) hne hucv hvcu
  obtain ⟨pa, hpa⟩ := hG.placed a hamem
  obtain ⟨pb, hpb⟩ := hG.placed b hbmem
  rcases Nat.lt_trichotomy a.timestamp b.timestamp with hlt | heq | hgt
  · -- u sits in the earlier sibling a's branch, so left of b's column ≤ v's x
    have h1 : p.1 < pb.1 := hG.sibsep a hamem b hbmem pid hapar hbpar hlt
      u hu (hau.imp Eq.symm (fun h => h)) p pb hp hpb
    have h2 : pb.1 ≤ q.1 := xmono_path hG hpo _ v hv (Nat.le_refl _) b hbv q pb hq hpb
    omega
  · exact absurd (ts_inj hts hamem hbmem heq) hab
  · have h1 : q.1 < pa.1 := hG.sibsep b hbmem a hamem pid hbpar hapar hgt
      v hv (hbv.imp Eq.symm (fun h => h)) q pa hq hpa
    have h2 : pa.1 ≤ p.1 := xmono_path hG hpo _ u hu (Nat.le_refl _) a hau p pa hp hpa
    omega

/-- In a `GoodState`, no two distinct placed nodes overlap. -/
theorem goodstate_no_overlap {ns : List CNode} {m : PosMap} (hG : GoodState ns m)
    (hnd : (ns.map (fun x => x.id)).Nodup) (hpo : ParentsOlder ns)
    (hclosed : ∀ x ∈ ns, ∀ pid, x.parentId = some pid →
      ∃ p, ns.find? (fun y => y.id = pid) = some p)
    (hroot : ∀ x ∈ ns, ∀ y ∈ ns, x.parentId = none → y.parentId = none → x = y)
    (hts : ns.Pairwise (fun x y => x.timestamp < y.timestamp))
    {u v : CNode} (hu : u ∈ ns) (hv : v ∈ ns) (hne : u ≠ v)
    {p q : Pos} (hp : mapGet m u.id = some p) (hq : mapGet m v.id = some q) :
    wouldOverlap p q = false := by
  by_cases hd : depthOf u ns = depthOf v ns
  · -- same level: the nodes are incomparable, so their columns differ
    have hucv : u ∉ walkLevels ns.length v ns := by
      intro hh
      have := chain_depth_lt' hpo hv hh
      omega
    have hvcu : v ∉ walkLevels ns.length u ns := by
      intro hh
      have := chain_depth_lt' hpo hu hh
      omega
    have hxne : p.1 ≠ q.1 :=
      sep_x hG hnd hpo hclosed hroot hts hu hv hne hucv hvcu hp hq
    obtain ⟨k1, hk1⟩ := hG.xmul u hu p hp
    obtain ⟨k2, hk2⟩ := hG.xmul v hv q hq
    have hkne : k1 ≠ k2 := by
      intro hh
      rw [hh] at hk1
      exact hxne (hk1.trans hk2.symm)
    exact wouldOverlap_false_x p q (x_sep_mul k1 k2 hkne p.1 q.1 hk1 hk2)
  · exact wouldOverlap_false_y p q
      (y_sep_depth (depthOf u ns) (depthOf v ns) hd p.2 q.2
        (hG.ydepth u hu p hp) (hG.ydepth v hv q hq))

/-! ### The insertion-step context

All facts available while the layout pass places one freshly inserted
parented node `n` under `P` on top of a good single-root state. -/

theorem ids_ne {ns : List CNode} (hnd : (ns.map (fun x => x.id)).Nodup)
    {u v : CNode} (hu : u ∈ ns) (hv : v ∈ ns) (hne : u ≠ v) : u.id ≠ v.id :=
  fun h => hne (id_inj hnd hu hv h)

theorem closed_find {ns : List CNode}
    (h : ∀ x ∈ ns, ∀ pid, x.parentId = some pid → ∃ p ∈ ns, p.id = pid) :
    ∀ x ∈ ns, ∀ pid, x.parentId = some pid →
      ∃ p, ns.find? (fun y => y.id = pid) = some p := by
  intro x hx pid hp
  obtain ⟨p0, hp0, hp0id⟩ := h x hx pid hp
  have hsome : (ns.find? (fun y => y.id = pid)).isSome := by
    rw [List.find?_isSome]
    exact ⟨p0, hp0, by rw [decide_eq_true_eq]; exact hp0id⟩
  cases hf : ns.find? (fun y => y.id = pid) with
  | none => rw [hf] at hsome; cases hsome
  | some p => exact ⟨p, rfl⟩

structure StepCtx (ns : List CNode) (m : PosMap) (n P : CNode) (ppos : Pos) :
    Prop where
  hG : GoodState ns m
  hnd : (ns.map (fun x => x.id)).Nodup
  hpo : ParentsOlder ns
  hclosed : ∀ x ∈ ns, ∀ pid, x.parentId = some pid →
    ∃ p, ns.find? (fun y => y.id = pid) = some p
  hroot : ∀ x ∈ ns, ∀ y ∈ ns, x.parentId = none → y.parentId = none → x = y
  hts : ns.Pairwise (fun x y => x.timestamp < y.timestamp)
  hnd' : ((ns ++ [n]).map (fun x => x.id)).Nodup
  hpo' : ParentsOlder (ns ++ [n])
  hclosed' : ∀ x ∈ ns ++ [n], ∀ pid, x.parentId = some pid →
    ∃ p, (ns ++ [n]).find? (fun y => y.id = pid) = some p
  hroot' : ∀ x ∈ ns ++ [n], ∀ y ∈ ns ++ [n],
    x.parentId = none → y.parentId = none → x = y
  hts' : (ns ++ [n]).Pairwise (fun x y => x.timestamp < y.timestamp)
  hfresh : ∀ x ∈ ns, x.id ≠ n.id
  htsn : ∀ x ∈ ns, x.timestamp < n.timestamp
  hP : P ∈ ns
  hnpar : n.parentId = some P.id
  hppos : mapGet m P.id = some ppos

namespace StepCtx

variable {ns : List CNode} {m : PosMap} {n P : CNode} {ppos : Pos}

theorem hPmem' (c : StepCtx ns m n P ppos) : P ∈ ns ++ [n] :=
  List.mem_append_left _ c.hP

theorem hnmem' (c : StepCtx ns m n P ppos) : n ∈ ns ++ [n] :=
  List.mem_append_right _ (List.mem_singleton.mpr rfl)

theorem hfindP (c : StepCtx ns m n P ppos) :
    (ns ++ [n]).find? (fun x => x.id = P.id) = some P :=
  find?_id_self c.hnd' c.hPmem'

theorem hfindn (c : StepCtx ns m n P ppos) :
    (ns ++ [n]).find? (fun x => x.id = n.id) = some n :=
  find?_id_self c.hnd' c.hnmem'

theorem hnget (c : StepCtx ns m n P ppos) : mapGet m n.id = none := by
  cases hg : mapGet m n.id with
  | none => rfl
  | some p =>
    obtain ⟨x, hx, hxid⟩ := c.hG.dom n.id p hg
    exact absurd hxid (c.hfresh x hx)

theorem hnhas (c : StepCtx ns m n P ppos) : mapHas m n.id = false := by
  unfold mapHas
  rw [c.hnget]
  rfl

theorem hnP (c : StepCtx ns m n P ppos) : n ≠ P := by
  intro h
  exact c.hfresh P c.hP (h ▸ rfl)

theorem hPn_id (c : StepCtx ns m n P ppos) : P.id ≠ n.id :=
  c.hfresh P c.hP

/-- Chains of pre-existing nodes are unchanged by appending the fresh node. -/
theorem chain_eq (c : StepCtx ns m n P ppos) {y : CNode} (hy : y ∈ ns) :
    walkLevels (ns ++ [n]).length y (ns ++ [n]) = walkLevels ns.length y ns := by
  rw [List.length_append, List.length_singleton,
    walkLevels_append ns n c.hclosed (ns.length + 1) y hy]
  exact walkLevels_fuel_stable ns c.hpo
    ((ns.filter (fun x => x.timestamp < y.timestamp)).length) y hy
    (Nat.le_refl _) _ _
    (Nat.le_trans (List.length_filter_le _ _) (Nat.le_succ _))
    (List.length_filter_le _ _)

/-- Depths of pre-existing nodes are unchanged by appending the fresh node. -/
theorem depth_eq (c : StepCtx ns m n P ppos) {y : CNode} (hy : y ∈ ns) :
    depthOf y (ns ++ [n]) = depthOf y ns := by
  unfold depthOf
  rw [List.length_append, List.length_singleton,
    depthOfF_append ns n c.hclosed (ns.length + 1) y hy]
  exact depthOfF_fuel_stable ns c.hpo
    ((ns.filter (fun x => x.timestamp < y.timestamp)).length) y hy
    (Nat.le_refl _) _ _
    (Nat.le_trans (List.length_filter_le _ _) (Nat.le_succ _))
    (List.length_filter_le _ _)

/-- The fresh node's upward walk: its parent `P` followed by `P`'s own
chain, which is the chain `P` already had. -/
theorem chain_n (c : StepCtx ns m n P ppos) :
    walkLevels (ns ++ [n]).length n (ns ++ [n]) =
      P :: walkLevels ns.length P ns := by
  rw [chain_unfold c.hpo' c.hnmem' c.hnpar c.hfindP]
  rw [c.chain_eq c.hP]

/-- The fresh node is one level below its parent. -/
theorem depth_n (c : StepCtx ns m n P ppos) :
    depthOf n (ns ++ [n]) = depthOf P ns + 1 := by
  rw [depth_child c.hpo' c.hnmem' c.hnpar c.hfindP, c.depth_eq c.hP]

/-- A find over the extended snapshot that already succeeds over the old
snapshot returns the same node. -/
theorem find_eq (c : StepCtx ns m n P ppos) {pid : String} {w : CNode}
    (h : ns.find? (fun y => y.id = pid) = some w) :
    (ns ++ [n]).find? (fun y => y.id = pid) = some w := by
  rw [List.find?_append, h]
  rfl

/-- Old nodes never have the fresh node as a parent. -/
theorem no_child_of_n (c : StepCtx ns m n P ppos) :
    ∀ x ∈ ns ++ [n], x.parentId ≠ some n.id := by
  intro x hx hxp
  rcases List.mem_append.mp hx with hx' | hx'
  · obtain ⟨w, hw⟩ := c.hclosed x hx' n.id hxp
    have hwid : w.id = n.id := by
      have := List.find?_some hw
      simpa using this
    exact c.hfresh w (List.mem_of_find?_eq_some hw) hwid
  · rcases List.mem_singleton.mp hx' with rfl
    rw [c.hnpar] at hxp
    exact c.hPn_id (Option.some_inj.mp hxp)

/-- The extended children list of `P`: the old children, then `n`. -/
theorem childrenP (c : StepCtx ns m n P ppos) :
    (ns ++ [n]).filter (fun x => x.parentId = some P.id) =
      ns.filter (fun x => x.parentId = some P.id) ++ [n] := by
  rw [filter_children_append, if_pos c.hnpar]

/-- Children lists of other nodes are untouched. -/
theorem children_other (c : StepCtx ns m n P ppos) {pid : String}
    (h : pid ≠ P.id) :
    (ns ++ [n]).filter (fun x => x.parentId = some pid) =
      ns.filter (fun x => x.parentId = some pid) := by
  rw [filter_children_append, if_neg, List.append_nil]
  intro hc
  rw [c.hnpar] at hc
  exact h (Option.some_inj.mp hc).symm

/-- The fresh node has no children. -/
theorem children_n (c : StepCtx ns m n P ppos) :
    (ns ++ [n]).filter (fun x => x.parentId = some n.id) = [] := by
  rw [List.filter_eq_nil_iff]
  intro x hx
  simp only [decide_eq_true_eq]
  exact c.no_child_of_n x hx

/-- The fresh node's sibling index is the number of existing children. -/
theorem idx_n (c : StepCtx ns m n P ppos) :
    ((ns ++ [n]).filter (fun x => x.parentId = some P.id)).findIdx
      (fun x => x.id = n.id) =
    (ns.filter (fun x => x.parentId = some P.id)).length := by
  rw [c.childrenP, findIdx_append_not]
  · rw [List.findIdx_cons]
    simp
  · intro x hx
    rw [decide_eq_false_iff_not]
    exact c.hfresh x (List.mem_filter.mp hx).1

/-- The timestamp-sorted extended snapshot is itself. -/
theorem sorted_eq (c : StepCtx ns m n P ppos) :
    sortByTimestamp (ns ++ [n]) = ns ++ [n] :=
  sortByTimestamp_eq_self _ (c.hts'.imp (fun h => Nat.le_of_lt h))

/-- The whole pass reduces to the placement of the fresh node. -/
theorem pass_eq (c : StepCtx ns m n P ppos) :
    layoutStore ⟨ns ++ [n], none⟩ m = placeOne (ns ++ [n]) m n := by
  unfold layoutStore layoutPass
  dsimp only
  rw [c.sorted_eq, List.foldl_append,
    fold_placed_id (ns ++ [n]) ns m (fun x hx => by
      obtain ⟨p, hp⟩ := c.hG.placed x hx
      exact mapHas_of_get_some hp)]
  rfl

/-! #### Walk levels, siblings and branches of the extended snapshot -/

theorem ch_depth_unique (c : StepCtx ns m n P ppos) {A A' : CNode}
    (hA : A ∈ walkLevels (ns ++ [n]).length n (ns ++ [n]))
    (hA' : A' ∈ walkLevels (ns ++ [n]).length n (ns ++ [n]))
    (hd : depthOf A (ns ++ [n]) = depthOf A' (ns ++ [n])) : A = A' :=
  comp_depth_eq c.hpo' (walkLevels_mem hA) (walkLevels_mem hA')
    (chain_linear' c.hpo' c.hnmem' hA hA') hd

theorem sib_facts (c : StepCtx ns m n P ppos) {A s : CNode}
    (hA : A ∈ ns ++ [n]) (hs : s ∈ sibsOf A (ns ++ [n])) :
    s ∈ ns ++ [n] ∧ s ≠ A ∧
      depthOf s (ns ++ [n]) = depthOf A (ns ++ [n]) := by
  have h := mem_sibsOf.mp hs
  refine ⟨h.1, ?_, depth_sib c.hpo' c.hclosed' hA hs⟩
  intro heq
  exact h.2.2 (heq ▸ rfl)

theorem sib_not_in_ch (c : StepCtx ns m n P ppos) {A s : CNode}
    (hA : A ∈ walkLevels (ns ++ [n]).length n (ns ++ [n]))
    (hs : s ∈ sibsOf A (ns ++ [n])) :
    s ∉ walkLevels (ns ++ [n]).length n (ns ++ [n]) := by
  intro hcontra
  have hfacts := c.sib_facts (walkLevels_mem hA) hs
  exact hfacts.2.1 (c.ch_depth_unique hcontra hA hfacts.2.2)

theorem sib_parent_some (c : StepCtx ns m n P ppos) {A s : CNode}
    (hA : A ∈ ns ++ [n]) (hs : s ∈ sibsOf A (ns ++ [n])) :
    ∃ pid, A.parentId = some pid := by
  cases hApar : A.parentId with
  | none => rw [root_sibs_nil c.hroot' hA hApar] at hs; cases hs
  | some pid => exact ⟨pid, rfl⟩

theorem sib_chain_in_ch (c : StepCtx ns m n P ppos) {A s x : CNode}
    (hA : A ∈ walkLevels (ns ++ [n]).length n (ns ++ [n]))
    (hs : s ∈ sibsOf A (ns ++ [n]))
    (hx : x ∈ walkLevels (ns ++ [n]).length s (ns ++ [n])) :
    x ∈ walkLevels (ns ++ [n]).length n (ns ++ [n]) := by
  obtain ⟨pid, hApar⟩ := c.sib_parent_some (walkLevels_mem hA) hs
  rw [sib_chain_eq c.hpo' c.hclosed' (walkLevels_mem hA) hs hApar] at hx
  exact chain_trans' c.hpo' c.hnmem' hA hx

theorem cross_branch (c : StepCtx ns m n P ppos) {A A' s s' : CNode}
    (hA : A ∈ walkLevels (ns ++ [n]).length n (ns ++ [n]))
    (hA' : A' ∈ walkLevels (ns ++ [n]).length n (ns ++ [n]))
    (hs : s ∈ sibsOf A (ns ++ [n])) (hs' : s' ∈ sibsOf A' (ns ++ [n]))
    {id : String} (hid : id ∈ branchIds s.id (ns ++ [n]))
    (hid' : id ∈ branchIds s'.id (ns ++ [n])) :
    A = A' ∧ s = s' := by
  obtain ⟨hsmem, hsne, hsd⟩ := c.sib_facts (walkLevels_mem hA) hs
  obtain ⟨hsmem', hsne', hsd'⟩ := c.sib_facts (walkLevels_mem hA') hs'
  obtain ⟨z, hz, hzid, hzp⟩ := branch_mem_node c.hnd' c.hpo' hsmem hid
  obtain ⟨z', hz', hzid', hzp'⟩ := branch_mem_node c.hnd' c.hpo' hsmem' hid'
  have hzz : z = z' := id_inj c.hnd' hz hz' (hzid.trans hzid'.symm)
  subst hzz
  rcases path_comparable c.hpo' hz (hzp.imp Eq.symm (fun h => h))
      (hzp'.imp Eq.symm (fun h => h)) with heq | hlt | hgt
  · have hApar_eq : A.parentId = A'.parentId := by
      have h1 := (mem_sibsOf.mp hs).2.1
      have h2 := (mem_sibsOf.mp hs').2.1
      rw [heq] at h1
      exact h1.symm.trans h2
    have hdA : depthOf A (ns ++ [n]) = depthOf A' (ns ++ [n]) := by
      have hd1 := depth_sib c.hpo' c.hclosed' (walkLevels_mem hA) hs
      have hd2 := depth_sib c.hpo' c.hclosed' (walkLevels_mem hA') hs'
      rw [← hd1, heq, hd2]
    exact ⟨c.ch_depth_unique hA hA' hdA, heq⟩
  · exact absurd (c.sib_chain_in_ch hA' hs' hlt) (c.sib_not_in_ch hA hs)
  · exact absurd (c.sib_chain_in_ch hA hs hgt) (c.sib_not_in_ch hA' hs')

theorem sib_not_comparable_P (c : StepCtx ns m n P ppos) {A s : CNode}
    (hA : A ∈ walkLevels (ns ++ [n]).length n (ns ++ [n]))
    (hs : s ∈ sibsOf A (ns ++ [n])) :
    s ≠ P ∧ s ∉ walkLevels (ns ++ [n]).length P (ns ++ [n]) ∧
      P ∉ walkLevels (ns ++ [n]).length s (ns ++ [n]) := by
  have hchn : walkLevels (ns ++ [n]).length n (ns ++ [n]) =
      P :: walkLevels (ns ++ [n]).length P (ns ++ [n]) := by
    rw [c.chain_n, c.chain_eq c.hP]
  refine ⟨?_, ?_, ?_⟩
  · rintro rfl
    exact c.sib_not_in_ch hA hs (by rw [hchn]; exact List.mem_cons_self _ _)
  · intro hcontra
    exact c.sib_not_in_ch hA hs (by rw [hchn]; exact List.mem_cons_of_mem _ hcontra)
  · intro hcontra
    obtain ⟨pid, hApar⟩ := c.sib_parent_some (walkLevels_mem hA) hs
    rw [sib_chain_eq c.hpo' c.hclosed' (walkLevels_mem hA) hs hApar] at hcontra
    -- P is an ancestor of A, while A is P itself or one of P's ancestors
    have hAin : A = P ∨ A ∈ walkLevels (ns ++ [n]).length P (ns ++ [n]) := by
      have := hA
      rw [hchn] at this
      exact List.mem_cons.mp this
    rcases hAin with rfl | hAanc
    · exact chain_irrefl c.hpo' c.hPmem' hcontra
    · have h1 := chain_ts' c.hpo' c.hPmem' hAanc
      have h2 := chain_ts' c.hpo' (walkLevels_mem hA) hcontra
      omega

/-- The id set the displacement walk shifts. -/
theorem shift_mem_iff (c : StepCtx ns m n P ppos) {id : String} :
    id ∈ shiftedIdsSpec m ppos.1 (ns ++ [n]).length n (ns ++ [n]) ↔
      ∃ A ∈ walkLevels (ns ++ [n]).length n (ns ++ [n]),
        ∃ s ∈ sibsOf A (ns ++ [n]), qualPred m ppos.1 s = true ∧
          id ∈ branchIds s.id (ns ++ [n]) := by
  unfold shiftedIdsSpec
  constructor
  · intro h
    rcases List.mem_flatMap.mp h with ⟨A, hA, h2⟩
    rcases List.mem_flatMap.mp h2 with ⟨s, hsf, hid⟩
    have hsf' := List.mem_filter.mp hsf
    exact ⟨A, hA, s, hsf'.1, hsf'.2, hid⟩
  · rintro ⟨A, hA, s, hs, hq, hid⟩
    exact List.mem_flatMap.mpr ⟨A, hA,
      List.mem_flatMap.mpr ⟨s, List.mem_filter.mpr ⟨hs, hq⟩, hid⟩⟩

theorem shift_nodup (c : StepCtx ns m n P ppos) :
    (shiftedIdsSpec m ppos.1 (ns ++ [n]).length n (ns ++ [n])).Nodup := by
  unfold shiftedIdsSpec
  rw [List.nodup_flatMap]
  constructor
  · intro A hA
    rw [List.nodup_flatMap]
    constructor
    · intro s hsf
      exact branch_nodup c.hnd' c.hpo' c.hclosed'
        (mem_sibsOf.mp (List.mem_filter.mp hsf).1).1
    · refine List.Nodup.pairwise_of_set_pairwise
        (((List.Nodup.of_map _ c.hnd').filter _).filter _) ?_
      intro s hsm s' hsm' hne
      simp only [Set.mem_setOf_eq] at hsm hsm'
      simp only [Function.onFun]
      intro id hid hid'
      exact hne (c.cross_branch hA hA (List.mem_filter.mp hsm).1
        (List.mem_filter.mp hsm').1 hid hid').2
  · refine List.Nodup.pairwise_of_set_pairwise
      (chain_nodup c.hpo' c.hnmem') ?_
    intro A hAm A' hAm' hne
    simp only [Set.mem_setOf_eq] at hAm hAm'
    simp only [Function.onFun]
    intro id hid hid'
    rcases List.mem_flatMap.mp hid with ⟨s, hsf, hids⟩
    rcases List.mem_flatMap.mp hid' with ⟨s', hsf', hids'⟩
    exact hne (c.cross_branch hAm hAm' (List.mem_filter.mp hsf).1
      (List.mem_filter.mp hsf').1 hids hids').1

theorem pid_not_shifted (c : StepCtx ns m n P ppos) :
    P.id ∉ shiftedIdsSpec m ppos.1 (ns ++ [n]).length n (ns ++ [n]) := by
  intro h
  rcases c.shift_mem_iff.mp h with ⟨A, hA, s, hs, _, hid⟩
  have hsmem := (mem_sibsOf.mp hs).1
  have hnc := c.sib_not_comparable_P hA hs
  rcases (branch_mem_iff c.hnd' c.hpo' c.hPmem' hsmem).mp hid with heq | hchain
  · exact hnc.1 heq.symm
  · exact hnc.2.1 hchain

theorem nonqual_not_shifted (c : StepCtx ns m n P ppos) {A s : CNode}
    (hA : A ∈ walkLevels (ns ++ [n]).length n (ns ++ [n]))
    (hs : s ∈ sibsOf A (ns ++ [n])) (hq : qualPred m ppos.1 s = false) :
    s.id ∉ shiftedIdsSpec m ppos.1 (ns ++ [n]).length n (ns ++ [n]) := by
  intro h
  rcases c.shift_mem_iff.mp h with ⟨A0, hA0, s0, hs0, hq0, hid⟩
  have hsmem := (mem_sibsOf.mp hs).1
  have hs0mem := (mem_sibsOf.mp hs0).1
  rcases (branch_mem_iff c.hnd' c.hpo' hsmem hs0mem).mp hid with heq | hchain
  · rw [heq] at hq
    rw [hq] at hq0
    cases hq0
  · exact c.sib_not_in_ch hA0 hs0 (c.sib_chain_in_ch hA hs hchain)

theorem walk_eq (c : StepCtx ns m n P ppos) :
    shiftAllAncestorSiblings n.id (ns ++ [n]) m =
      ancestorWalk (ns ++ [n]).length n P.id ppos.1 (ns ++ [n]) m := by
  unfold shiftAllAncestorSiblings
  rw [c.hfindn]
  dsimp only
  rw [c.hnpar]
  dsimp only
  rw [c.hfindP]
  dsimp only
  rw [c.hppos]

/-- The displacement step shifts exactly the specified branches, each by one
`horizontalSpacing`. -/
theorem step_agrees (c : StepCtx ns m n P ppos) :
    AgreesShifted m
      (shiftedIdsSpec m ppos.1 (ns ++ [n]).length n (ns ++ [n]))
      (shiftAllAncestorSiblings n.id (ns ++ [n]) m) := by
  rw [c.walk_eq]
  have h := ancestorWalk_spec (ns ++ [n]) P.id ppos.1 m ppos c.hppos
    (ns ++ [n]).length n [] m (AgreesShifted.nil m)
    (by simpa using c.shift_nodup)
    (by simpa using c.pid_not_shifted)
    (by
      intro A hA s hs hq
      simpa using c.nonqual_not_shifted hA hs hq)
  simpa using h

/-! #### Which nodes the displacement step can and cannot move -/

theorem P_side_unshifted (c : StepCtx ns m n P ppos) {z : CNode}
    (hz : z ∈ ns ++ [n])
    (hpath : z = P ∨ P ∈ walkLevels (ns ++ [n]).length z (ns ++ [n]) ∨
      z ∈ walkLevels (ns ++ [n]).length P (ns ++ [n])) :
    z.id ∉ shiftedIdsSpec m ppos.1 (ns ++ [n]).length n (ns ++ [n]) := by
  intro h
  rcases c.shift_mem_iff.mp h with ⟨A, hA, s, hs, _, hid⟩
  have hsmem := (mem_sibsOf.mp hs).1
  have hnc := c.sib_not_comparable_P hA hs
  have hsz := (branch_mem_iff c.hnd' c.hpo' hz hsmem).mp hid
  rcases hpath with rfl | hPz | hzP
  · rcases hsz with heq | hch
    · exact hnc.1 heq.symm
    · exact hnc.2.1 hch
  · rcases path_comparable c.hpo' hz (hsz.imp Eq.symm (fun h => h))
        (Or.inr hPz) with heq | h1 | h2
    · exact hnc.1 heq
    · exact hnc.2.1 h1
    · exact hnc.2.2 h2
  · rcases hsz with heq | hch
    · rw [heq] at hzP
      exact hnc.2.1 hzP
    · exact hnc.2.1 (chain_trans' c.hpo' c.hPmem' hzP hch)

theorem shifted_down (c : StepCtx ns m n P ppos) {z y : CNode}
    (hz : z ∈ ns ++ [n]) (hy : y ∈ ns ++ [n])
    (hSz : z.id ∈ shiftedIdsSpec m ppos.1 (ns ++ [n]).length n (ns ++ [n]))
    (hzy : y = z ∨ z ∈ walkLevels (ns ++ [n]).length y (ns ++ [n])) :
    y.id ∈ shiftedIdsSpec m ppos.1 (ns ++ [n]).length n (ns ++ [n]) := by
  rcases c.shift_mem_iff.mp hSz with ⟨A, hA, s, hs, hq, hid⟩
  have hsmem := (mem_sibsOf.mp hs).1
  have hsz := (branch_mem_iff c.hnd' c.hpo' hz hsmem).mp hid
  have hsy : y = s ∨ s ∈ walkLevels (ns ++ [n]).length y (ns ++ [n]) := by
    rcases hzy with rfl | hzy'
    · exact hsz
    · rcases hsz with heq | hch
      · rw [heq] at hzy'
        exact Or.inr hzy'
      · exact Or.inr (chain_trans' c.hpo' hy hzy' hch)
  exact c.shift_mem_iff.mpr ⟨A, hA, s, hs, hq,
    (branch_mem_iff c.hnd' c.hpo' hy hsmem).mpr hsy⟩

theorem qual_iff (c : StepCtx ns m n P ppos) {s : CNode} {q : Pos}
    (hq : mapGet m s.id = some q) :
    qualPred m ppos.1 s = true ↔ ppos.1 < q.1 := by
  unfold qualPred
  rw [hq]
  dsimp only
  rw [decide_eq_true_eq]

theorem qual_shifted (c : StepCtx ns m n P ppos) {A s : CNode}
    (hA : A ∈ walkLevels (ns ++ [n]).length n (ns ++ [n]))
    (hs : s ∈ sibsOf A (ns ++ [n])) (hq : qualPred m ppos.1 s = true) :
    s.id ∈ shiftedIdsSpec m ppos.1 (ns ++ [n]).length n (ns ++ [n]) :=
  c.shift_mem_iff.mpr ⟨A, hA, s, hs, hq, by
    unfold branchIds
    exact List.mem_cons_self _ _⟩

theorem unshifted_nonqual (c : StepCtx ns m n P ppos) {A s : CNode}
    (hA : A ∈ walkLevels (ns ++ [n]).length n (ns ++ [n]))
    (hs : s ∈ sibsOf A (ns ++ [n]))
    (hns : s.id ∉ shiftedIdsSpec m ppos.1 (ns ++ [n]).length n (ns ++ [n])) :
    qualPred m ppos.1 s = false := by
  cases hq : qualPred m ppos.1 s with
  | true => exact absurd (c.qual_shifted hA hs hq) hns
  | false => rfl

/-- A later sibling of any node on `P`'s upward path (P included) lies
strictly right of `P`'s column and is displaced. -/
theorem later_sib_shifted (c : StepCtx ns m n P ppos) {u v : CNode}
    (hu : u ∈ ns) (hv : v ∈ ns)
    (hupath : u = P ∨ u ∈ walkLevels ns.length P ns)
    (hpar_eq : v.parentId = u.parentId) (hvne : v ≠ u)
    (hts_uv : u.timestamp < v.timestamp)
    {q : Pos} (hq : mapGet m v.id = some q) :
    ppos.1 < q.1 ∧
      v.id ∈ shiftedIdsSpec m ppos.1 (ns ++ [n]).length n (ns ++ [n]) := by
  have huCH : u ∈ walkLevels (ns ++ [n]).length n (ns ++ [n]) := by
    rw [c.chain_n]
    rcases hupath with rfl | hr
    · exact List.mem_cons_self _ _
    · exact List.mem_cons_of_mem _ hr
  have hvs : v ∈ sibsOf u (ns ++ [n]) := mem_sibsOf.mpr
    ⟨List.mem_append_left _ hv, hpar_eq, ids_ne c.hnd hv hu hvne⟩
  obtain ⟨pid, hupar⟩ := c.sib_parent_some (walkLevels_mem huCH) hvs
  have hvpar : v.parentId = some pid := by rw [hpar_eq, hupar]
  have hP_in_u : P = u ∨ u ∈ walkLevels ns.length P ns :=
    hupath.imp Eq.symm (fun h => h)
  have hxPv : ppos.1 < q.1 := c.hG.sibsep u hu v hv pid hupar hvpar hts_uv
    P c.hP hP_in_u ppos q c.hppos hq
  exact ⟨hxPv, c.qual_shifted huCH hvs ((c.qual_iff hq).mpr hxPv)⟩

/-- A displaced node can never sit in an earlier sibling's branch while the
later sibling itself stays in place. -/
theorem shifted_vs_unshifted_sib (c : StepCtx ns m n P ppos) {u v z : CNode}
    (hu : u ∈ ns) (hv : v ∈ ns) (hz : z ∈ ns)
    {pid : String} (hupar : u.parentId = some pid)
    (hvpar : v.parentId = some pid)
    (hts_uv : u.timestamp < v.timestamp)
    (hzu : z = u ∨ u ∈ walkLevels ns.length z ns)
    (hSz : z.id ∈ shiftedIdsSpec m ppos.1 (ns ++ [n]).length n (ns ++ [n]))
    (hSv : v.id ∉ shiftedIdsSpec m ppos.1 (ns ++ [n]).length n (ns ++ [n])) :
    False := by
  have hzN : z ∈ ns ++ [n] := List.mem_append_left _ hz
  have hvN : v ∈ ns ++ [n] := List.mem_append_left _ hv
  have huN : u ∈ ns ++ [n] := List.mem_append_left _ hu
  rcases c.shift_mem_iff.mp hSz with ⟨A, hA, s, hs, hqs, hid⟩
  have hsmem := (mem_sibsOf.mp hs).1
  have hsz := (branch_mem_iff c.hnd' c.hpo' hzN hsmem).mp hid
  have hzuN : z = u ∨ u ∈ walkLevels (ns ++ [n]).length z (ns ++ [n]) := by
    rcases hzu with rfl | h
    · exact Or.inl rfl
    · exact Or.inr (by rw [c.chain_eq hz]; exact h)
  have hvneu : v ≠ u := by
    intro hh
    rw [hh] at hts_uv
    omega
  rcases path_comparable c.hpo' hzN (hsz.imp Eq.symm (fun h => h))
      (hzuN.imp Eq.symm (fun h => h)) with heq | hlt | hgt
  · -- the qualifying sibling is u itself
    obtain ⟨qv, hqv⟩ := c.hG.placed v hv
    obtain ⟨qu, hqu⟩ := c.hG.placed u hu
    have hxu : ppos.1 < qu.1 := (c.qual_iff hqu).mp (heq ▸ hqs)
    have huv : qu.1 < qv.1 := c.hG.sibsep u hu v hv pid hupar hvpar hts_uv
      u hu (Or.inl rfl) qu qv hqu hqv
    by_cases hvA : v = A
    · -- v is the walk ancestor itself: it sits at or left of P's column
      have hAin : A = P ∨ A ∈ walkLevels ns.length P ns := by
        have := hA
        rw [c.chain_n] at this
        exact List.mem_cons.mp this
      have hvle : qv.1 ≤ ppos.1 := by
        refine xmono_path c.hG c.hpo _ P c.hP (Nat.le_refl _) v ?_ ppos qv
          c.hppos hqv
        rw [hvA]
        exact hAin
      omega
    · have hvsib : v ∈ sibsOf A (ns ++ [n]) := by
        refine mem_sibsOf.mpr ⟨hvN, ?_, ?_⟩
        · rw [hvpar, ← hupar]
          exact heq ▸ (mem_sibsOf.mp hs).2.1
        · exact ids_ne c.hnd' hvN (walkLevels_mem hA) hvA
      have hnq := c.unshifted_nonqual hA hvsib hSv
      have hvle : qv.1 ≤ ppos.1 := by
        by_contra hcon
        rw [(c.qual_iff hqv).mpr (by omega)] at hnq
        cases hnq
      omega
  · -- the qualifying sibling is an ancestor of u, hence of v too
    obtain ⟨w, hwfind⟩ := c.hclosed u hu pid hupar
    have hwfind' := c.find_eq hwfind
    have hchu : walkLevels (ns ++ [n]).length u (ns ++ [n]) =
        w :: walkLevels (ns ++ [n]).length w (ns ++ [n]) :=
      chain_unfold c.hpo' huN hupar hwfind'
    have hchv : walkLevels (ns ++ [n]).length v (ns ++ [n]) =
        w :: walkLevels (ns ++ [n]).length w (ns ++ [n]) :=
      chain_unfold c.hpo' hvN hvpar hwfind'
    have hsv : s ∈ walkLevels (ns ++ [n]).length v (ns ++ [n]) := by
      rw [hchv]
      rw [hchu] at hlt
      exact hlt
    exact hSv (c.shift_mem_iff.mpr ⟨A, hA, s, hs, hqs,
      (branch_mem_iff c.hnd' c.hpo' hvN hsmem).mpr (Or.inr hsv)⟩)
  · -- u is a strict ancestor of the qualifying sibling: u lies on P's path
    have huCH : u ∈ walkLevels (ns ++ [n]).length n (ns ++ [n]) := by
      obtain ⟨pidA, hApar⟩ := c.sib_parent_some (walkLevels_mem hA) hs
      rw [sib_chain_eq c.hpo' c.hclosed' (walkLevels_mem hA) hs hApar] at hgt
      exact chain_trans' c.hpo' c.hnmem' hA hgt
    have hupath : u = P ∨ u ∈ walkLevels ns.length P ns := by
      have := huCH
      rw [c.chain_n] at this
      exact List.mem_cons.mp this
    obtain ⟨qv, hqv⟩ := c.hG.placed v hv
    exact hSv (c.later_sib_shifted hu hv hupath (by rw [hvpar, hupar])
      hvneu hts_uv hqv).2

/-! #### The rightmost-descendant scan of `P` over the extended snapshot -/

theorem P_branch_le (c : StepCtx ns m n P ppos) {z : CNode} (hz : z ∈ ns)
    (hpath : z = P ∨ P ∈ walkLevels ns.length z ns)
    {p : Pos} (hp : mapGet m z.id = some p) :
    p.1 ≤ getRightmostDescendantX P.id (ns ++ [n]) m := by
  rcases hpath with rfl | hch
  · rw [c.hppos] at hp
    rw [Option.some_inj.mp hp] at *
    exact rmx_ge_self c.hppos
  · have hchN : P ∈ walkLevels (ns ++ [n]).length z (ns ++ [n]) := by
      rw [c.chain_eq hz]
      exact hch
    have hdesc : z.id ∈ getAllDescendants P.id (ns ++ [n]) :=
      chain_to_desc _ z P (List.mem_append_left _ hz) hchN
    exact rmx_ge_desc hdesc hp

theorem P_branch_unshifted (c : StepCtx ns m n P ppos) {z : CNode}
    (hz : z ∈ ns) (hpath : z = P ∨ P ∈ walkLevels ns.length z ns) :
    z.id ∉ shiftedIdsSpec m ppos.1 (ns ++ [n]).length n (ns ++ [n]) := by
  refine c.P_side_unshifted (List.mem_append_left _ hz) ?_
  rcases hpath with rfl | hch
  · exact Or.inl rfl
  · exact Or.inr (Or.inl (by rw [c.chain_eq hz]; exact hch))

theorem rmx_achiever_old (c : StepCtx ns m n P ppos) :
    ∃ y ∈ ns, (y = P ∨ P ∈ walkLevels ns.length y ns) ∧
      ∃ q, mapGet m y.id = some q ∧
        getRightmostDescendantX P.id (ns ++ [n]) m = q.1 := by
  rcases @rmx_achieved P.id (ns ++ [n]) m ppos c.hppos with
    h | ⟨id, hidmem, q, hq, heq⟩
  · exact ⟨P, c.hP, Or.inl rfl, ppos, c.hppos, h⟩
  · obtain ⟨y, hymem, hyid⟩ := desc_ids_mem _ _ _ hidmem
    subst hyid
    have hchain : P ∈ walkLevels (ns ++ [n]).length y (ns ++ [n]) :=
      desc_to_chain c.hnd' c.hpo' _ P y c.hPmem' hymem hidmem
    have hyold : y ∈ ns := by
      rcases List.mem_append.mp hymem with h' | h'
      · exact h'
      · rcases List.mem_singleton.mp h' with rfl
        rw [c.hnget] at hq
        cases hq
    exact ⟨y, hyold, Or.inr (by rw [← c.chain_eq hyold]; exact hchain),
      q, hq, heq⟩

theorem rmx_lower (c : StepCtx ns m n P ppos)
    (hCne : 0 < (ns.filter (fun x => x.parentId = some P.id)).length) :
    ppos.1 + (((ns.filter (fun x => x.parentId = some P.id)).length - 1 : Nat) : Int) *
        horizontalSpacing ≤
      getRightmostDescendantX P.id (ns ++ [n]) m := by
  have hold := c.hG.rmspread P c.hP ppos c.hppos hCne
  rcases @rmx_achieved P.id ns m ppos c.hppos with
    h | ⟨id, hidmem, q, hq, heq⟩
  · rw [h] at hold
    exact le_trans hold (rmx_ge_self c.hppos)
  · rw [heq] at hold
    obtain ⟨y, hymem, hyid⟩ := desc_ids_mem _ _ _ hidmem
    subst hyid
    have hchain : P ∈ walkLevels ns.length y ns :=
      desc_to_chain c.hnd c.hpo _ P y c.hP hymem hidmem
    refine le_trans hold (c.P_branch_le hymem (Or.inr hchain) hq)

/-! #### Plumbing for the restored store -/

theorem mem_split (c : StepCtx ns m n P ppos) {z : CNode}
    (hz : z ∈ ns ++ [n]) : z ∈ ns ∨ z = n := by
  rcases List.mem_append.mp hz with h | h
  · exact Or.inl h
  · exact Or.inr (List.mem_singleton.mp h)

theorem get_after_set_old (c : StepCtx ns m n P ppos) {z : CNode}
    (hz : z ∈ ns) (v : Pos) (m2 : PosMap) :
    mapGet (mapSet m2 n.id v) z.id = mapGet m2 z.id :=
  mapGet_mapSet_ne m2 n.id z.id v (c.hfresh z hz)

theorem find_old (c : StepCtx ns m n P ppos) {u : CNode} (hu : u ∈ ns)
    {pid : String} (hpar : u.parentId = some pid) {w : CNode}
    (hfind' : (ns ++ [n]).find? (fun x => x.id = pid) = some w) :
    ns.find? (fun x => x.id = pid) = some w ∧ w ∈ ns := by
  obtain ⟨w0, hw0⟩ := c.hclosed u hu pid hpar
  have heq : w0 = w := Option.some_inj.mp ((c.find_eq hw0).symm.trans hfind')
  subst heq
  exact ⟨hw0, List.mem_of_find?_eq_some hw0⟩

theorem cand_y (c : StepCtx ns m n P ppos) :
    ppos.2 + verticalSpacing =
      ((depthOf P ns + 1 : Nat) : Int) * verticalSpacing := by
  have := c.hG.ydepth P c.hP ppos c.hppos
  unfold verticalSpacing at *
  push_cast
  omega

theorem rmx_achiever_gen (c : StepCtx ns m n P ppos) {w : CNode}
    (hw : w ∈ ns) {q : Pos} (hq : mapGet m w.id = some q) :
    ∃ y ∈ ns, (y = w ∨ w ∈ walkLevels ns.length y ns) ∧
      ∃ r, mapGet m y.id = some r ∧
        getRightmostDescendantX w.id ns m = r.1 := by
  rcases @rmx_achieved w.id ns m q hq with
    h | ⟨id, hidmem, r, hr, heq⟩
  · exact ⟨w, hw, Or.inl rfl, q, hq, h⟩
  · obtain ⟨y, hymem, hyid⟩ := desc_ids_mem _ _ _ hidmem
    subst hyid
    exact ⟨y, hymem,
      Or.inr (desc_to_chain c.hnd c.hpo _ w y hw hymem hidmem), r, hr, heq⟩

/-- Descendant membership carried over to the extended snapshot. -/
theorem desc_carry (c : StepCtx ns m n P ppos) {w y : CNode} (hy : y ∈ ns)
    (hpath : y = w ∨ w ∈ walkLevels ns.length y ns) (hw : w ∈ ns) :
    y.id ∈ branchIds w.id (ns ++ [n]) := by
  refine (branch_mem_iff c.hnd' c.hpo' (List.mem_append_left _ hy)
    (List.mem_append_left _ hw)).mpr ?_
  rcases hpath with rfl | hch
  · exact Or.inl rfl
  · exact Or.inr (by rw [c.chain_eq hy]; exact hch)

/-- The rightmost scan never decreases when the store only moves right and
the snapshot gains a node. -/
theorem rmx_persist (c : StepCtx ns m n P ppos) {w : CNode} (hw : w ∈ ns)
    {m2 : PosMap}
    (hkeep : ∀ y ∈ ns, ∀ r, mapGet m y.id = some r →
      ∃ r2, mapGet m2 y.id = some r2 ∧ r.1 ≤ r2.1) :
    getRightmostDescendantX w.id ns m ≤
      getRightmostDescendantX w.id (ns ++ [n]) m2 := by
  obtain ⟨q, hq⟩ := c.hG.placed w hw
  obtain ⟨y, hymem, hpath, r, hr, heq⟩ := c.rmx_achiever_gen hw hq
  rw [heq]
  obtain ⟨r2, hr2, hle⟩ := hkeep y hymem r hr
  rcases hpath with rfl | hch
  · exact le_trans hle (rmx_ge_self hr2)
  · have hdesc := c.desc_carry hymem (Or.inr hch) hw
    unfold branchIds at hdesc
    rcases List.mem_cons.mp hdesc with hid | hdesc'
    · -- y carries w's id: then y = w by id injectivity
      have : y = w := id_inj c.hnd hymem hw hid
      subst this
      exact le_trans hle (rmx_ge_self hr2)
    · exact le_trans hle (rmx_ge_desc hdesc' hr2)

/-! #### A first child's candidate collides with nothing -/

theorem firstchild_no_collision (c : StepCtx ns m n P ppos)
    (hC : ns.filter (fun x => x.parentId = some P.id) = []) :
    ∀ id, id ≠ n.id → ∀ p, mapGet m id = some p →
      wouldOverlap (ppos.1, ppos.2 + verticalSpacing) p = false := by
  intro id _ p hp
  obtain ⟨z, hz, hzid⟩ := c.hG.dom id p hp
  subst hzid
  by_cases hd : depthOf z ns = depthOf P ns + 1
  · cases hzpar : z.parentId with
    | none =>
      rw [depth_root hzpar] at hd
      exact absurd hd (by omega)
    | some zpid =>
      obtain ⟨w, hwfind⟩ := c.hclosed z hz zpid hzpar
      have hwmem : w ∈ ns := List.mem_of_find?_eq_some hwfind
      have hdz : depthOf z ns = depthOf w ns + 1 :=
        depth_child c.hpo hz hzpar hwfind
      by_cases hwP : w = P
      · exfalso
        have hzfil : z ∈ ns.filter (fun x => x.parentId = some P.id) := by
          refine List.mem_filter.mpr ⟨hz, ?_⟩
          rw [decide_eq_true_eq, hzpar]
          have hwid : w.id = zpid := by
            have := List.find?_some hwfind
            simpa using this
          rw [← hwid, hwP]
        rw [hC] at hzfil
        cases hzfil
      · have hPz : P ∉ walkLevels ns.length z ns := by
          intro hcontra
          rw [chain_unfold c.hpo hz hzpar hwfind] at hcontra
          rcases List.mem_cons.mp hcontra with heqPw | hc2
          · exact hwP heqPw.symm
          · have := chain_depth_lt' c.hpo hwmem hc2
            omega
        have hzP : z ∉ walkLevels ns.length P ns := by
          intro hcontra
          have := chain_depth_lt' c.hpo c.hP hcontra
          omega
        have hzneP : z ≠ P := by
          intro hh
          rw [hh] at hd
          omega
        have hxne : p.1 ≠ ppos.1 :=
          sep_x c.hG c.hnd c.hpo c.hclosed c.hroot c.hts hz c.hP hzneP hzP hPz
            hp c.hppos
        obtain ⟨k1, hk1⟩ := c.hG.xmul z hz p hp
        obtain ⟨k2, hk2⟩ := c.hG.xmul P c.hP ppos c.hppos
        have hkne : k2 ≠ k1 := by
          intro hh
          exact hxne (by rw [hk1, hk2, hh])
        exact wouldOverlap_false_x _ _ (x_sep_mul k2 k1 hkne ppos.1 p.1 hk2 hk1)
  · exact wouldOverlap_false_y _ _
      (y_sep_depth (depthOf P ns + 1) (depthOf z ns) (fun hh => hd hh.symm)
        _ _ c.cand_y (c.hG.ydepth z hz p hp))

end StepCtx

theorem x_grid_sep {x1 x2 : Int} (k1 k2 : Nat)
    (h1 : x1 = (k1 : Int) * horizontalSpacing)
    (h2 : x2 = (k2 : Int) * horizontalSpacing) (hne : x1 ≠ x2) :
    430 ≤ intAbs (x1 - x2) := by
  have hk : k1 ≠ k2 := fun hh => hne (by rw [h1, h2, hh])
  exact x_sep_mul k1 k2 hk x1 x2 h1 h2

theorem shift_mul {x : Int} (k : Nat) (h : x = (k : Int) * horizontalSpacing) :
    x + horizontalSpacing = ((k + 1 : Nat) : Int) * horizontalSpacing := by
  push_cast
  rw [h]
  ring

theorem get_set_self_inv (m2 : PosMap) (k : String) {p v : Pos}
    (hp : mapGet (mapSet m2 k v) k = some p) : p = v := by
  rw [mapGet_mapSet_self] at hp
  exact (Option.some_inj.mp hp).symm

theorem resolveCollisions_noop_any (fuel : Nat) (selfId : String) (desired : Pos)
    (ns : List CNode) (m : PosMap)
    (h : ∀ id, id ≠ selfId → ∀ p, mapGet m id = some p →
      wouldOverlap desired p = false) :
    resolveCollisions fuel selfId desired ns m = m := by
  cases fuel with
  | zero => rfl
  | succ f => exact resolveCollisions_noop f selfId desired ns m h

namespace StepCtx

variable {ns : List CNode} {m : PosMap} {n P : CNode} {ppos : Pos}

/-- Inserting a first child locks it directly below its parent and restores
the invariant bundle. -/
theorem good_first (c : StepCtx ns m n P ppos)
    (hC : ns.filter (fun x => x.parentId = some P.id) = []) :
    GoodState (ns ++ [n]) (layoutStore ⟨ns ++ [n], none⟩ m) := by
  have hidx0 : ((ns ++ [n]).filter (fun x => x.parentId = some P.id)).findIdx
      (fun x => x.id = n.id) = 0 := by
    rw [c.idx_n, hC]
    rfl
  have hmap : layoutStore ⟨ns ++ [n], none⟩ m =
      mapSet m n.id (ppos.1, ppos.2 + verticalSpacing) := by
    rw [c.pass_eq]
    unfold placeOne
    rw [c.hnhas]
    simp only [Bool.false_eq_true, if_false]
    rw [c.hnpar]
    dsimp only
    rw [c.hppos]
    dsimp only
    rw [if_pos hidx0]
    rw [resolveCollisions_noop_any 50 n.id _ (ns ++ [n]) m
      (c.firstchild_no_collision hC)]
  rw [hmap]
  refine ⟨?_, ?_, ?_, ?_, ?_, ?_, ?_, ?_⟩
  · -- placed
    intro u hu
    rcases c.mem_split hu with h | rfl
    · obtain ⟨p, hp⟩ := c.hG.placed u h
      exact ⟨p, by rw [c.get_after_set_old h _ m]; exact hp⟩
    · exact ⟨_, mapGet_mapSet_self _ _ _⟩
  · -- dom
    intro id p hp
    by_cases hid : id = n.id
    · subst hid
      exact ⟨n, c.hnmem', rfl⟩
    · rw [mapGet_mapSet_ne m n.id id _ hid] at hp
      obtain ⟨u, hu, huid⟩ := c.hG.dom id p hp
      exact ⟨u, List.mem_append_left _ hu, huid⟩
  · -- ydepth
    intro u hu p hp
    rcases c.mem_split hu with h | rfl
    · rw [c.get_after_set_old h _ m] at hp
      rw [c.depth_eq h]
      exact c.hG.ydepth u h p hp
    · rw [get_set_self_inv m _ hp, c.depth_n]
      exact c.cand_y
  · -- xmul
    intro u hu p hp
    rcases c.mem_split hu with h | rfl
    · rw [c.get_after_set_old h _ m] at hp
      exact c.hG.xmul u h p hp
    · obtain ⟨k, hk⟩ := c.hG.xmul P c.hP ppos c.hppos
      rw [get_set_self_inv m _ hp]
      exact ⟨k, hk⟩
  · -- xmono
    intro u hu pid hpar w hfind p q hp hq
    rcases c.mem_split hu with h | rfl
    · obtain ⟨hfindns, hwns⟩ := c.find_old h hpar hfind
      rw [c.get_after_set_old h _ m] at hp
      rw [c.get_after_set_old hwns _ m] at hq
      exact c.hG.xmono u h pid hpar w hfindns p q hp hq
    · have hpid : pid = P.id := (Option.some_inj.mp (c.hnpar.symm.trans hpar)).symm
      subst hpid
      have hwP : w = P := (Option.some_inj.mp (c.hfindP.symm.trans hfind)).symm
      subst hwP
      rw [c.get_after_set_old c.hP _ m] at hq
      have hqp : q = ppos := Option.some_inj.mp (c.hppos.symm.trans hq).symm
      rw [get_set_self_inv m _ hp, hqp]
  · -- firstchild
    intro u hu pid hpar hidx w hfind p q hp hq
    rcases c.mem_split hu with h | rfl
    · by_cases hpidP : pid = P.id
      · exfalso
        subst hpidP
        have hmemfil : u ∈ ns.filter (fun x => x.parentId = some P.id) :=
          List.mem_filter.mpr ⟨h, by rw [decide_eq_true_eq]; exact hpar⟩
        rw [hC] at hmemfil
        cases hmemfil
      · rw [c.children_other hpidP] at hidx
        obtain ⟨hfindns, hwns⟩ := c.find_old h hpar hfind
        rw [c.get_after_set_old h _ m] at hp
        rw [c.get_after_set_old hwns _ m] at hq
        exact c.hG.firstchild u h pid hpar hidx w hfindns p q hp hq
    · have hpid : pid = P.id := (Option.some_inj.mp (c.hnpar.symm.trans hpar)).symm
      subst hpid
      have hwP : w = P := (Option.some_inj.mp (c.hfindP.symm.trans hfind)).symm
      subst hwP
      rw [c.get_after_set_old c.hP _ m] at hq
      have hqp : q = ppos := Option.some_inj.mp (c.hppos.symm.trans hq).symm
      rw [get_set_self_inv m _ hp, hqp]
  · -- sibsep
    intro u hu v hv pid hupar hvpar htsuv z hzmem hzu p q hp hq
    rcases c.mem_split hv with hvold | rfl
    · rcases c.mem_split hu with huold | rfl
      · rcases c.mem_split hzmem with hzold | rfl
        · have hzu_ns : z = u ∨ u ∈ walkLevels ns.length z ns := by
            rcases hzu with h1 | hh
            · exact Or.inl h1
            · exact Or.inr (by rw [← c.chain_eq hzold]; exact hh)
          rw [c.get_after_set_old hzold _ m] at hp
          rw [c.get_after_set_old hvold _ m] at hq
          exact c.hG.sibsep u huold v hvold pid hupar hvpar htsuv z hzold
            hzu_ns p q hp hq
        · have hu_ch : u ∈ walkLevels (ns ++ [z]).length z (ns ++ [z]) := by
            rcases hzu with heq | hh
            · exact absurd (congrArg CNode.id heq).symm (c.hfresh u huold)
            · exact hh
          have hupath : u = P ∨ u ∈ walkLevels ns.length P ns := by
            rw [c.chain_n] at hu_ch
            exact List.mem_cons.mp hu_ch
          have hvneu : v ≠ u := by
            intro hh
            rw [hh] at htsuv
            omega
          rw [c.get_after_set_old hvold _ m] at hq
          have hlt := (c.later_sib_shifted huold hvold hupath
            (by rw [hvpar, hupar]) hvneu htsuv hq).1
          rw [get_set_self_inv m _ hp]
          exact hlt
      · exact absurd htsuv (by have := c.htsn v hvold; omega)
    · rcases c.mem_split hu with huold | rfl
      · have hpid : pid = P.id := (Option.some_inj.mp (c.hnpar.symm.trans hvpar)).symm
        subst hpid
        exfalso
        have hmemfil : u ∈ ns.filter (fun x => x.parentId = some P.id) :=
          List.mem_filter.mpr ⟨huold, by rw [decide_eq_true_eq]; exact hupar⟩
        rw [hC] at hmemfil
        cases hmemfil
      · exact absurd htsuv (lt_irrefl _)
  · -- rmspread
    intro w hw q hq hcount
    rcases c.mem_split hw with hwold | rfl
    · by_cases hwP : w = P
      · subst hwP
        have hcnt : ((ns ++ [n]).filter
            (fun x => x.parentId = some w.id)).length = 1 := by
          rw [c.childrenP, hC]
          rfl
        rw [hcnt]
        rw [c.get_after_set_old c.hP _ m] at hq
        have h1 : mapGet (mapSet m n.id (ppos.1, ppos.2 + verticalSpacing)) w.id =
            some q := by
          rw [c.get_after_set_old c.hP]
          exact hq
        have h2 := @rmx_ge_self w.id (ns ++ [n]) _ _ h1
        have h3 : (((1 - 1 : Nat)) : Int) * horizontalSpacing = 0 := rfl
        rw [h3, add_zero]
        exact h2
      · have hwidP : w.id ≠ P.id := fun hh => hwP (id_inj c.hnd hwold c.hP hh)
        rw [c.children_other hwidP] at hcount ⊢
        rw [c.get_after_set_old hwold _ m] at hq
        have hold := c.hG.rmspread w hwold q hq hcount
        refine le_trans hold (c.rmx_persist hwold ?_)
        intro y hy r hr
        exact ⟨r, by rw [c.get_after_set_old hy _ m]; exact hr, le_refl r.1⟩
    · rw [c.children_n] at hcount
      exact absurd hcount (by simp)

/-! #### A branch candidate collides with nothing after displacement -/

theorem branch_no_collision (c : StepCtx ns m n P ppos) :
    ∀ id, id ≠ n.id → ∀ p,
      mapGet (shiftAllAncestorSiblings n.id (ns ++ [n]) m) id = some p →
      wouldOverlap
        (getRightmostDescendantX P.id (ns ++ [n]) m + horizontalSpacing,
          ppos.2 + verticalSpacing) p = false := by
  intro id _ p hp
  have hA := c.step_agrees
  obtain ⟨q0, hq0, hpq⟩ := agrees_get_rev hA hp
  obtain ⟨z, hz, hzid⟩ := c.hG.dom id q0 hq0
  subst hzid
  have hy2 : p.2 = q0.2 := by
    rw [hpq]
    by_cases hS : z.id ∈ shiftedIdsSpec m ppos.1 (ns ++ [n]).length n (ns ++ [n])
    · rw [if_pos hS]
    · rw [if_neg hS]
  by_cases hd : depthOf z ns = depthOf P ns + 1
  · -- same level as the candidate: columns stay a full grid step apart
    cases hzpar : z.parentId with
    | none =>
      rw [depth_root hzpar] at hd
      exact absurd hd (by omega)
    | some zpid =>
      obtain ⟨w, hwfind⟩ := c.hclosed z hz zpid hzpar
      have hwmem : w ∈ ns := List.mem_of_find?_eq_some hwfind
      have hdz : depthOf z ns = depthOf w ns + 1 :=
        depth_child c.hpo hz hzpar hwfind
      obtain ⟨kz, hkz⟩ := c.hG.xmul z hz q0 hq0
      obtain ⟨y, hymem, hypath, r, hr, hrEq⟩ := c.rmx_achiever_old
      obtain ⟨ky, hky⟩ := c.hG.xmul y hymem r hr
      have hcand_mul : getRightmostDescendantX P.id (ns ++ [n]) m +
          horizontalSpacing = ((ky + 1 : Nat) : Int) * horizontalSpacing := by
        rw [hrEq]
        exact shift_mul ky hky
      by_cases hwP : w = P
      · -- an old child of P: fixed in place, at or left of the scan maximum
        have hPchz : P ∈ walkLevels ns.length z ns := by
          rw [chain_unfold c.hpo hz hzpar hwfind, hwP]
          exact List.mem_cons_self _ _
        have hunsh := c.P_branch_unshifted hz (Or.inr hPchz)
        have hle := c.P_branch_le hz (Or.inr hPchz) hq0
        have hp1 : p.1 = q0.1 := by rw [hpq, if_neg hunsh]
        refine wouldOverlap_false_x _ _ (x_grid_sep (ky + 1) kz hcand_mul
          (by rw [hp1]; exact hkz) ?_)
        intro hcontra
        rw [hp1] at hcontra
        unfold horizontalSpacing at hcontra
        omega
      · -- outside P's subtree: separated at the siblings where paths diverge
        have hPz : P ∉ walkLevels ns.length z ns := by
          intro hcontra
          rw [chain_unfold c.hpo hz hzpar hwfind] at hcontra
          rcases List.mem_cons.mp hcontra with heqPw | hc2
          · exact hwP heqPw.symm
          · have := chain_depth_lt' c.hpo hwmem hc2
            omega
        have hzP : z ∉ walkLevels ns.length P ns := by
          intro hcontra
          have := chain_depth_lt' c.hpo c.hP hcontra
          omega
        have hzneP : z ≠ P := by
          intro hh
          rw [hh] at hd
          omega
        obtain ⟨pid2, a, b, hamem, hbmem, hab, hapar, hbpar, hau, hbv⟩ :=
          lca_sep c.hnd c.hpo c.hclosed c.hroot _ z P hz c.hP (Nat.le_refl _)
            hzneP hzP hPz
        obtain ⟨pa, hpa⟩ := c.hG.placed a hamem
        obtain ⟨pb, hpb⟩ := c.hG.placed b hbmem
        rcases Nat.lt_trichotomy a.timestamp b.timestamp with hlt | heqt | hgt
        · -- z's branch diverges first: everything stays left of P's column
          have h1 : q0.1 < pb.1 := c.hG.sibsep a hamem b hbmem pid2 hapar
            hbpar hlt z hz (hau.imp Eq.symm (fun h => h)) q0 pb hq0 hpb
          have h2 : pb.1 ≤ ppos.1 := xmono_path c.hG c.hpo _ P c.hP
            (Nat.le_refl _) b hbv ppos pb c.hppos hpb
          have h3 : ppos.1 ≤ getRightmostDescendantX P.id (ns ++ [n]) m :=
            rmx_ge_self c.hppos
          have hp1 : p.1 = q0.1 ∨ p.1 = q0.1 + horizontalSpacing := by
            rw [hpq]
            by_cases hS : z.id ∈ shiftedIdsSpec m ppos.1 (ns ++ [n]).length n
                (ns ++ [n])
            · rw [if_pos hS]
              exact Or.inr rfl
            · rw [if_neg hS]
              exact Or.inl rfl
          have hpmul : ∃ kp : Nat, p.1 = (kp : Int) * horizontalSpacing := by
            rcases hp1 with h | h
            · exact ⟨kz, by rw [h]; exact hkz⟩
            · exact ⟨kz + 1, by rw [h]; exact shift_mul kz hkz⟩
          obtain ⟨kp, hkp⟩ := hpmul
          refine wouldOverlap_false_x _ _ (x_grid_sep (ky + 1) kp hcand_mul
            hkp ?_)
          intro hcontra
          -- p sits strictly left of the candidate
          rcases hp1 with h | h <;> rw [h] at hcontra <;>
            unfold horizontalSpacing at hcontra <;> omega
        · exact absurd (ts_inj c.hts hamem hbmem heqt) hab
        · -- z's branch diverges later: the whole branch is displaced
          have h1 : ppos.1 < pa.1 := c.hG.sibsep b hbmem a hamem pid2 hbpar
            hapar hgt P c.hP (hbv.imp Eq.symm (fun h => h)) ppos pa c.hppos hpa
          have h2 : pa.1 ≤ q0.1 := xmono_path c.hG c.hpo _ z hz (Nat.le_refl _)
            a hau q0 pa hq0 hpa
          have hbCH : b ∈ walkLevels (ns ++ [n]).length n (ns ++ [n]) := by
            rw [c.chain_n]
            rcases hbv with rfl | hh
            · exact List.mem_cons_self _ _
            · exact List.mem_cons_of_mem _ hh
          have hasib : a ∈ sibsOf b (ns ++ [n]) := mem_sibsOf.mpr
            ⟨List.mem_append_left _ hamem, by rw [hapar, hbpar],
              ids_ne c.hnd hamem hbmem hab⟩
          have hqa : qualPred m ppos.1 a = true := (c.qual_iff hpa).mpr h1
          have hzS : z.id ∈ shiftedIdsSpec m ppos.1 (ns ++ [n]).length n
              (ns ++ [n]) := c.shift_mem_iff.mpr ⟨b, hbCH, a, hasib, hqa,
            c.desc_carry hz (hau.imp Eq.symm (fun h => h)) hamem⟩
          have hp1 : p.1 = q0.1 + horizontalSpacing := by rw [hpq, if_pos hzS]
          -- the shifted column cannot land on the shifted scan maximum
          have hq0r : q0.1 ≠ r.1 := by
            rcases hypath with rfl | hyP
            · have hrp : ppos = r := Option.some_inj.mp (c.hppos.symm.trans hr)
              intro heq
              rw [← hrp] at heq
              omega
            · -- the achiever sits strictly inside P's subtree: incomparable to z
              have hzny : z ≠ y := by
                rintro rfl
                exact hPz hyP
              have hycz : y ∉ walkLevels ns.length z ns := by
                intro hcontra
                have hd1 := chain_depth_lt' c.hpo hz hcontra
                have hd2 := chain_depth_lt' c.hpo hymem hyP
                omega
              have hzcy : z ∉ walkLevels ns.length y ns := by
                intro hcontra
                rcases chain_linear' c.hpo hymem hcontra hyP with h | h | h
                · exact hzneP h
                · exact hzP h
                · exact hPz h
              exact sep_x c.hG c.hnd c.hpo c.hclosed c.hroot c.hts hz hymem
                hzny hzcy hycz hq0 hr
          refine wouldOverlap_false_x _ _ (x_grid_sep (ky + 1) (kz + 1)
            hcand_mul (by rw [hp1]; exact shift_mul kz hkz) ?_)
          intro hcontra
          rw [hp1, hrEq] at hcontra
          exact hq0r (by omega)
  · -- a different level: the vertical gap is a full row
    exact wouldOverlap_false_y _ _
      (y_sep_depth (depthOf P ns + 1) (depthOf z ns) (fun hh => hd hh.symm)
        _ _ c.cand_y (hy2.trans (c.hG.ydepth z hz q0 hq0)))

/-! #### Inserting a branch child restores the invariant bundle -/

theorem good_branch_restore (c : StepCtx ns m n P ppos)
    (hC : 0 < (ns.filter (fun x => x.parentId = some P.id)).length)
    {m1 : PosMap}
    (hA : AgreesShifted m
      (shiftedIdsSpec m ppos.1 (ns ++ [n]).length n (ns ++ [n])) m1) :
    GoodState (ns ++ [n])
      (mapSet m1 n.id
        (getRightmostDescendantX P.id (ns ++ [n]) m + horizontalSpacing,
          ppos.2 + verticalSpacing)) := by
  have hval : ∀ z ∈ ns, ∀ p,
      mapGet (mapSet m1 n.id
        (getRightmostDescendantX P.id (ns ++ [n]) m + horizontalSpacing,
          ppos.2 + verticalSpacing)) z.id = some p →
      ∃ q0, mapGet m z.id = some q0 ∧ p.2 = q0.2 ∧
        ((z.id ∈ shiftedIdsSpec m ppos.1 (ns ++ [n]).length n (ns ++ [n]) ∧
            p.1 = q0.1 + horizontalSpacing) ∨
          (z.id ∉ shiftedIdsSpec m ppos.1 (ns ++ [n]).length n (ns ++ [n]) ∧
            p.1 = q0.1)) := by
    intro z hz p hp
    rw [c.get_after_set_old hz _ m1] at hp
    obtain ⟨q0, hq0, hpq⟩ := agrees_get_rev hA hp
    by_cases hS : z.id ∈ shiftedIdsSpec m ppos.1 (ns ++ [n]).length n (ns ++ [n])
    · rw [if_pos hS] at hpq
      exact ⟨q0, hq0, by rw [hpq], Or.inl ⟨hS, by rw [hpq]⟩⟩
    · rw [if_neg hS] at hpq
      exact ⟨q0, hq0, by rw [hpq], Or.inr ⟨hS, by rw [hpq]⟩⟩
  have hvaln : mapGet (mapSet m1 n.id
      (getRightmostDescendantX P.id (ns ++ [n]) m + horizontalSpacing,
        ppos.2 + verticalSpacing)) n.id =
      some (getRightmostDescendantX P.id (ns ++ [n]) m + horizontalSpacing,
        ppos.2 + verticalSpacing) := mapGet_mapSet_self _ _ _
  have hPunsh : P.id ∉ shiftedIdsSpec m ppos.1 (ns ++ [n]).length n (ns ++ [n]) :=
    c.P_branch_unshifted c.hP (Or.inl rfl)
  have hvalP : mapGet (mapSet m1 n.id
      (getRightmostDescendantX P.id (ns ++ [n]) m + horizontalSpacing,
        ppos.2 + verticalSpacing)) P.id = some ppos := by
    rw [c.get_after_set_old c.hP _ m1]
    have := agrees_get_some hA c.hppos
    rw [if_neg hPunsh] at this
    exact this
  have hfindPns : ns.find? (fun x => x.id = P.id) = some P :=
    find?_id_self c.hnd c.hP
  have hrmP : ppos.1 ≤ getRightmostDescendantX P.id (ns ++ [n]) m :=
    rmx_ge_self c.hppos
  refine ⟨?_, ?_, ?_, ?_, ?_, ?_, ?_, ?_⟩
  · -- placed
    intro u hu
    rcases c.mem_split hu with h | rfl
    · obtain ⟨q0, hq0⟩ := c.hG.placed u h
      refine ⟨if u.id ∈ shiftedIdsSpec m ppos.1 (ns ++ [n]).length n (ns ++ [n])
          then (q0.1 + horizontalSpacing, q0.2) else q0, ?_⟩
      rw [c.get_after_set_old h _ m1]
      exact agrees_get_some hA hq0
    · exact ⟨_, hvaln⟩
  · -- dom
    intro id p hp
    by_cases hid : id = n.id
    · subst hid
      exact ⟨n, c.hnmem', rfl⟩
    · rw [mapGet_mapSet_ne m1 n.id id _ hid] at hp
      obtain ⟨q0, hq0, _⟩ := agrees_get_rev hA hp
      obtain ⟨u, hu, huid⟩ := c.hG.dom id q0 hq0
      exact ⟨u, List.mem_append_left _ hu, huid⟩
  · -- ydepth
    intro u hu p hp
    rcases c.mem_split hu with h | rfl
    · obtain ⟨q0, hq0, hy2, _⟩ := hval u h p hp
      rw [c.depth_eq h, hy2]
      exact c.hG.ydepth u h q0 hq0
    · rw [get_set_self_inv m1 _ hp, c.depth_n]
      exact c.cand_y
  · -- xmul
    intro u hu p hp
    rcases c.mem_split hu with h | rfl
    · obtain ⟨q0, hq0, _, hx⟩ := hval u h p hp
      obtain ⟨k, hk⟩ := c.hG.xmul u h q0 hq0
      rcases hx with ⟨_, hx1⟩ | ⟨_, hx1⟩
      · exact ⟨k + 1, by rw [hx1]; exact shift_mul k hk⟩
      · exact ⟨k, by rw [hx1]; exact hk⟩
    · obtain ⟨y, hymem, _, r, hr, hrEq⟩ := c.rmx_achiever_old
      obtain ⟨ky, hky⟩ := c.hG.xmul y hymem r hr
      rw [get_set_self_inv m1 _ hp]
      exact ⟨ky + 1, by rw [hrEq]; exact shift_mul ky hky⟩
  · -- xmono
    intro u hu pid hpar w hfind p q hp hq
    rcases c.mem_split hu with h | rfl
    · obtain ⟨hfindns, hwns⟩ := c.find_old h hpar hfind
      obtain ⟨qu0, hqu0, _, hxu⟩ := hval u h p hp
      obtain ⟨qw0, hqw0, _, hxw⟩ := hval w hwns q hq
      have hold : qw0.1 ≤ qu0.1 :=
        c.hG.xmono u h pid hpar w hfindns qu0 qw0 hqu0 hqw0
      rcases hxw with ⟨hSw, hw1⟩ | ⟨hSw, hw1⟩
      · -- parent shifted: the child's whole branch moved with it
        have hwchain : w ∈ walkLevels (ns ++ [n]).length u (ns ++ [n]) := by
          rw [chain_unfold c.hpo' (List.mem_append_left _ h) hpar
            (c.find_eq hfindns)]
          exact List.mem_cons_self _ _
        have hSu : u.id ∈ shiftedIdsSpec m ppos.1 (ns ++ [n]).length n
            (ns ++ [n]) := c.shifted_down (List.mem_append_left _ hwns)
          (List.mem_append_left _ h) hSw (Or.inr hwchain)
        rcases hxu with ⟨_, hu1⟩ | ⟨hSu', _⟩
        · rw [hw1, hu1]
          omega
        · exact absurd hSu hSu'
      · rcases hxu with ⟨_, hu1⟩ | ⟨_, hu1⟩
        · rw [hw1, hu1]
          unfold horizontalSpacing
          omega
        · rw [hw1, hu1]
          omega
    · have hpid : pid = P.id := (Option.some_inj.mp (c.hnpar.symm.trans hpar)).symm
      subst hpid
      have hwP : w = P := Option.some_inj.mp (c.hfindP.symm.trans hfind).symm
      subst hwP
      have hqp : q = ppos := Option.some_inj.mp (hvalP.symm.trans hq).symm
      rw [get_set_self_inv m1 _ hp, hqp]
      have := hrmP
      unfold horizontalSpacing
      omega
  · -- firstchild
    intro u hu pid hpar hidx w hfind p q hp hq
    rcases c.mem_split hu with h | rfl
    · by_cases hpidP : pid = P.id
      · -- u is an old child of P: its index is its old index
        subst hpidP
        have humem : u ∈ ns.filter (fun x => x.parentId = some P.id) :=
          List.mem_filter.mpr ⟨h, by rw [decide_eq_true_eq]; exact hpar⟩
        rw [c.childrenP, findIdx_append_found _ _ [n] u humem (by simp)] at hidx
        have hwP : w = P := Option.some_inj.mp (c.hfindP.symm.trans hfind).symm
        subst hwP
        obtain ⟨qu0, hqu0, _, hxu⟩ := hval u h p hp
        have hqp : q = ppos := Option.some_inj.mp (hvalP.symm.trans hq).symm
        have hold : qu0.1 = ppos.1 :=
          c.hG.firstchild u h w.id hpar hidx w hfindPns qu0 ppos hqu0 c.hppos
        -- u is never displaced: a displaced first child would qualify against
        -- its own column
        have hSu : u.id ∉ shiftedIdsSpec m ppos.1 (ns ++ [n]).length n
            (ns ++ [n]) := by
          intro hScontra
          rcases c.shift_mem_iff.mp hScontra with ⟨A, hACH, s, hs, hqs, hid⟩
          have hsmem := (mem_sibsOf.mp hs).1
          have hnc := c.sib_not_comparable_P hACH hs
          have hchu : walkLevels (ns ++ [n]).length u (ns ++ [n]) =
              w :: walkLevels (ns ++ [n]).length w (ns ++ [n]) :=
            chain_unfold c.hpo' (List.mem_append_left _ h) hpar c.hfindP
          rcases (branch_mem_iff c.hnd' c.hpo' (List.mem_append_left _ h)
              hsmem).mp hid with heq | hch
          · have := (c.qual_iff hqu0).mp (heq ▸ hqs)
            omega
          · rw [hchu] at hch
            rcases List.mem_cons.mp hch with heqw | hch'
            · exact hnc.1 heqw
            · exact hnc.2.1 (by rw [c.chain_eq c.hP] at hch' ⊢; exact hch')
        rcases hxu with ⟨hSu', _⟩ | ⟨_, hu1⟩
        · exact absurd hSu' hSu
        · rw [hu1, hqp, hold]
      · rw [c.children_other hpidP] at hidx
        obtain ⟨hfindns, hwns⟩ := c.find_old h hpar hfind
        obtain ⟨qu0, hqu0, _, hxu⟩ := hval u h p hp
        obtain ⟨qw0, hqw0, _, hxw⟩ := hval w hwns q hq
        have hold : qu0.1 = qw0.1 :=
          c.hG.firstchild u h pid hpar hidx w hfindns qu0 qw0 hqu0 hqw0
        rcases hxw with ⟨hSw, hw1⟩ | ⟨hSw, hw1⟩
        · -- parent shifted, so the first child shifted with it
          have hwchain : w ∈ walkLevels (ns ++ [n]).length u (ns ++ [n]) := by
            rw [chain_unfold c.hpo' (List.mem_append_left _ h) hpar
              (c.find_eq hfindns)]
            exact List.mem_cons_self _ _
          have hSu : u.id ∈ shiftedIdsSpec m ppos.1 (ns ++ [n]).length n
              (ns ++ [n]) := c.shifted_down (List.mem_append_left _ hwns)
            (List.mem_append_left _ h) hSw (Or.inr hwchain)
          rcases hxu with ⟨_, hu1⟩ | ⟨hSu', _⟩
          · rw [hw1, hu1, hold]
          · exact absurd hSu hSu'
        · -- parent in place: a displaced first child is impossible
          have hSu : u.id ∉ shiftedIdsSpec m ppos.1 (ns ++ [n]).length n
              (ns ++ [n]) := by
            intro hScontra
            rcases c.shift_mem_iff.mp hScontra with ⟨A, hACH, s, hs, hqs, hid⟩
            have hsmem := (mem_sibsOf.mp hs).1
            have hchu : walkLevels (ns ++ [n]).length u (ns ++ [n]) =
                w :: walkLevels (ns ++ [n]).length w (ns ++ [n]) :=
              chain_unfold c.hpo' (List.mem_append_left _ h) hpar
                (c.find_eq hfindns)
            rcases (branch_mem_iff c.hnd' c.hpo' (List.mem_append_left _ h)
                hsmem).mp hid with heq | hch
            · -- u itself qualifies: but it sits at its parent's column, which
              -- is at or left of P's column
              have hAold : A ∈ ns := by
                rcases c.mem_split (walkLevels_mem hACH) with hh | rfl
                · exact hh
                · exact absurd hACH (chain_irrefl c.hpo' c.hnmem')
              have hApar : A.parentId = some pid := by
                have h1 := (mem_sibsOf.mp hs).2.1
                rw [← heq] at h1
                rw [← h1, hpar]
              obtain ⟨pA, hpA⟩ := c.hG.placed A hAold
              have h2 : qw0.1 ≤ pA.1 :=
                c.hG.xmono A hAold pid hApar w hfindns pA qw0 hpA hqw0
              have hAin : A = P ∨ A ∈ walkLevels ns.length P ns := by
                have := hACH
                rw [c.chain_n] at this
                exact List.mem_cons.mp this
              have h3 : pA.1 ≤ ppos.1 := xmono_path c.hG c.hpo _ P c.hP
                (Nat.le_refl _) A hAin ppos pA c.hppos hpA
              have h4 := (c.qual_iff hqu0).mp (heq ▸ hqs)
              omega
            · rw [hchu] at hch
              rcases List.mem_cons.mp hch with heqw | hch'
              · exact hSw (heqw ▸ c.shift_mem_iff.mpr ⟨A, hACH, s, hs, hqs, by
                  unfold branchIds
                  exact List.mem_cons_self _ _⟩)
              · exact hSw (c.shift_mem_iff.mpr ⟨A, hACH, s, hs, hqs,
                  (branch_mem_iff c.hnd' c.hpo' (List.mem_append_left _ hwns)
                    hsmem).mpr (Or.inr hch')⟩)
          rcases hxu with ⟨hSu', _⟩ | ⟨_, hu1⟩
          · exact absurd hSu' hSu
          · rw [hu1, hw1, hold]
    · -- the fresh node is a branch child, never index zero
      exfalso
      have hpid : pid = P.id := (Option.some_inj.mp (c.hnpar.symm.trans hpar)).symm
      subst hpid
      rw [c.idx_n] at hidx
      omega
  · -- sibsep
    intro u hu v hv pid hupar hvpar htsuv z hzmem hzu p q hp hq
    rcases c.mem_split hv with hvold | rfl
    · rcases c.mem_split hu with huold | rfl
      · rcases c.mem_split hzmem with hzold | rfl
        · -- all three nodes are old
          have hzuNs : z = u ∨ u ∈ walkLevels ns.length z ns := by
            rcases hzu with h1 | hh
            · exact Or.inl h1
            · exact Or.inr (by rw [← c.chain_eq hzold]; exact hh)
          obtain ⟨qz0, hqz0, _, hxz⟩ := hval z hzold p hp
          obtain ⟨qv0, hqv0, _, hxv⟩ := hval v hvold q hq
          have hold : qz0.1 < qv0.1 := c.hG.sibsep u huold v hvold pid hupar
            hvpar htsuv z hzold hzuNs qz0 qv0 hqz0 hqv0
          rcases hxz with ⟨hSz, hz1⟩ | ⟨hSz, hz1⟩ <;>
            rcases hxv with ⟨hSv, hv1⟩ | ⟨hSv, hv1⟩
          · rw [hz1, hv1]
            omega
          · exact (c.shifted_vs_unshifted_sib huold hvold hzold hupar
              hvpar htsuv hzuNs hSz hSv).elim
          · rw [hz1, hv1]
            unfold horizontalSpacing
            omega
          · rw [hz1, hv1]
            omega
        · -- z is the freshly placed node
          have hupath : u = P ∨ u ∈ walkLevels ns.length P ns := by
            rcases hzu with heq | hh
            · exact absurd (congrArg CNode.id heq).symm (c.hfresh u huold)
            · rw [c.chain_n] at hh
              exact List.mem_cons.mp hh
          have hvneu : v ≠ u := by
            intro hh
            rw [hh] at htsuv
            omega
          obtain ⟨qv0, hqv0, _, hxv⟩ := hval v hvold q hq
          have hls := c.later_sib_shifted huold hvold hupath
            (by rw [hvpar, hupar]) hvneu htsuv hqv0
          rcases hxv with ⟨_, hv1⟩ | ⟨hSv, _⟩
          · -- v moved one step right; the candidate stays left of it
            rw [get_set_self_inv m1 _ hp, hv1]
            obtain ⟨y, hymem, hypath, r, hr, hrEq⟩ := c.rmx_achiever_old
            have hyz : y = u ∨ u ∈ walkLevels ns.length y ns := by
              rcases hypath with rfl | hyP
              · rcases hupath with rfl | hh
                · exact Or.inl rfl
                · exact Or.inr hh
              · rcases hupath with rfl | hh
                · exact Or.inr hyP
                · exact Or.inr (chain_trans' c.hpo hymem hyP hh)
            have hry : r.1 < qv0.1 := c.hG.sibsep u huold v hvold pid hupar
              hvpar htsuv y hymem hyz r qv0 hr hqv0
            rw [hrEq]
            omega
          · exact absurd hls.2 hSv
      · exact absurd htsuv (by have := c.htsn v hvold; omega)
    · rcases c.mem_split hu with huold | rfl
      · -- the fresh node is the later sibling: its column clears the whole
        -- subtree of P, where every earlier sibling's branch lives
        have hpid : pid = P.id := (Option.some_inj.mp (c.hnpar.symm.trans hvpar)).symm
        subst hpid
        rcases c.mem_split hzmem with hzold | rfl
        · have hzuNs : z = u ∨ u ∈ walkLevels ns.length z ns := by
            rcases hzu with h1 | hh
            · exact Or.inl h1
            · exact Or.inr (by rw [← c.chain_eq hzold]; exact hh)
          have hPz : P ∈ walkLevels ns.length z ns := by
            have hPu : P ∈ walkLevels ns.length u ns := by
              rw [chain_unfold c.hpo huold hupar hfindPns]
              exact List.mem_cons_self _ _
            rcases hzuNs with rfl | hh
            · exact hPu
            · exact chain_trans' c.hpo hzold hh hPu
          obtain ⟨qz0, hqz0, _, hxz⟩ := hval z hzold p hp
          have hunsh := c.P_branch_unshifted hzold (Or.inr hPz)
          have hle := c.P_branch_le hzold (Or.inr hPz) hqz0
          rcases hxz with ⟨hSz, _⟩ | ⟨_, hz1⟩
          · exact absurd hSz hunsh
          · rw [get_set_self_inv m1 _ hq, hz1]
            unfold horizontalSpacing at *
            omega
        · -- z is the fresh node itself, but it cannot lie in an old child's
          -- branch
          exfalso
          rcases hzu with heq | hh
          · exact absurd (congrArg CNode.id heq).symm (c.hfresh u huold)
          · rw [c.chain_n] at hh
            rcases List.mem_cons.mp hh with rfl | hh'
            · have := c.hpo u huold u.parentId.get!
                (by rw [hupar]; rfl) u (by
                  rw [show u.parentId.get! = u.id from by rw [hupar]; rfl]
                  exact find?_id_self c.hnd huold)
              omega
            · have h1 := chain_depth_lt' c.hpo c.hP hh'
              have h2 := depth_child c.hpo huold hupar hfindPns
              omega
      · exact absurd htsuv (lt_irrefl _)
  · -- rmspread
    intro w hw q hq hcount
    rcases c.mem_split hw with hwold | rfl
    · by_cases hwP : w = P
      · subst hwP
        have hcnt : ((ns ++ [n]).filter
            (fun x => x.parentId = some w.id)).length =
            (ns.filter (fun x => x.parentId = some w.id)).length + 1 := by
          rw [c.childrenP, List.length_append]
          rfl
        rw [hcnt]
        have hqp : q = ppos := Option.some_inj.mp (hvalP.symm.trans hq).symm
        subst hqp
        -- the freshly placed node witnesses the required spread
        have hndesc : n.id ∈ getAllDescendants w.id (ns ++ [n]) := by
          refine chain_to_desc _ n w c.hnmem' ?_
          rw [c.chain_n]
          exact List.mem_cons_self _ _
        have h1 := rmx_ge_desc hndesc hvaln
        have h2 := c.rmx_lower hC
        have hc1 : 1 ≤ (ns.filter (fun x => x.parentId = some w.id)).length := hC
        rw [Nat.cast_sub hc1] at h2
        push_cast
        push_cast at h2
        unfold horizontalSpacing at *
        omega
      · have hwidP : w.id ≠ P.id := fun hh => hwP (id_inj c.hnd hwold c.hP hh)
        rw [c.children_other hwidP] at hcount ⊢
        obtain ⟨qw0, hqw0, _, hxw⟩ := hval w hwold q hq
        have hold := c.hG.rmspread w hwold qw0 hqw0 hcount
        rcases hxw with ⟨hSw, hw1⟩ | ⟨_, hw1⟩
        · -- the whole branch moved one step right, achiever included
          obtain ⟨y, hymem, hypath, r, hr, hrEq⟩ := c.rmx_achiever_gen hwold hqw0
          have hSy : y.id ∈ shiftedIdsSpec m ppos.1 (ns ++ [n]).length n
              (ns ++ [n]) := by
            refine c.shifted_down (List.mem_append_left _ hwold)
              (List.mem_append_left _ hymem) hSw ?_
            rcases hypath with rfl | hh
            · exact Or.inl rfl
            · exact Or.inr (by rw [c.chain_eq hymem]; exact hh)
          have hyval : mapGet (mapSet m1 n.id
              (getRightmostDescendantX P.id (ns ++ [n]) m + horizontalSpacing,
                ppos.2 + verticalSpacing)) y.id =
              some (r.1 + horizontalSpacing, r.2) := by
            rw [c.get_after_set_old hymem _ m1]
            have := agrees_get_some hA hr
            rw [if_pos hSy] at this
            exact this
          have hge : r.1 + horizontalSpacing ≤ getRightmostDescendantX w.id
              (ns ++ [n]) (mapSet m1 n.id
                (getRightmostDescendantX P.id (ns ++ [n]) m + horizontalSpacing,
                  ppos.2 + verticalSpacing)) := by
            rcases hypath with rfl | hh
            · exact rmx_ge_self hyval
            · have hdesc := c.desc_carry hymem (Or.inr hh) hwold
              unfold branchIds at hdesc
              rcases List.mem_cons.mp hdesc with hid | hdesc'
              · have : y = w := id_inj c.hnd hymem hwold hid
                subst this
                exact rmx_ge_self hyval
              · exact rmx_ge_desc hdesc' hyval
          rw [hw1]
          rw [hrEq] at hold
          omega
        · -- the branch stayed: the scan can only have grown
          have hkeep : ∀ y ∈ ns, ∀ r, mapGet m y.id = some r →
              ∃ r2, mapGet (mapSet m1 n.id
                (getRightmostDescendantX P.id (ns ++ [n]) m + horizontalSpacing,
                  ppos.2 + verticalSpacing)) y.id = some r2 ∧ r.1 ≤ r2.1 := by
            intro y hy r hr
            refine ⟨if y.id ∈ shiftedIdsSpec m ppos.1 (ns ++ [n]).length n
                (ns ++ [n]) then (r.1 + horizontalSpacing, r.2) else r, ?_, ?_⟩
            · rw [c.get_after_set_old hy _ m1]
              exact agrees_get_some hA hr
            · by_cases hS : y.id ∈ shiftedIdsSpec m ppos.1
                  (ns ++ [n]).length n (ns ++ [n])
              · rw [if_pos hS]
                unfold horizontalSpacing
                omega
              · rw [if_neg hS]
          have hpers := c.rmx_persist hwold hkeep
          rw [hw1]
          omega
    · rw [c.children_n] at hcount
      exact absurd hcount (by simp)

/-- Inserting a branch child: the candidate is exactly one step right of the
subtree's rightmost column, displacement moves the qualifying branches, the
collision loop finds nothing, and the bundle is restored. -/
theorem good_branch (c : StepCtx ns m n P ppos)
    (hC : 0 < (ns.filter (fun x => x.parentId = some P.id)).length) :
    GoodState (ns ++ [n]) (layoutStore ⟨ns ++ [n], none⟩ m) := by
  have hidxne : ¬ ((ns ++ [n]).filter
      (fun x => x.parentId = some P.id)).findIdx (fun x => x.id = n.id) = 0 := by
    rw [c.idx_n]
    omega
  have hmax : max (ppos.1 +
        ((((ns ++ [n]).filter (fun x => x.parentId = some P.id)).findIdx
          (fun x => x.id = n.id) : Nat) : Int) * horizontalSpacing)
      (getRightmostDescendantX P.id (ns ++ [n]) m + horizontalSpacing) =
      getRightmostDescendantX P.id (ns ++ [n]) m + horizontalSpacing := by
    apply max_eq_right
    rw [c.idx_n]
    have hlow := c.rmx_lower hC
    have hc1 : 1 ≤ (ns.filter (fun x => x.parentId = some P.id)).length := hC
    rw [Nat.cast_sub hc1] at hlow
    push_cast at hlow ⊢
    unfold horizontalSpacing at *
    omega
  have hmap : layoutStore ⟨ns ++ [n], none⟩ m =
      mapSet (shiftAllAncestorSiblings n.id (ns ++ [n]) m) n.id
        (getRightmostDescendantX P.id (ns ++ [n]) m + horizontalSpacing,
          ppos.2 + verticalSpacing) := by
    rw [c.pass_eq]
    unfold placeOne
    rw [c.hnhas]
    simp only [Bool.false_eq_true, if_false]
    rw [c.hnpar]
    dsimp only
    rw [c.hppos]
    dsimp only
    rw [if_neg hidxne]
    rw [c.hfindP]
    dsimp only
    rw [hmax]
    rw [resolveCollisions_noop_any 50 n.id _ (ns ++ [n]) _
      c.branch_no_collision]
  rw [hmap]
  exact c.good_branch_restore hC c.step_agrees

end StepCtx

/-- The very first insertion: the root is locked at the origin. -/
theorem good_root {n : CNode} (hnone : n.parentId = none) :
    GoodState [n] (layoutStore ⟨[n], none⟩ []) := by
  have hmap : layoutStore ⟨[n], none⟩ [] =
      [(n.id, ((0 : Int), (0 : Int)))] := by
    unfold layoutStore layoutPass
    dsimp only
    rw [sortByTimestamp_eq_self [n] (List.pairwise_singleton _ _)]
    simp only [List.foldl_cons, List.foldl_nil]
    unfold placeOne
    have h1 : mapHas [] n.id = false := rfl
    rw [h1]
    simp only [Bool.false_eq_true, if_false]
    rw [hnone]
    rfl
  rw [hmap]
  have hget : mapGet [(n.id, ((0 : Int), (0 : Int)))] n.id =
      some ((0 : Int), (0 : Int)) := by
    simp [mapGet]
  refine ⟨?_, ?_, ?_, ?_, ?_, ?_, ?_, ?_⟩
  · intro u hu
    rcases List.mem_singleton.mp hu with rfl
    exact ⟨_, hget⟩
  · intro id p hp
    by_cases hid : n.id = id
    · exact ⟨n, List.mem_singleton.mpr rfl, hid⟩
    · exfalso
      unfold mapGet at hp
      rw [List.find?_cons_of_neg] at hp
      · rw [List.find?_nil] at hp
        cases hp
      · simpa using hid
  · intro u hu p hp
    rcases List.mem_singleton.mp hu with rfl
    rw [hget] at hp
    rw [← Option.some_inj.mp hp]
    rw [depth_root hnone]
    simp
  · intro u hu p hp
    rcases List.mem_singleton.mp hu with rfl
    rw [hget] at hp
    rw [← Option.some_inj.mp hp]
    exact ⟨0, by simp⟩
  · intro u hu pid hpar
    rcases List.mem_singleton.mp hu with rfl
    rw [hnone] at hpar
    cases hpar
  · intro u hu pid hpar
    rcases List.mem_singleton.mp hu with rfl
    rw [hnone] at hpar
    cases hpar
  · intro u hu v hv pid hpar
    rcases List.mem_singleton.mp hu with rfl
    rw [hnone] at hpar
    cases hpar
  · intro w hw q hq hcount
    rcases List.mem_singleton.mp hw with rfl
    exfalso
    have hfil : [w].filter (fun x => x.parentId = some w.id) = [] := by
      simp [hnone]
    rw [hfil] at hcount
    exact absurd hcount (by simp)

theorem sr_nil_store {ns : List CNode} {m : PosMap} (h : SRReachable ns m) :
    ns = [] → m = [] := by
  cases h with
  | nil => intro _; rfl
  | insert n hprev _ _ _ =>
    intro heq
    exact absurd heq (by simp)

/-- Every single-root insertion-built state satisfies the invariant bundle. -/
theorem srreachable_good {ns : List CNode} {m : PosMap}
    (h : SRReachable ns m) : GoodState ns m := by
  induction h with
  | nil =>
    refine ⟨?_, ?_, ?_, ?_, ?_, ?_, ?_, ?_⟩
    · intro u hu; cases hu
    · intro id p hp; cases hp
    · intro u hu; cases hu
    · intro u hu; cases hu
    · intro u hu; cases hu
    · intro u hu; cases hu
    · intro u hu; cases hu
    · intro w hw; cases hw
  | insert n hr hfresh hts hpar ih =>
    rename_i ns m
    rcases hpar with ⟨rfl, hnone⟩ | ⟨P, hP, hnpar⟩
    · -- the first node: the store so far is empty
      have hm : m = [] := sr_nil_store hr rfl
      subst hm
      exact good_root hnone
    · have hSR' : SRReachable (ns ++ [n]) (layoutStore ⟨ns ++ [n], none⟩ m) :=
        SRReachable.insert n hr hfresh hts (Or.inr ⟨P, hP, hnpar⟩)
      have hre := hr.toReachable
      have hre' := hSR'.toReachable
      obtain ⟨ppos, hppos⟩ := ih.placed P hP
      have c : StepCtx ns m n P ppos :=
        { hG := ih
          hnd := reachable_ids_nodup hre
          hpo := reachable_parents_older _ _ hre
          hclosed := closed_find (reachable_closed _ _ hre)
          hroot := hr.root_unique
          hts := reachable_timestamps _ _ hre
          hnd' := reachable_ids_nodup hre'
          hpo' := reachable_parents_older _ _ hre'
          hclosed' := closed_find (reachable_closed _ _ hre')
          hroot' := hSR'.root_unique
          hts' := reachable_timestamps _ _ hre'
          hfresh := hfresh
          htsn := hts
          hP := hP
          hnpar := hnpar
          hppos := hppos }
      by_cases hCempty : ns.filter (fun x => x.parentId = some P.id) = []
      · exact c.good_first hCempty
      · exact c.good_branch (List.length_pos.mpr hCempty)

/-- C1 (amended).  Restricted to single-root snapshots — states built by
repeated single-node insertion in which every node after the first names an
existing parent — the no-overlap guarantee holds globally: the locked
positions of any two distinct nodes of the snapshot never overlap per
`wouldOverlap`, at every state, not merely at lock time.  With several
roots the guarantee fails (see the counterexample): every parentless node
is locked at the origin unconditionally, with no occupancy check. -/
theorem C1_single_root_no_overlap (ns : List CNode) (m : PosMap)
    (h : SRReachable ns m) :
    ∀ u ∈ ns, ∀ v ∈ ns, u ≠ v → ∀ p q,
      mapGet m u.id = some p → mapGet m v.id = some q →
      wouldOverlap p q = false := by
  intro u hu v hv hne p q hp hq
  have hre := h.toReachable
  exact goodstate_no_overlap (srreachable_good h) (reachable_ids_nodup hre)
    (reachable_parents_older _ _ hre) (closed_find (reachable_closed _ _ hre))
    h.root_unique (reachable_timestamps _ _ hre) hu hv hne hp hq

theorem C1_single_root_no_overlap_witness :
    wouldOverlap ((0 : Int), (0 : Int)) ((0 : Int), (180 : Int)) = false := by
  have h1 : SRReachable ([] ++ [(⟨"r", none, 0⟩ : CNode)])
      (layoutStore ⟨[] ++ [(⟨"r", none, 0⟩ : CNode)], none⟩ []) :=
    SRReachable.insert ⟨"r", none, 0⟩ SRReachable.nil
      (by intro x hx; cases hx) (by intro x hx; cases hx)
      (Or.inl ⟨rfl, rfl⟩)
  have h2 : SRReachable
      (([] ++ [(⟨"r", none, 0⟩ : CNode)]) ++ [(⟨"a", some "r", 1⟩ : CNode)])
      (layoutStore
        ⟨([] ++ [(⟨"r", none, 0⟩ : CNode)]) ++ [(⟨"a", some "r", 1⟩ : CNode)],
          none⟩
        (layoutStore ⟨[] ++ [(⟨"r", none, 0⟩ : CNode)], none⟩ [])) :=
    SRReachable.insert ⟨"a", some "r", 1⟩ h1 (by decide) (by decide)
      (Or.inr ⟨⟨"r", none, 0⟩, by decide, rfl⟩)
  exact C1_single_root_no_overlap _ _ h2
    ⟨"r", none, 0⟩ (by decide) ⟨"a", some "r", 1⟩ (by decide) (by decide)
    ((0 : Int), (0 : Int)) ((0 : Int), (180 : Int)) (by decide) (by decide)

/-- C3 (amended).  In single-root insertion-built states every first child
(sibling index 0 among its parent's children in creation order)
permanently shares its parent's x coordinate and sits exactly one
`verticalSpacing` below it — the alignment holds at every state, surviving
all later insertions, because displacement always moves whole branches
parent included and a first child's own column never qualifies for
displacement.  For forests the persistent alignment fails (see the
counterexample): collision resolution against another root's subtree can
shift a first child's branch while its parent stays. -/
theorem C3_single_root_first_child (ns : List CNode) (m : PosMap)
    (h : SRReachable ns m) :
    ∀ u ∈ ns, ∀ pid, u.parentId = some pid →
      (ns.filter (fun x => x.parentId = some pid)).findIdx
        (fun x => x.id = u.id) = 0 →
      ∀ w, ns.find? (fun x => x.id = pid) = some w →
      ∀ p q, mapGet m u.id = some p → mapGet m w.id = some q →
        p.1 = q.1 ∧ p.2 = q.2 + verticalSpacing := by
  intro u hu pid hpar hidx w hfind p q hp hq
  have hG := srreachable_good h
  have hre := h.toReachable
  refine ⟨hG.firstchild u hu pid hpar hidx w hfind p q hp hq, ?_⟩
  have hpo := reachable_parents_older _ _ hre
  have hwmem : w ∈ ns := List.mem_of_find?_eq_some hfind
  have hdu := depth_child hpo hu hpar hfind
  have hyu := hG.ydepth u hu p hp
  have hyw := hG.ydepth w hwmem q hq
  rw [hdu] at hyu
  unfold verticalSpacing at *
  push_cast at hyu
  omega

theorem C3_single_root_first_child_witness :
    (0 : Int) = 0 ∧ (180 : Int) = 0 + verticalSpacing := by
  have h1 : SRReachable ([] ++ [(⟨"r", none, 0⟩ : CNode)])
      (layoutStore ⟨[] ++ [(⟨"r", none, 0⟩ : CNode)], none⟩ []) :=
    SRReachable.insert ⟨"r", none, 0⟩ SRReachable.nil
      (by intro x hx; cases hx) (by intro x hx; cases hx)
      (Or.inl ⟨rfl, rfl⟩)
  have h2 : SRReachable
      (([] ++ [(⟨"r", none, 0⟩ : CNode)]) ++ [(⟨"a", some "r", 1⟩ : CNode)])
      (layoutStore
        ⟨([] ++ [(⟨"r", none, 0⟩ : CNode)]) ++ [(⟨"a", some "r", 1⟩ : CNode)],
          none⟩
        (layoutStore ⟨[] ++ [(⟨"r", none, 0⟩ : CNode)], none⟩ [])) :=
    SRReachable.insert ⟨"a", some "r", 1⟩ h1 (by decide) (by decide)
      (Or.inr ⟨⟨"r", none, 0⟩, by decide, rfl⟩)
  exact C3_single_root_first_child _ _ h2
    ⟨"a", some "r", 1⟩ (by decide) "r" rfl (by decide) ⟨"r", none, 0⟩
    (by decide) ((0 : Int), (180 : Int)) ((0 : Int), (0 : Int))
    (by decide) (by decide)

end Clarity
